import Mathlib

/-! # Seti icon configuration: synthesis, repair and durable write

A shallow embedding of `src/lib/icon.js` and of the recovery / commit functions of
`src/extension.js`, followed by theorems about them.

Modelling conventions.

* JavaScript values that flow through the code are JSON values; an array additionally carries
  the named (non-index) properties that strict-mode assignments may have attached to it.
  An object is the list of its own properties in enumeration order.  Objects produced by
  `JSON.parse` have pairwise distinct keys; theorems that depend on that say so.
* A thrown exception is an `Except.error` (or the error component of a pair when the
  mutations made before the throw stay observable).
* `JSON.parse`, `JSON.stringify`, `String.prototype.toLowerCase` and the loose comparison
  `x > 0` belong to the JavaScript runtime, not to the repository: they are fields of
  `JsRuntime`, and nothing is assumed about them unless a theorem states it as a hypothesis.
* Paths are POSIX strings; `path.normalize`, `path.join`, `path.basename`, `path.dirname` and
  `path.relative` follow Node's `path.posix`.  The file system is a tree of directories and
  regular files without symbolic links or permissions; a path is resolved lexically from the
  root directory.
* Asynchronous functions are sequenced: the state after a call is the state once every
  awaited step has finished.  The one callback that is *not* awaited by the source (the
  search fallback inside `fixIconPaths`) is modelled separately by `deferredIconPath`.
-/

namespace SetiIcons

/-! ## JavaScript values -/

/-- Exceptions distinguished by the model. -/
inductive JsError where
  | typeError
  | syntaxError
  | fsError
  | error
  deriving DecidableEq

/-- JSON values as JavaScript sees them at run time. -/
inductive Json where
  | null
  | bool (b : Bool)
  | num (n : Int)
  | str (s : String)
  | arr (items : List Json) (props : List (String × Json))
  | obj (props : List (String × Json))

mutual
/-- Decision of equality between two values. -/
def Json.decEq : (a b : Json) → Decidable (a = b)
  | .null, .null => isTrue rfl
  | .bool a, .bool b => if h : a = b then isTrue (by rw [h]) else isFalse (by intro h'; cases h'; exact h rfl)
  | .num a, .num b => if h : a = b then isTrue (by rw [h]) else isFalse (by intro h'; cases h'; exact h rfl)
  | .str a, .str b => if h : a = b then isTrue (by rw [h]) else isFalse (by intro h'; cases h'; exact h rfl)
  | .arr xs ps, .arr ys qs =>
    match Json.decEqList xs ys, Json.decEqProps ps qs with
    | isTrue h1, isTrue h2 => isTrue (by rw [h1, h2])
    | isFalse h1, _ => isFalse (by intro h'; cases h'; exact h1 rfl)
    | _, isFalse h2 => isFalse (by intro h'; cases h'; exact h2 rfl)
  | .obj ps, .obj qs =>
    match Json.decEqProps ps qs with
    | isTrue h => isTrue (by rw [h])
    | isFalse h => isFalse (by intro h'; cases h'; exact h rfl)
  | .null, .bool _ => isFalse nofun
  | .null, .num _ => isFalse nofun
  | .null, .str _ => isFalse nofun
  | .null, .arr _ _ => isFalse nofun
  | .null, .obj _ => isFalse nofun
  | .bool _, .null => isFalse nofun
  | .bool _, .num _ => isFalse nofun
  | .bool _, .str _ => isFalse nofun
  | .bool _, .arr _ _ => isFalse nofun
  | .bool _, .obj _ => isFalse nofun
  | .num _, .null => isFalse nofun
  | .num _, .bool _ => isFalse nofun
  | .num _, .str _ => isFalse nofun
  | .num _, .arr _ _ => isFalse nofun
  | .num _, .obj _ => isFalse nofun
  | .str _, .null => isFalse nofun
  | .str _, .bool _ => isFalse nofun
  | .str _, .num _ => isFalse nofun
  | .str _, .arr _ _ => isFalse nofun
  | .str _, .obj _ => isFalse nofun
  | .arr _ _, .null => isFalse nofun
  | .arr _ _, .bool _ => isFalse nofun
  | .arr _ _, .num _ => isFalse nofun
  | .arr _ _, .str _ => isFalse nofun
  | .arr _ _, .obj _ => isFalse nofun
  | .obj _, .null => isFalse nofun
  | .obj _, .bool _ => isFalse nofun
  | .obj _, .num _ => isFalse nofun
  | .obj _, .str _ => isFalse nofun
  | .obj _, .arr _ _ => isFalse nofun
/-- Decision of equality between two lists of values. -/
def Json.decEqList : (a b : List Json) → Decidable (a = b)
  | [], [] => isTrue rfl
  | [], _ :: _ => isFalse nofun
  | _ :: _, [] => isFalse nofun
  | x :: xs, y :: ys =>
    match Json.decEq x y, Json.decEqList xs ys with
    | isTrue h1, isTrue h2 => isTrue (by rw [h1, h2])
    | isFalse h1, _ => isFalse (by intro h'; cases h'; exact h1 rfl)
    | _, isFalse h2 => isFalse (by intro h'; cases h'; exact h2 rfl)
/-- Decision of equality between two property lists. -/
def Json.decEqProps : (a b : List (String × Json)) → Decidable (a = b)
  | [], [] => isTrue rfl
  | [], _ :: _ => isFalse nofun
  | _ :: _, [] => isFalse nofun
  | (k, x) :: xs, (l, y) :: ys =>
    if hk : k = l then
      match Json.decEq x y, Json.decEqProps xs ys with
      | isTrue h1, isTrue h2 => isTrue (by rw [hk, h1, h2])
      | isFalse h1, _ => isFalse (by intro h'; cases h'; exact h1 rfl)
      | _, isFalse h2 => isFalse (by intro h'; cases h'; exact h2 rfl)
    else isFalse (by intro h'; cases h'; exact hk rfl)
end

instance : DecidableEq Json := Json.decEq

deriving instance DecidableEq for Except

/-- First binding of key `k` in a property list. -/
def assocGet {β : Type} : List (String × β) → String → Option β
  | [], _ => none
  | (k', v) :: rest, k => if k' = k then some v else assocGet rest k

/-- Property definition: overwrite the first binding of `k` in place, or append a new one. -/
def assocSet {β : Type} : List (String × β) → String → β → List (String × β)
  | [], k, v => [(k, v)]
  | (k', v') :: rest, k, v =>
    if k' = k then (k, v) :: rest else (k', v') :: assocSet rest k v

/-- Removal of every binding of `k`. -/
def assocErase {β : Type} (l : List (String × β)) (k : String) : List (String × β) :=
  l.filter (fun kv => decide (kv.1 ≠ k))

/-- JavaScript truthiness of a value. -/
def truthy : Json → Bool
  | .null => false
  | .bool b => b
  | .num n => decide (n ≠ 0)
  | .str s => decide (s ≠ "")
  | .arr _ _ => true
  | .obj _ => true

/-- Truthiness of a possibly `undefined` value. -/
def truthyOpt : Option Json → Bool
  | none => false
  | some v => truthy v

/-- The test `typeof v === "object"`. -/
def typeofObject : Json → Bool
  | .null => true
  | .arr _ _ => true
  | .obj _ => true
  | _ => false

/-- Property read `v.k` for a non-index name `k` other than `length`: a `TypeError` on `null`,
`undefined` on primitives, the own property otherwise. -/
def getProp (v : Json) (k : String) : Except JsError (Option Json) :=
  match v with
  | .null => .error .typeError
  | .obj ps => .ok (assocGet ps k)
  | .arr _ ps => .ok (assocGet ps k)
  | _ => .ok none

/-- Strict-mode property assignment `v.k = x` for a non-index name `k`: a `TypeError` on
`null` and on primitives. -/
def setProp (v : Json) (k : String) (x : Json) : Except JsError Json :=
  match v with
  | .obj ps => .ok (.obj (assocSet ps k x))
  | .arr items ps => .ok (.arr items (assocSet ps k x))
  | _ => .error .typeError

/-- The test `v.k` used as a condition, on a value `v` that is not `null`. -/
def propTruthy (v : Json) (k : String) : Bool :=
  match getProp v k with
  | .ok x => truthyOpt x
  | .error _ => false

/-- Index keys `"i"`, `"i+1"`, ... paired with the elements of an array. -/
def indexedFrom : Nat → List Json → List (String × Json)
  | _, [] => []
  | i, x :: xs => (toString i, x) :: indexedFrom (i + 1) xs

/-- Own enumerable string-keyed properties, as `Object.entries` and object spread see them. -/
def ownEntries : Json → List (String × Json)
  | .obj ps => ps
  | .arr items ps => indexedFrom 0 items ++ ps
  | .str s => indexedFrom 0 (s.data.map (fun c => Json.str (String.singleton c)))
  | _ => []

/-- One operand of an object spread, `{...acc, ...src}`; `undefined` and `null` add nothing. -/
def spreadInto (acc : List (String × Json)) (src : Option Json) : List (String × Json) :=
  match src with
  | none => acc
  | some v => (ownEntries v).foldl (fun a kv => assocSet a kv.1 kv.2) acc

/-- The object literal `{...a, ...b}`. -/
def spread2 (a b : Option Json) : Json :=
  .obj (spreadInto (spreadInto [] a) b)

/-- The element read `v[0]`. -/
def getIndex0 (v : Json) : Except JsError (Option Json) :=
  match v with
  | .null => .error .typeError
  | .arr items _ => .ok items.head?
  | .str s => .ok (s.data.head?.map (fun c => Json.str (String.singleton c)))
  | .obj ps => .ok (assocGet ps "0")
  | _ => .ok none

/-- Services of the JavaScript runtime that the repository calls but does not define. -/
structure JsRuntime where
  /-- `JSON.parse`; `none` stands for a thrown `SyntaxError`. -/
  parse : String → Option Json
  /-- `JSON.stringify(v)`. -/
  stringify : Json → String
  /-- `JSON.stringify(v, null, 2)`. -/
  stringifyIndented : Json → String
  /-- The comparison `x > 0` when `x` is a string, an array or an object. -/
  looseGtZero : Json → Bool
  /-- The method `String.prototype.toLowerCase`. -/
  toLowerCase : String → String

/-- The comparison `v.length > 0` on a value `v` that is not `null`. -/
def lengthGtZero (J : JsRuntime) (v : Json) : Bool :=
  match v with
  | .arr items _ => !items.isEmpty
  | .str s => decide (s ≠ "")
  | .obj ps =>
    match assocGet ps "length" with
    | none => false
    | some .null => false
    | some (.bool b) => b
    | some (.num n) => decide (0 < n)
    | some x => J.looseGtZero x
  | _ => false

/-! ## POSIX paths -/

/-- Splitting at every `/`. -/
def splitSlash : List Char → List (List Char)
  | [] => [[]]
  | c :: cs =>
    if c = '/' then [] :: splitSlash cs
    else
      match splitSlash cs with
      | [] => [[c]]
      | seg :: rest => (c :: seg) :: rest

/-- One step of Node's `normalizeString`; the stack holds the kept segments, last one first. -/
def normStep (allowAbove : Bool) (stack : List (List Char)) (seg : List Char) :
    List (List Char) :=
  if seg = [] ∨ seg = ['.'] then stack
  else if seg = ['.', '.'] then
    match stack with
    | [] => if allowAbove then [seg] else []
    | top :: rest =>
      if top = ['.', '.'] then (if allowAbove then seg :: stack else stack) else rest
  else seg :: stack

/-- Segments left after resolving `.` and `..`. -/
def normSegs (allowAbove : Bool) (segs : List (List Char)) : List (List Char) :=
  (segs.foldl (normStep allowAbove) []).reverse

/-- Segments joined by `/`. -/
def joinSlash : List (List Char) → List Char
  | [] => []
  | [s] => s
  | s :: t :: rest => s ++ '/' :: joinSlash (t :: rest)

/-- The test `path.isAbsolute(p)`. -/
def isAbsolute (p : String) : Bool :=
  p.data.head? = some '/'

/-- The function `path.normalize`. -/
def normalize (p : String) : String :=
  if p = "" then "."
  else
    let isAbs := isAbsolute p
    let trailing := decide (p.data.getLast? = some '/')
    let body := joinSlash (normSegs (!isAbs) (splitSlash p.data))
    if body = [] then (if isAbs then "/" else if trailing then "./" else ".")
    else String.mk ((if isAbs then ['/'] else []) ++ body ++ (if trailing then ['/'] else []))

/-- The concatenation step of `path.join`: the non-empty arguments separated by `/`. -/
def joinRaw : List String → Option String
  | [] => none
  | a :: rest =>
    match joinRaw rest with
    | none => if a = "" then none else some a
    | some r => if a = "" then some r else some (a ++ "/" ++ r)

/-- The function `path.join`. -/
def pathJoin (parts : List String) : String :=
  match joinRaw parts with
  | none => "."
  | some joined => normalize joined

/-- The function `path.basename(p)`. -/
def basename (p : String) : String :=
  let r := p.data.reverse.dropWhile (fun c => c = '/')
  String.mk (r.takeWhile (fun c => c ≠ '/')).reverse

/-- The function `path.dirname(p)`. -/
def dirname (p : String) : String :=
  match p.data with
  | [] => "."
  | c :: cs =>
    let r1 := cs.reverse.dropWhile (fun x => x = '/')
    match r1.dropWhile (fun x => x ≠ '/') with
    | [] => if c = '/' then "/" else "."
    | _ :: r3 => if c = '/' ∧ r3 = [] then "//" else String.mk (c :: r3.reverse)

/-- Removal of the common leading segments of two segment lists. -/
def dropCommon : List (List Char) → List (List Char) → List (List Char) × List (List Char)
  | a :: as, b :: bs => if a = b then dropCommon as bs else (a :: as, b :: bs)
  | as, bs => (as, bs)

/-- The function `path.relative(src, dst)`, the working directory being the root. -/
def relative (src dst : String) : String :=
  let r := dropCommon (normSegs false (splitSlash src.data)) (normSegs false (splitSlash dst.data))
  String.mk (joinSlash (r.1.map (fun _ => ['.', '.']) ++ r.2))

/-- The test `s.startsWith(pre)` on character lists. -/
def startsWithChars : List Char → List Char → Bool
  | _, [] => true
  | [], _ :: _ => false
  | a :: as, b :: bs => a = b && startsWithChars as bs

/-- The test `s.startsWith(pre)`. -/
def jsStartsWith (s pre : String) : Bool :=
  startsWithChars s.data pre.data

/-- The test `s.includes(sub)` on character lists. -/
def includesChars : List Char → List Char → Bool
  | [], sub => startsWithChars [] sub
  | c :: cs, sub => startsWithChars (c :: cs) sub || includesChars cs sub

/-- The test `s.includes(sub)`. -/
def jsIncludes (s sub : String) : Bool :=
  includesChars s.data sub.data

/-- Lower-casing of the ASCII letters, which is what `toLowerCase` does to ASCII text. -/
def asciiLowerCase (s : String) : String :=
  String.mk (s.data.map Char.toLower)

/-- Characters matched by the regular expression class `\s`. -/
def isJsWhitespace (c : Char) : Bool :=
  let n := c.toNat
  n = 9 || n = 10 || n = 11 || n = 12 || n = 13 || n = 32 || n = 160 || n = 5760 ||
    (8192 ≤ n && n ≤ 8202) || n = 8232 || n = 8233 || n = 8239 || n = 8287 || n = 12288 ||
    n = 65279

/-- The replacement `s.replace(/[\s.]/g, "-")`. -/
def replaceSpaceDot (s : String) : String :=
  String.mk (s.data.map (fun c => if isJsWhitespace c || c = '.' then '-' else c))

/-- The replacement `s.replace(/\\/g, "/")`. -/
def replaceBackslash (s : String) : String :=
  String.mk (s.data.map (fun c => if c = Char.ofNat 92 then '/' else c))

/-! ## File system -/

/-- A regular file with its content, or a directory with its entries in listing order. -/
inductive Node where
  | file (content : String)
  | dir (entries : List (String × Node))

mutual
/-- Decision of equality between two nodes. -/
def Node.decEq : (a b : Node) → Decidable (a = b)
  | .file a, .file b =>
    if h : a = b then isTrue (by rw [h]) else isFalse (by intro h'; cases h'; exact h rfl)
  | .dir es, .dir fs =>
    match Node.decEqEntries es fs with
    | isTrue h => isTrue (by rw [h])
    | isFalse h => isFalse (by intro h'; cases h'; exact h rfl)
  | .file _, .dir _ => isFalse nofun
  | .dir _, .file _ => isFalse nofun
/-- Decision of equality between two directory listings. -/
def Node.decEqEntries : (a b : List (String × Node)) → Decidable (a = b)
  | [], [] => isTrue rfl
  | [], _ :: _ => isFalse nofun
  | _ :: _, [] => isFalse nofun
  | (k, x) :: xs, (l, y) :: ys =>
    if hk : k = l then
      match Node.decEq x y, Node.decEqEntries xs ys with
      | isTrue h1, isTrue h2 => isTrue (by rw [hk, h1, h2])
      | isFalse h1, _ => isFalse (by intro h'; cases h'; exact h1 rfl)
      | _, isFalse h2 => isFalse (by intro h'; cases h'; exact h2 rfl)
    else isFalse (by intro h'; cases h'; exact hk rfl)
end

instance : DecidableEq Node := Node.decEq

/-- Whether a node is a directory. -/
def Node.isDir : Node → Bool
  | .dir _ => true
  | .file _ => false

/-- The node reached from `n` along a list of entry names. -/
def Node.get : Node → List String → Option Node
  | n, [] => some n
  | .file _, _ :: _ => none
  | .dir es, s :: rest =>
    match assocGet es s with
    | some c => c.get rest
    | none => none

/-- Placing node `new` at a non-empty path whose parent directory exists. -/
def Node.put : Node → List String → Node → Option Node
  | _, [], _ => none
  | .file _, _ :: _, _ => none
  | .dir es, [s], new => some (.dir (assocSet es s new))
  | .dir es, s :: t :: rest, new =>
    match assocGet es s with
    | some c => (c.put (t :: rest) new).map (fun c' => Node.dir (assocSet es s c'))
    | none => none

/-- Removing the entry at a non-empty path. -/
def Node.remove : Node → List String → Option Node
  | _, [] => none
  | .file _, _ :: _ => none
  | .dir es, [s] => some (.dir (assocErase es s))
  | .dir es, s :: t :: rest =>
    match assocGet es s with
    | some c => (c.remove (t :: rest)).map (fun c' => Node.dir (assocSet es s c'))
    | none => none

/-- Creating the directories of a path that are missing (`mkdir -p`). -/
def Node.mkdirp : Node → List String → Option Node
  | .file _, _ => none
  | .dir es, [] => some (.dir es)
  | .dir es, s :: rest =>
    ((((assocGet es s).getD (Node.dir [])).mkdirp rest)).map
      (fun c' => Node.dir (assocSet es s c'))

/-- Entry names from the root to the file or directory a path string denotes. -/
def pathSegs (p : String) : List String :=
  (normSegs false (splitSlash p.data)).map String.mk

/-- Whether a path string ends in a separator. -/
def endsWithSlash (p : String) : Bool :=
  decide (p.data.getLast? = some '/')

/-- What a path string denotes: nothing, a file, or a directory. -/
def stat (fs : Node) (p : String) : Option Node :=
  if p = "" then none
  else
    match fs.get (pathSegs p) with
    | some (.file c) => if endsWithSlash p then none else some (.file c)
    | r => r

/-- The call `fs.existsSync(p)`. -/
def existsSync (fs : Node) (p : String) : Bool :=
  (stat fs p).isSome

/-- The call `fs.readFileSync(p, "utf8")`. -/
def readFileSync (fs : Node) (p : String) : Except JsError String :=
  match stat fs p with
  | some (.file c) => .ok c
  | _ => .error .fsError

/-- The call `fs.writeFileSync(p, content)`. -/
def writeFileSync (fs : Node) (p : String) (content : String) : Except JsError Node :=
  if p = "" ∨ endsWithSlash p = true then .error .fsError
  else
    match fs.get (pathSegs p) with
    | some (.dir _) => .error .fsError
    | _ =>
      match fs.put (pathSegs p) (.file content) with
      | some fs' => .ok fs'
      | none => .error .fsError

/-- The call `fs.copyFileSync(src, dst)`. -/
def copyFileSync (fs : Node) (src dst : String) : Except JsError Node :=
  match readFileSync fs src with
  | .ok c => writeFileSync fs dst c
  | .error e => .error e

/-- The call `fs.unlinkSync(p)`. -/
def unlinkSync (fs : Node) (p : String) : Except JsError Node :=
  match stat fs p with
  | some (.file _) =>
    match fs.remove (pathSegs p) with
    | some fs' => .ok fs'
    | none => .error .fsError
  | _ => .error .fsError

/-- The call `fs.renameSync(src, dst)` for a regular file `src`. -/
def renameSync (fs : Node) (src dst : String) : Except JsError Node :=
  match readFileSync fs src with
  | .ok c =>
    match writeFileSync fs dst c with
    | .ok fs1 => if pathSegs src = pathSegs dst then .ok fs1 else unlinkSync fs1 src
    | .error e => .error e
  | .error e => .error e

/-- The call `fs.mkdirSync(p, { recursive: true })`. -/
def mkdirSync (fs : Node) (p : String) : Except JsError Node :=
  if p = "" then .error .fsError
  else
    match fs.mkdirp (pathSegs p) with
    | some fs' => .ok fs'
    | none => .error .fsError

/-- The call `fs.readdirSync(p)` together with the `lstatSync` of every entry. -/
def readdirSync (fs : Node) (p : String) : Except JsError (List (String × Node)) :=
  match stat fs p with
  | some (.dir es) => .ok es
  | _ => .error .fsError

/-! ## `src/lib/icon.js` -/

mutual
/-- The recursive call of `findFileInDir` on a directory entry `startPath` whose node is known. -/
def findInNode (J : JsRuntime) (fileName startPath : String) : Node → Option String
  | .file _ => none
  | .dir es => findInEntries J fileName startPath es
/-- The loop of `findFileInDir` over the listing of `startPath`.  An entry is entered when it is
a directory whose joined path does not contain `node_modules`; every other entry is compared by
name, ignoring case. -/
def findInEntries (J : JsRuntime) (fileName startPath : String) :
    List (String × Node) → Option String
  | [] => none
  | (name, n) :: rest =>
    if n.isDir && !jsIncludes (pathJoin [startPath, name]) "node_modules" then
      match findInNode J fileName (pathJoin [startPath, name]) n with
      | some found => some found
      | none => findInEntries J fileName startPath rest
    else if J.toLowerCase name = J.toLowerCase fileName then some (pathJoin [startPath, name])
    else findInEntries J fileName startPath rest
end

/-- The function `findFileInDir(startPath, fileName)`; `ok none` is the result `null`. -/
def findFileInDir (J : JsRuntime) (fs : Node) (startPath fileName : String) :
    Except JsError (Option String) :=
  if !existsSync fs startPath then .ok none
  else
    match readdirSync fs startPath with
    | .ok es => .ok (findInEntries J fileName startPath es)
    | .error e => .error e

/-- One of the three guarded copies at the end of `verifyIconFilesExist`. -/
def copyIfMissing (fs : Node) (found : Option String) (target : String) : Except JsError Node :=
  match found with
  | none => .ok fs
  | some src => if !existsSync fs target then copyFileSync fs src target else .ok fs

/-- The function `verifyIconFilesExist(extensionPath)`: the file system it leaves behind and the
exception it throws, if any. -/
def verifyIconFilesExist (J : JsRuntime) (fs : Node) (extensionPath : String) :
    Node × Option JsError :=
  let fileSvg := pathJoin [extensionPath, "icons", "file.svg"]
  let folderSvg := pathJoin [extensionPath, "icons", "folder.svg"]
  let folderOpenSvg := pathJoin [extensionPath, "icons", "folder-open.svg"]
  let missingBasicIcons :=
    !existsSync fs fileSvg || !existsSync fs folderSvg || !existsSync fs folderOpenSvg
  if !missingBasicIcons then (fs, none)
  else
    let rootIconsDir := pathJoin [extensionPath, "icons"]
    match (if !existsSync fs rootIconsDir then mkdirSync fs rootIconsDir else .ok fs) with
    | .error e => (fs, some e)
    | .ok fs1 =>
      match findFileInDir J fs1 extensionPath "file.svg",
            findFileInDir J fs1 extensionPath "folder.svg",
            findFileInDir J fs1 extensionPath "folder-open.svg" with
      | .ok fileIcon, .ok folderIcon, .ok folderOpenIcon =>
        match copyIfMissing fs1 fileIcon fileSvg with
        | .error e => (fs1, some e)
        | .ok fs2 =>
          match copyIfMissing fs2 folderIcon folderSvg with
          | .error e => (fs2, some e)
          | .ok fs3 =>
            match copyIfMissing fs3 folderOpenIcon folderOpenSvg with
            | .error e => (fs3, some e)
            | .ok fs4 => (fs4, none)
      | .error e, _, _ => (fs1, some e)
      | _, .error e, _ => (fs1, some e)
      | _, _, .error e => (fs1, some e)

/-- The synchronous candidate tried by `fixIconPaths` for a path `p` missing at its declared
place: `p` without its leading `./`, or `p` with `./` added. -/
def correctedPath (fs : Node) (extensionPath p : String) : Option String :=
  if jsStartsWith p "./" then
    if existsSync fs (pathJoin [extensionPath, String.mk (p.data.drop 2)]) then
      some (String.mk (p.data.drop 2))
    else none
  else if !jsStartsWith p "./" && !isAbsolute p then
    if existsSync fs (pathJoin [extensionPath, "./" ++ p]) then some ("./" ++ p) else none
  else none

/-- The location `fullPath` that `fixIconPaths` tests for a path `p`. -/
def fullPath (extensionPath p : String) : String :=
  if isAbsolute p then p else pathJoin [extensionPath, p]

/-- The final statement of the loop body of `fixIconPaths`: a relative path that does not start
with a dot gets `./` in front. -/
def ensureDotted (p : String) : String :=
  if !isAbsolute p && !jsStartsWith p "." then "./" ++ p else p

/-- The string `value.iconPath` holds when the loop body of `fixIconPaths` has run
synchronously on a non-empty path `p`. -/
def fixedIconPath (fs : Node) (extensionPath p : String) : String :=
  if !existsSync fs (fullPath extensionPath p) then
    match correctedPath fs extensionPath p with
    | some c => if c = "" then ensureDotted p else ensureDotted c
    | none => ensureDotted p
  else ensureDotted p

/-- The body of the loop of `fixIconPaths` on one definition `value`, as far as it runs before
the function returns. -/
def fixIconPathValue (fs : Node) (extensionPath : String) (value : Json) : Except JsError Json :=
  match getProp value "iconPath" with
  | .error e => .error e
  | .ok none => .ok value
  | .ok (some ip) =>
    if !truthy ip then .ok value
    else
      match ip with
      | .str p =>
        if fixedIconPath fs extensionPath p = p then .ok value
        else setProp value "iconPath" (.str (fixedIconPath fs extensionPath p))
      | _ => .error .typeError

/-- The assignment to `value.iconPath` that the callback of the search fallback of
`fixIconPaths` makes after the function has returned: the new path, or `none` when the fallback
is not taken, finds nothing, or fails. -/
def deferredIconPath (J : JsRuntime) (fs : Node) (extensionPath : String) (value : Json) :
    Option String :=
  match getProp value "iconPath" with
  | .ok (some (.str p)) =>
    if p ≠ "" ∧ existsSync fs (fullPath extensionPath p) = false ∧
        (correctedPath fs extensionPath p = none ∨ correctedPath fs extensionPath p = some "") then
      match findFileInDir J fs extensionPath (basename p) with
      | .ok (some foundPath) => some ("./" ++ replaceBackslash (relative extensionPath foundPath))
      | _ => none
    else none
  | _ => none

/-- A loop `for (const [key, value] of Object.entries(o))` whose body mutates `value` or throws:
the entries after the loop and the exception that ended it, if any. -/
def forEntries (body : String → Json → Except JsError Json) :
    List (String × Json) → List (String × Json) × Option JsError
  | [] => ([], none)
  | (k, v) :: rest =>
    match body k v with
    | .error e => ((k, v) :: rest, some e)
    | .ok v' => ((k, v') :: (forEntries body rest).1, (forEntries body rest).2)

/-- The container `c` once the values of its entries have been mutated into `es`. -/
def withValues (c : Json) (es : List (String × Json)) : Json :=
  match c with
  | .obj _ => .obj es
  | .arr items _ => .arr ((es.take items.length).map Prod.snd) (es.drop items.length)
  | other => other

/-- The object `config` once the value it holds under `k` has been mutated into `x`. -/
def replaceProp (config : Json) (k : String) (x : Json) : Json :=
  match setProp config k x with
  | .ok c => c
  | .error _ => config

/-- A loop over `Object.entries(config.iconDefinitions)` guarded by
`if (!config.iconDefinitions) return;`: the configuration afterwards and the exception thrown,
if any. -/
def forIconDefinitions (body : String → Json → Except JsError Json) (config : Json) :
    Json × Option JsError :=
  match getProp config "iconDefinitions" with
  | .error e => (config, some e)
  | .ok none => (config, none)
  | .ok (some defs) =>
    if !truthy defs then (config, none)
    else
      (replaceProp config "iconDefinitions" (withValues defs (forEntries body (ownEntries defs)).1),
        (forEntries body (ownEntries defs)).2)

/-- The function `fixIconPaths(config, extensionPath)` up to its return. -/
def fixIconPaths (fs : Node) (extensionPath : String) (config : Json) : Json × Option JsError :=
  forIconDefinitions (fun _ value => fixIconPathValue fs extensionPath value) config

/-- The condition `key !== "_file" && key !== "_folder" && key !== "_folder_open"`. -/
def notReserved (key : String) : Bool :=
  key ≠ "_file" && key ≠ "_folder" && key ≠ "_folder_open"

/-- The statement `if (cond) { value.fontColor = "#519aba"; }`. -/
def assignDefaultColor (cond : Bool) (value : Json) : Except JsError Json :=
  if cond then setProp value "fontColor" (.str "#519aba") else .ok value

/-- The body of the loop of `fixIconColors` on one definition: the default color is assigned
when `!value.fontColor` holds under a key other than the three reserved ones, and again when
`value.fontCharacter && !value.fontColor` holds. -/
def fixIconColorValue (key : String) (value : Json) : Except JsError Json :=
  match getProp value "fontColor" with
  | .error e => .error e
  | .ok fontColor =>
    match assignDefaultColor (!truthyOpt fontColor && notReserved key) value with
    | .error e => .error e
    | .ok value1 =>
      assignDefaultColor (propTruthy value1 "fontCharacter" && !propTruthy value1 "fontColor")
        value1

/-- The function `fixIconColors(config)`. -/
def fixIconColors (config : Json) : Json × Option JsError :=
  forIconDefinitions fixIconColorValue config

/-- What the overlay's `iconDefinitions` container looks like once the definitions it shares
with the merged object have been mutated there. -/
def shareBack (container : Json) (merged : List (String × Json)) : Json :=
  withValues container
    ((ownEntries container).map (fun kv => (kv.1, (assocGet merged kv.1).getD kv.2)))

/-- The objects `mergeConfigurations` leaves behind: the value it returns and its two
arguments. -/
structure MergeOutcome where
  result : Json
  baseConfig : Json
  frameworkConfig : Json

/-- One of the three guarded binding merges of `mergeConfigurations`. -/
def mergeBinding (result frameworkConfig : Json) (k : String) : Except JsError Json :=
  match getProp frameworkConfig k with
  | .error e => .error e
  | .ok fw =>
    if truthyOpt fw then
      match getProp result k with
      | .error e => .error e
      | .ok own => setProp result k (spread2 own fw)
    else .ok result

/-- The state of `frameworkConfig` after the path repair ran over the merged definitions
`merged`, with which it shares its definition objects. -/
def overlayAfter (frameworkConfig : Json) (merged : Json) : Json :=
  match getProp frameworkConfig "iconDefinitions", getProp merged "iconDefinitions" with
  | .ok (some c), .ok (some m) =>
    replaceProp frameworkConfig "iconDefinitions" (shareBack c (ownEntries m))
  | _, _ => frameworkConfig

/-- The function `mergeConfigurations(baseConfig, frameworkConfig, extensionPath)`. -/
def mergeConfigurations (J : JsRuntime) (fs : Node) (baseConfig frameworkConfig : Json)
    (extensionPath : String) : MergeOutcome :=
  let failed : MergeOutcome := ⟨baseConfig, baseConfig, frameworkConfig⟩
  match J.parse (J.stringify baseConfig) with
  | none => failed
  | some result =>
    match getProp result "iconDefinitions", getProp frameworkConfig "iconDefinitions" with
    | .ok own, .ok fw =>
      match setProp result "iconDefinitions" (spread2 own fw) with
      | .error _ => failed
      | .ok result1 =>
        let fixed := fixIconPaths fs extensionPath result1
        let frameworkConfig1 := overlayAfter frameworkConfig fixed.1
        match fixed.2 with
        | some _ => ⟨baseConfig, baseConfig, frameworkConfig1⟩
        | none =>
          match mergeBinding fixed.1 frameworkConfig1 "fileExtensions" with
          | .error _ => ⟨baseConfig, baseConfig, frameworkConfig1⟩
          | .ok result2 =>
            match mergeBinding result2 frameworkConfig1 "fileNames" with
            | .error _ => ⟨baseConfig, baseConfig, frameworkConfig1⟩
            | .ok result3 =>
              match mergeBinding result3 frameworkConfig1 "languageIds" with
              | .error _ => ⟨baseConfig, baseConfig, frameworkConfig1⟩
              | .ok result4 => ⟨result4, baseConfig, frameworkConfig1⟩
    | _, _ => failed

/-- The overlay file `processIconConfig` looks up for a framework name. -/
def frameworkIconPath (J : JsRuntime) (extensionPath framework : String) : String :=
  pathJoin [extensionPath, "icons", "frameworks",
    replaceSpaceDot (J.toLowerCase framework) ++ ".json"]

/-- The first two statements of `processIconConfig`, `fixIconPaths(baseConfig, extensionPath)`
and `fixIconColors(baseConfig)`: the normalization of a document. -/
def repairConfig (fs : Node) (extensionPath : String) (baseConfig : Json) : Except JsError Json :=
  match (fixIconPaths fs extensionPath baseConfig).2 with
  | some e => .error e
  | none =>
    match (fixIconColors (fixIconPaths fs extensionPath baseConfig).1).2 with
    | some e => .error e
    | none => .ok (fixIconColors (fixIconPaths fs extensionPath baseConfig).1).1

/-- The function `processIconConfig(baseConfig, extensionPath, framework)`; `framework` is
`none` for `null`. -/
def processIconConfig (J : JsRuntime) (fs : Node) (baseConfig : Json) (extensionPath : String)
    (framework : Option String) : Except JsError Json :=
  match repairConfig fs extensionPath baseConfig with
  | .error e => .error e
  | .ok normalized =>
    match framework with
    | none => .ok normalized
    | some fw =>
      if fw = "" then .ok normalized
      else if existsSync fs (frameworkIconPath J extensionPath fw) then
        match readFileSync fs (frameworkIconPath J extensionPath fw) with
        | .error e => .error e
        | .ok text =>
          match J.parse text with
          | none => .error .syntaxError
          | some frameworkConfig =>
            .ok (mergeConfigurations J fs normalized frameworkConfig extensionPath).result
      else .ok normalized

/-- The function `generateBasicIconConfig(extensionPath)`. -/
def generateBasicIconConfig (fs : Node) (extensionPath : String) : Json :=
  let fileIconPath :=
    if existsSync fs (pathJoin [extensionPath, "icons", "file.svg"]) then "./icons/file.svg"
    else ""
  let folderIconPath :=
    if existsSync fs (pathJoin [extensionPath, "icons", "folder.svg"]) then "./icons/folder.svg"
    else ""
  let folderOpenIconPath :=
    if existsSync fs (pathJoin [extensionPath, "icons", "folder-open.svg"]) then
      "./icons/folder-open.svg"
    else ""
  .obj [
    ("iconDefinitions", .obj [
      ("_file", .obj [("iconPath", .str fileIconPath), ("fontColor", .str "#cccccc")]),
      ("_folder", .obj [("iconPath", .str folderIconPath), ("fontColor", .str "#7ca1c0")]),
      ("_folder_open",
        .obj [("iconPath", .str folderOpenIconPath), ("fontColor", .str "#7ca1c0")]),
      ("js", .obj [("iconPath", .str "./icons/js.svg"), ("fontColor", .str "#cbcb41")]),
      ("json", .obj [("iconPath", .str "./icons/json.svg"), ("fontColor", .str "#f1e05a")])]),
    ("file", .str "_file"),
    ("folder", .str "_folder"),
    ("folderExpanded", .str "_folder_open"),
    ("fileExtensions", .obj [("js", .str "js"), ("json", .str "json")]),
    ("fileNames", .obj []),
    ("languageIds", .obj [("javascript", .str "js"), ("json", .str "json")]),
    ("light", .obj [("file", .str "_file"), ("folder", .str "_folder"),
      ("folderExpanded", .str "_folder_open")]),
    ("highContrast", .obj [("file", .str "_file"), ("folder", .str "_folder"),
      ("folderExpanded", .str "_folder_open")])]

/-- The expression `packageData.contributes.iconThemes[0].path` behind its guard
`contributes && contributes.iconThemes && contributes.iconThemes.length > 0`: `ok none` when the
guard is false, an error when an access or the later `path.join` throws. -/
def declaredThemePath (J : JsRuntime) (packageData : Json) : Except JsError (Option String) :=
  match getProp packageData "contributes" with
  | .error e => .error e
  | .ok none => .ok none
  | .ok (some contributes) =>
    if !truthy contributes then .ok none
    else
      match getProp contributes "iconThemes" with
      | .error e => .error e
      | .ok none => .ok none
      | .ok (some iconThemes) =>
        if !truthy iconThemes || !lengthGtZero J iconThemes then .ok none
        else
          match getIndex0 iconThemes with
          | .ok (some first) =>
            match getProp first "path" with
            | .ok (some (.str p)) => .ok (some p)
            | _ => .error .typeError
          | _ => .error .typeError

/-- The statements `JSON.parse(fs.readFileSync(p, "utf8"))`. -/
def readJson (J : JsRuntime) (fs : Node) (p : String) : Except JsError Json :=
  match readFileSync fs p with
  | .error e => .error e
  | .ok text =>
    match J.parse text with
    | none => .error .syntaxError
    | some v => .ok v

/-- The body of the `try` block of `generateIconConfig` after `verifyIconFilesExist`. -/
def loadIconConfig (J : JsRuntime) (fs : Node) (extensionPath : String)
    (framework : Option String) : Except JsError Json :=
  let load := fun (p : String) =>
    match readJson J fs p with
    | .error e => .error e
    | .ok baseConfig => processIconConfig J fs baseConfig extensionPath framework
  if !existsSync fs (pathJoin [extensionPath, "icons", "seti-base.json"]) then
    if existsSync fs (pathJoin [extensionPath, "seti-base.json"]) then
      load (pathJoin [extensionPath, "seti-base.json"])
    else if existsSync fs (pathJoin [extensionPath, "package.json"]) then
      match readJson J fs (pathJoin [extensionPath, "package.json"]) with
      | .error e => .error e
      | .ok packageData =>
        match declaredThemePath J packageData with
        | .error e => .error e
        | .ok none => .ok (generateBasicIconConfig fs extensionPath)
        | .ok (some defaultThemePath) =>
          if existsSync fs (pathJoin [extensionPath, defaultThemePath]) then
            load (pathJoin [extensionPath, defaultThemePath])
          else .ok (generateBasicIconConfig fs extensionPath)
    else .ok (generateBasicIconConfig fs extensionPath)
  else load (pathJoin [extensionPath, "icons", "seti-base.json"])

/-- The function `generateIconConfig(extensionPath, framework)`: the configuration its promise
resolves to and the file system it leaves behind. -/
def generateIconConfig (J : JsRuntime) (fs : Node) (extensionPath : String)
    (framework : Option String) : Json × Node :=
  match verifyIconFilesExist J fs extensionPath with
  | (fs1, some _) => (generateBasicIconConfig fs1 extensionPath, fs1)
  | (fs1, none) =>
    match loadIconConfig J fs1 extensionPath framework with
    | .ok config => (config, fs1)
    | .error _ => (generateBasicIconConfig fs1 extensionPath, fs1)

/-! ## `src/extension.js` -/

/-- The values `activate` fixes for the rest of the session. -/
structure Session where
  /-- The JavaScript runtime. -/
  runtime : JsRuntime
  /-- The value `vscode.extensions.getExtension("qinjia.seti-icons").extensionPath`. -/
  extensionPath : String
  /-- The value `global.iconFilePath`, the live slot. -/
  iconFilePath : String

/-- The module variable `backupIconPath`. -/
def Session.backupIconPath (S : Session) : String :=
  S.iconFilePath ++ ".backup"

/-- The staging file `tempFilePath` of `updateIconsForFramework`. -/
def Session.tempFilePath (S : Session) : String :=
  S.iconFilePath ++ ".temp"

/-- The snapshot file written before a commit. -/
def Session.previousPath (S : Session) : String :=
  S.iconFilePath ++ ".previous"

/-- The negation of the condition
`!c || typeof c !== "object" || !c.iconDefinitions || !c.file || !c.folder`
that `verifyIconConfiguration` and `updateIconsForFramework` both test. -/
def structureComplete (c : Json) : Bool :=
  truthy c && typeofObject c && propTruthy c "iconDefinitions" && propTruthy c "file" &&
    propTruthy c "folder"

/-- The literal `basicConfig` of `generateDefaultIconConfig`. -/
def basicConfig : Json :=
  .obj [
    ("iconDefinitions", .obj [
      ("_file", .obj [("iconPath", .str "./icons/file.svg")]),
      ("_folder", .obj [("iconPath", .str "./icons/folder.svg")]),
      ("_folder_open", .obj [("iconPath", .str "./icons/folder-open.svg")])]),
    ("file", .str "_file"),
    ("folder", .str "_folder"),
    ("folderExpanded", .str "_folder_open"),
    ("fileExtensions", .obj []),
    ("fileNames", .obj []),
    ("languageIds", .obj [])]

/-- The statements "ensure the directory exists, then `writeFileSync` the serialized
configuration to the live slot": the file system afterwards and the exception thrown, if any. -/
def writeIconFile (S : Session) (fs : Node) (config : Json) : Node × Option JsError :=
  match (if !existsSync fs (dirname S.iconFilePath) then mkdirSync fs (dirname S.iconFilePath)
         else .ok fs) with
  | .error e => (fs, some e)
  | .ok fs1 =>
    match writeFileSync fs1 S.iconFilePath (S.runtime.stringifyIndented config) with
    | .ok fs2 => (fs2, none)
    | .error e => (fs1, some e)

/-- The function `generateDefaultIconConfig()`: the value its promise resolves to and the file
system it leaves behind. -/
def generateDefaultIconConfig (S : Session) (fs : Node) : Bool × Node :=
  let generated := generateIconConfig S.runtime fs S.extensionPath none
  let first :=
    if truthy generated.1 then writeIconFile S generated.2 generated.1
    else (generated.2, some JsError.error)
  match first with
  | (fs1, none) => (true, fs1)
  | (fs1, some _) =>
    match writeIconFile S fs1 basicConfig with
    | (fs2, none) => (true, fs2)
    | (fs2, some _) => (false, fs2)

/-- The function `restoreFromBackup()`. -/
def restoreFromBackup (S : Session) (fs : Node) : Bool × Node :=
  if existsSync fs S.backupIconPath then
    match copyFileSync fs S.backupIconPath S.iconFilePath with
    | .ok fs1 => (true, fs1)
    | .error _ => generateDefaultIconConfig S fs
  else generateDefaultIconConfig S fs

/-- The function `verifyIconConfiguration()`: the file system once the restore it may have
started has finished. -/
def verifyIconConfiguration (S : Session) (fs : Node) : Node :=
  if !existsSync fs S.iconFilePath then (restoreFromBackup S fs).2
  else
    match readJson S.runtime fs S.iconFilePath with
    | .error _ => (restoreFromBackup S fs).2
    | .ok iconConfig =>
      if !structureComplete iconConfig then (restoreFromBackup S fs).2 else fs

/-- Whether calls into the editor API throw. -/
structure HostCalls where
  /-- The reads and updates of `workbench.iconTheme` inside the validation block. -/
  themeUpdateThrows : Bool
  /-- The reload prompt after the commit. -/
  promptThrows : Bool

/-- The statements of `updateIconsForFramework` from the snapshot of the live slot to the write
of the staging file: the file system with the staging file in place, or, when the directory
creation or the write throws, the file system at that point. -/
def stageIconConfig (S : Session) (fs : Node) (config : Json) : Except Node Node :=
  let fs2 :=
    if existsSync fs S.iconFilePath then
      match copyFileSync fs S.iconFilePath S.previousPath with
      | .ok f => f
      | .error _ => fs
    else fs
  match (if !existsSync fs2 (dirname S.iconFilePath) then mkdirSync fs2 (dirname S.iconFilePath)
         else .ok fs2) with
  | .error _ => .error fs2
  | .ok fs3 =>
    match writeFileSync fs3 S.tempFilePath (S.runtime.stringifyIndented config) with
    | .error _ => .error fs3
    | .ok fs4 => .ok fs4

/-- The validation of the staging file: it is read back, parsed, and must be a non-null value
of type `object`. -/
def stagingValid (S : Session) (fs : Node) : Bool :=
  match readJson S.runtime fs S.tempFilePath with
  | .ok tempConfig => truthy tempConfig && typeofObject tempConfig
  | .error _ => false

/-- The inner `try` block of `updateIconsForFramework`: the file system it leaves and whether
it completed without a throw. -/
def tryPromote (S : Session) (host : HostCalls) (fs : Node) : Node × Bool :=
  if stagingValid S fs then
    match renameSync fs S.tempFilePath S.iconFilePath with
    | .ok fs5 => (fs5, !host.themeUpdateThrows)
    | .error _ => (fs, false)
  else (fs, false)

/-- The handler `catch (validationError)`: the staging file is removed if it is there and
`restoreFromBackup()` is called. -/
def discardStaged (S : Session) (fs : Node) : Node :=
  match (if existsSync fs S.tempFilePath then unlinkSync fs S.tempFilePath else .ok fs) with
  | .error _ => fs
  | .ok fs6 => (restoreFromBackup S fs6).2

/-- The statements of `updateIconsForFramework` after `iconConfig` has been awaited, from the
structural check to the `return`: the value the promise resolves to and the file system left
behind, for the document `iconConfig` and the file system `fs` at that point. -/
def commitIconConfig (S : Session) (host : HostCalls) (fs : Node) (iconConfig : Json) :
    Bool × Node :=
  if !structureComplete iconConfig then (false, fs)
  else
    match stageIconConfig S fs iconConfig with
    | .error fs3 => (false, fs3)
    | .ok fs4 =>
      if (tryPromote S host fs4).2 then (!host.promptThrows, (tryPromote S host fs4).1)
      else (false, discardStaged S (tryPromote S host fs4).1)

/-- The function `updateIconsForFramework(framework, ...)`: the value its promise resolves to
and the file system it leaves behind. -/
def updateIconsForFramework (S : Session) (host : HostCalls) (fs : Node) (framework : String) :
    Bool × Node :=
  let generated := generateIconConfig S.runtime fs S.extensionPath (some framework)
  commitIconConfig S host generated.2 generated.1

/-- The value `activate` gives to `global.iconFilePath`: the first icon theme path declared in
`package.json`, joined to the extension root, and `seti.json` at the extension root when
`package.json` declares none or reading it throws. -/
def activateIconFilePath (J : JsRuntime) (fs : Node) (extensionPath : String) : String :=
  match readJson J fs (pathJoin [extensionPath, "package.json"]) with
  | .error _ => pathJoin [extensionPath, "seti.json"]
  | .ok packageJson =>
    match declaredThemePath J packageJson with
    | .ok (some themePath) => pathJoin [extensionPath, themePath]
    | .ok none => pathJoin [extensionPath, "seti.json"]
    | .error _ => pathJoin [extensionPath, "seti.json"]

/-- The function `resetToDefaultIcons()`: the file system it leaves behind.  The regenerated
default configuration is written to `path.join(extensionPath, "seti.json")`; an exception of
the write is caught. -/
def resetToDefaultIcons (S : Session) (fs : Node) : Node :=
  let generated := generateIconConfig S.runtime fs S.extensionPath none
  match writeFileSync generated.2 (pathJoin [S.extensionPath, "seti.json"])
      (S.runtime.stringifyIndented generated.1) with
  | .ok fs1 => fs1
  | .error _ => generated.2

/-! ## Properties named by the specification -/

/-- Whether role `role` of document `v` is a string naming a key of `v.iconDefinitions`. -/
def roleDefined (v : Json) (role : String) : Bool :=
  match getProp v role, getProp v "iconDefinitions" with
  | .ok (some (.str key)), .ok (some (.obj defs)) => (assocGet defs key).isSome
  | _, _ => false

/-- Whether a value is a JSON object. -/
def isObject : Json → Bool
  | .obj _ => true
  | _ => false

/-- The part of invariant I1 that concerns the three roles. -/
def rolesDefined (v : Json) : Bool :=
  roleDefined v "file" && roleDefined v "folder" && roleDefined v "folderExpanded"

/-- Whether every value of a binding map names a key of `v.iconDefinitions`. -/
def bindingsDefined (v : Json) (binding : String) : Bool :=
  match getProp v binding, getProp v "iconDefinitions" with
  | .ok none, _ => true
  | .ok (some (.obj bs)), .ok (some (.obj defs)) =>
    bs.all (fun kv =>
      match kv.2 with
      | .str key => (assocGet defs key).isSome
      | _ => false)
  | _, _ => false

/-- Invariant I1: the roles and the three binding maps only name defined icon keys. -/
def invariantI1 (v : Json) : Bool :=
  rolesDefined v && bindingsDefined v "fileExtensions" && bindingsDefined v "fileNames" &&
    bindingsDefined v "languageIds"

/-- The live slot exists, parses as a JSON object, and its roles name defined icons. -/
def liveSlotValid (S : Session) (fs : Node) : Prop :=
  ∃ text v, readFileSync fs S.iconFilePath = .ok text ∧ S.runtime.parse text = some v ∧
    isObject v = true ∧ rolesDefined v = true

/-! ## A concrete runtime for worked examples -/

/-- Hexadecimal digit. -/
def hexDigit (n : Nat) : Char :=
  if n < 10 then Char.ofNat (48 + n) else Char.ofNat (87 + n)

/-- Escaping of one character inside a JSON string literal. -/
def escapeChar (c : Char) : List Char :=
  if c = Char.ofNat 34 then [Char.ofNat 92, Char.ofNat 34]
  else if c = Char.ofNat 92 then [Char.ofNat 92, Char.ofNat 92]
  else if c = Char.ofNat 10 then [Char.ofNat 92, 'n']
  else if c = Char.ofNat 13 then [Char.ofNat 92, 'r']
  else if c = Char.ofNat 9 then [Char.ofNat 92, 't']
  else if c = Char.ofNat 8 then [Char.ofNat 92, 'b']
  else if c = Char.ofNat 12 then [Char.ofNat 92, 'f']
  else if c.toNat < 32 then
    [Char.ofNat 92, 'u', '0', '0', hexDigit (c.toNat / 16), hexDigit (c.toNat % 16)]
  else [c]

/-- A JSON string literal. -/
def quoteString (s : String) : List Char :=
  Char.ofNat 34 :: (s.data.flatMap escapeChar ++ [Char.ofNat 34])

mutual
/-- Text of a value, indented by two spaces per level when `pretty` holds; `pad` is the
indentation of the enclosing line. -/
def renderValue (pretty : Bool) (pad : List Char) : Json → List Char
  | .null => "null".data
  | .bool b => if b then "true".data else "false".data
  | .num n => (toString n).data
  | .str s => quoteString s
  | .arr items _ =>
    match items with
    | [] => "[]".data
    | x :: xs =>
      '[' :: (if pretty then Char.ofNat 10 :: ' ' :: ' ' :: pad else []) ++
        renderItems pretty (if pretty then ' ' :: ' ' :: pad else pad) (x :: xs) ++
        (if pretty then Char.ofNat 10 :: pad else []) ++ [']']
  | .obj ps =>
    match ps with
    | [] => [Char.ofNat 123, Char.ofNat 125]
    | kv :: rest =>
      Char.ofNat 123 :: (if pretty then Char.ofNat 10 :: ' ' :: ' ' :: pad else []) ++
        renderProps pretty (if pretty then ' ' :: ' ' :: pad else pad) (kv :: rest) ++
        (if pretty then Char.ofNat 10 :: pad else []) ++ [Char.ofNat 125]
/-- Text of the elements of an array. -/
def renderItems (pretty : Bool) (pad : List Char) : List Json → List Char
  | [] => []
  | [x] => renderValue pretty pad x
  | x :: y :: rest =>
    renderValue pretty pad x ++ ',' :: (if pretty then Char.ofNat 10 :: pad else []) ++
      renderItems pretty pad (y :: rest)
/-- Text of the properties of an object. -/
def renderProps (pretty : Bool) (pad : List Char) : List (String × Json) → List Char
  | [] => []
  | [(k, v)] => quoteString k ++ ':' :: (if pretty then [' '] else []) ++ renderValue pretty pad v
  | (k, v) :: kv :: rest =>
    quoteString k ++ ':' :: (if pretty then [' '] else []) ++ renderValue pretty pad v ++
      ',' :: (if pretty then Char.ofNat 10 :: pad else []) ++ renderProps pretty pad (kv :: rest)
end

/-- Compact text of a value. -/
def renderCompact (v : Json) : String :=
  String.mk (renderValue false [] v)

/-- Text of a value with two-space indentation. -/
def renderIndented (v : Json) : String :=
  String.mk (renderValue true [] v)

/-- The first of the `known` values whose compact or indented text is `text`. -/
def parseKnown : List Json → String → Option Json
  | [], _ => none
  | v :: rest, text =>
    if renderCompact v = text ∨ renderIndented v = text then some v else parseKnown rest text

/-- A runtime whose `JSON.parse` recognises the texts of the listed values and rejects every
other text. -/
def knownRuntime (known : List Json) : JsRuntime where
  parse := parseKnown known
  stringify := renderCompact
  stringifyIndented := renderIndented
  looseGtZero := fun _ => false
  toLowerCase := asciiLowerCase

/-! ## Notions used in the statements and proofs -/

/-- Objects and arrays: the values on which a property can be set. -/
def isContainer : Json → Bool
  | .obj _ => true
  | .arr _ _ => true
  | _ => false

/-- The definition `v` with its `fontColor` set to the default accent color. -/
def withDefaultColor (v : Json) : Json :=
  replaceProp v "fontColor" (.str "#519aba")

/-- The value `fixIconColors` leaves under key `k` for an object or array `v`. -/
def coloredValue (k : String) (v : Json) : Json :=
  if propTruthy v "fontColor" then v
  else if notReserved k || propTruthy v "fontCharacter" then withDefaultColor v
  else v

/-- The `iconPath` of a definition needs no synchronous repair. -/
def iconPathSettled (fs : Node) (ext : String) : Option Json → Prop
  | none => True
  | some x => truthy x = false ∨ ∃ p, x = .str p ∧ fixedIconPath fs ext p = p

/-- Every definition that a loop over `config.iconDefinitions` would visit satisfies `Q`. -/
def EntriesSatisfy (Q : String → Json → Prop) (d : Json) : Prop :=
  ∃ r, getProp d "iconDefinitions" = .ok r ∧
    ∀ defs, r = some defs → truthy defs = true → ∀ kv ∈ ownEntries defs, Q kv.1 kv.2

/-- The value that a binding map or definition table `m` of document `d` gives to key `k`. -/
def lookupIn (d : Json) (m k : String) : Option Json :=
  match getProp d m with
  | .ok (some c) => assocGet (ownEntries c) k
  | _ => none

/-- The keys of the map `m` of document `d` are pairwise distinct. -/
def distinctKeys (d : Json) (m : String) : Bool :=
  match getProp d m with
  | .ok (some c) => decide ((ownEntries c).map Prod.fst).Nodup
  | _ => true

/-- A definition on which the loop body of `fixIconPaths` does not throw: it is not `null` and
its `iconPath`, when truthy, is a string. -/
def pathRepairable (v : Json) : Bool :=
  match getProp v "iconPath" with
  | .ok none => true
  | .ok (some (.str _)) => true
  | .ok (some ip) => !truthy ip
  | .error _ => false

/-- Every definition of document `d` is one on which `fixIconPaths` does not throw. -/
def definitionsRepairable (d : Json) : Bool :=
  match getProp d "iconDefinitions" with
  | .ok (some c) => (ownEntries c).all (fun kv => pathRepairable kv.2)
  | _ => true

/-- The statement `if (frameworkConfig[k]) { result[k] = {...result[k], ...frameworkConfig[k]}; }`
on an object `result`. -/
def mergedBinding (result frameworkConfig : Json) (k : String) : Json :=
  if propTruthy frameworkConfig k then
    replaceProp result k
      (spread2 ((getProp result k).toOption.join) ((getProp frameworkConfig k).toOption.join))
  else result

/-- Entries of the literal `{...a, ...b}`. -/
def spreadEntries (a b : Option Json) : List (String × Json) :=
  spreadInto (spreadInto [] a) b

/-- The entries of an optional value. -/
def entriesOpt : Option Json → List (String × Json)
  | none => []
  | some v => ownEntries v

/-- The value of `v.k`, `none` when it is `undefined` or the read throws. -/
def propOpt (v : Json) (k : String) : Option Json :=
  (getProp v k).toOption.join

/-- The deep copy of the base with its `iconDefinitions` replaced by the spread of the base's and
the overlay's definitions: the object `mergeConfigurations` hands to `fixIconPaths`. -/
def mergedDefinitions (B O : Json) : Json :=
  replaceProp B "iconDefinitions"
    (spread2 (propOpt B "iconDefinitions") (propOpt O "iconDefinitions"))

/-- The three binding maps of document `d` have pairwise distinct keys. -/
def bindingKeysDistinct (d : Json) : Bool :=
  distinctKeys d "fileExtensions" && distinctKeys d "fileNames" && distinctKeys d "languageIds"

/-- Whether `verifyIconConfiguration` accepts the live slot: the file exists, parses, and the
parsed value passes the structural check. -/
def liveAccepted (S : Session) (fs : Node) : Bool :=
  existsSync fs S.iconFilePath &&
    match readJson S.runtime fs S.iconFilePath with
    | .ok iconConfig => structureComplete iconConfig
    | .error _ => false

/-- A normalized base document whose roles all name the definition `_file`. -/
def sampleBase : Json :=
  .obj [
    ("iconDefinitions", .obj [
      ("_file", .obj [("iconPath", .str "./icons/file.svg")]),
      ("js", .obj [("iconPath", .str "./icons/js.svg"), ("fontColor", .str "#cbcb41")])]),
    ("file", .str "_file"),
    ("folder", .str "_file"),
    ("folderExpanded", .str "_file"),
    ("fileExtensions", .obj [("js", .str "js")])]

/-- The definitions of the overlay for the profile `Next.js`: a `js` icon without `fontColor`
whose path has no leading dot. -/
def sampleOverlayDefs : List (String × Json) :=
  [("js", .obj [("iconPath", .str "icons/frameworks/next-js.svg")])]

/-- The overlay for the profile `Next.js`; it also carries a `file` role. -/
def sampleOverlay : Json :=
  .obj [
    ("iconDefinitions", .obj sampleOverlayDefs),
    ("fileExtensions", .obj [("jsx", .str "js")]),
    ("file", .str "js")]

/-- The directory `icons` of the worked examples, with the base document in `seti-base.json`. -/
def sampleIconsDir (base : Json) : Node :=
  .dir [
    ("file.svg", .file "<svg/>"),
    ("folder.svg", .file "<svg/>"),
    ("folder-open.svg", .file "<svg/>"),
    ("js.svg", .file "<svg/>"),
    ("seti-base.json", .file (renderIndented base)),
    ("frameworks", .dir [
      ("next-js.json", .file (renderIndented sampleOverlay)),
      ("next-js.svg", .file "<svg/>")])]

/-- An extension installed at `/ext` with no live slot and no backup. -/
def sampleFs : Node :=
  .dir [("ext", .dir [("icons", sampleIconsDir sampleBase)])]

/-- A runtime that parses the sample base and overlay. -/
def sampleRuntime : JsRuntime :=
  knownRuntime [sampleBase, sampleOverlay]

/-- The session of the worked examples: extension at `/ext`, live slot `/ext/seti.json`. -/
def sampleSession : Session :=
  ⟨sampleRuntime, "/ext", "/ext/seti.json"⟩

/-- An extension whose live slot is absent and whose backup is not JSON. -/
def corruptBackupFs : Node :=
  .dir [("ext", .dir [
    ("icons", sampleIconsDir sampleBase),
    ("seti.json.backup", .file "<<<<<<< not json")])]

/-- An extension whose live slot is absent and whose backup holds the sample base document. -/
def validBackupFs : Node :=
  .dir [("ext", .dir [
    ("icons", sampleIconsDir sampleBase),
    ("seti.json.backup", .file (renderIndented sampleBase))])]

/-- The file system `validBackupFs` once the backup has been copied to the live slot. -/
def restoredFs : Node :=
  .dir [("ext", .dir [
    ("icons", sampleIconsDir sampleBase),
    ("seti.json.backup", .file (renderIndented sampleBase)),
    ("seti.json", .file (renderIndented sampleBase))])]

/-- A base document as shipped, with an asset path that lacks the leading dot. -/
def rawBase : Json :=
  .obj [
    ("iconDefinitions", .obj [("_file", .obj [("iconPath", .str "icons/file.svg")])]),
    ("file", .str "_file"),
    ("folder", .str "_file"),
    ("folderExpanded", .str "_file")]

/-- A normalized base document whose `folder` and `folderExpanded` roles and whose `js` binding
name icon keys that have no definition. -/
def danglingBase : Json :=
  .obj [
    ("iconDefinitions", .obj [("_file", .obj [("iconPath", .str "./icons/file.svg")])]),
    ("file", .str "_file"),
    ("folder", .str "_folder"),
    ("folderExpanded", .str "_folder_open"),
    ("fileExtensions", .obj [("js", .str "js")])]

/-- An extension whose base document is `danglingBase`, with no live slot. -/
def danglingFs : Node :=
  .dir [("ext", .dir [("icons", sampleIconsDir danglingBase)])]

/-- The session of the example with dangling roles. -/
def danglingSession : Session :=
  ⟨knownRuntime [danglingBase], "/ext", "/ext/seti.json"⟩

/-- A base document without any role. -/
def incompleteBase : Json :=
  .obj [("iconDefinitions", .obj [])]

/-- An extension whose base document is `incompleteBase`. -/
def incompleteFs : Node :=
  .dir [("ext", .dir [("icons", sampleIconsDir incompleteBase)])]

/-- The session of the example with an incomplete base document. -/
def incompleteSession : Session :=
  ⟨knownRuntime [incompleteBase], "/ext", "/ext/seti.json"⟩

/-- A definition whose asset exists nowhere under the extension root. -/
def missingAsset : Json :=
  .obj [("iconPath", .str "icons/missing.svg"), ("fontColor", .str "#cccccc")]

/-- A definition whose absolute asset path exists nowhere. -/
def missingAbsoluteAsset : Json :=
  .obj [("iconPath", .str "/opt/icons/missing.svg")]

/-- Definitions of a document before normalization: one without color, one glyph under a
reserved key, one bare reserved key, one with a color of its own. -/
def uncoloredDefs : List (String × Json) :=
  [("ts", .obj [("iconPath", .str "./icons/ts.svg")]),
   ("_file", .obj [("fontCharacter", .str "F")]),
   ("_folder", .obj [("iconPath", .str "./icons/folder.svg")]),
   ("js", .obj [("iconPath", .str "./icons/js.svg"), ("fontColor", .str "#cbcb41")])]

/-- A document before normalization. -/
def uncoloredDoc : Json :=
  .obj [("iconDefinitions", .obj uncoloredDefs), ("file", .str "_file"), ("folder", .str "_folder")]

/-- A document with one definition whose asset exists nowhere. -/
def ghostDoc : Json :=
  .obj [("iconDefinitions", .obj [("ghost", missingAsset)]), ("file", .str "ghost"),
    ("folder", .str "ghost")]

/-- A base document with a definition `next` whose asset is not at the declared location
`icons/next-js.svg` but exists at `icons/frameworks/next-js.svg`. -/
def strayBase : Json :=
  .obj [
    ("iconDefinitions", .obj [
      ("_file", .obj [("iconPath", .str "./icons/file.svg")]),
      ("next", .obj [("iconPath", .str "./icons/next-js.svg"), ("fontColor", .str "#cbcb41")])]),
    ("file", .str "_file"),
    ("folder", .str "_file"),
    ("folderExpanded", .str "_file")]

/-- An extension whose base document is `strayBase`. -/
def strayFs : Node :=
  .dir [("ext", .dir [("icons", sampleIconsDir strayBase)])]

/-- A runtime that parses `strayBase`. -/
def strayRuntime : JsRuntime :=
  knownRuntime [strayBase]

mutual
/-- The entries that the walk of `findFileInDir` compares by name below a directory entry
`startPath`, in the order the walk reaches them: entry name and joined path. -/
def comparedInNode (startPath : String) : Node → List (String × String)
  | .file _ => []
  | .dir es => comparedInEntries startPath es
/-- The entries compared by name while walking the listing of `startPath`: a directory whose
joined path does not contain `node_modules` is entered, every other entry is compared. -/
def comparedInEntries (startPath : String) : List (String × Node) → List (String × String)
  | [] => []
  | (name, n) :: rest =>
    if n.isDir && !jsIncludes (pathJoin [startPath, name]) "node_modules" then
      comparedInNode (pathJoin [startPath, name]) n ++ comparedInEntries startPath rest
    else (name, pathJoin [startPath, name]) :: comparedInEntries startPath rest
end

/-- The first compared entry whose name equals `fileName` ignoring case. -/
def firstMatch (J : JsRuntime) (fileName : String) (compared : List (String × String)) :
    Option String :=
  (compared.find? (fun e => decide (J.toLowerCase e.1 = J.toLowerCase fileName))).map Prod.snd

mutual
/-- The search as the specification words it, below a directory entry: directories named
`node_modules` are skipped, and only entries that are not directories are compared. -/
def searchByNameNode (J : JsRuntime) (fileName startPath : String) : Node → Option String
  | .file _ => none
  | .dir es => searchByNameEntries J fileName startPath es
/-- The search as the specification words it, over a listing. -/
def searchByNameEntries (J : JsRuntime) (fileName startPath : String) :
    List (String × Node) → Option String
  | [] => none
  | (name, n) :: rest =>
    if n.isDir then
      if name = "node_modules" then searchByNameEntries J fileName startPath rest
      else
        match searchByNameNode J fileName (pathJoin [startPath, name]) n with
        | some found => some found
        | none => searchByNameEntries J fileName startPath rest
    else if J.toLowerCase name = J.toLowerCase fileName then some (pathJoin [startPath, name])
    else searchByNameEntries J fileName startPath rest
end

/-- An extension root with an asset inside a directory whose name merely contains
`node_modules`, and an empty directory named `node_modules`. -/
def vendoredFs : Node :=
  .dir [("ext", .dir [
    ("old_node_modules", .dir [("logo.svg", .file "<svg/>")]),
    ("node_modules", .dir [])])]

/-- The basic icons of the worked examples together with a given text in `seti-base.json`. -/
def iconsDirWithBase (text : String) : Node :=
  .dir [
    ("file.svg", .file "<svg/>"),
    ("folder.svg", .file "<svg/>"),
    ("folder-open.svg", .file "<svg/>"),
    ("js.svg", .file "<svg/>"),
    ("seti-base.json", .file text)]

/-- An extension whose primary base file `icons/seti-base.json` is not JSON while the
alternate `seti-base.json` at the root holds the sample base document. -/
def brokenPrimaryFs : Node :=
  .dir [("ext", .dir [
    ("icons", iconsDirWithBase "<<<<<<< not json"),
    ("seti-base.json", .file (renderIndented sampleBase))])]

/-- A base document that is an object without `iconDefinitions`. -/
def rolesOnlyBase : Json :=
  .obj [("file", .str "_file"), ("folder", .str "_folder")]

/-- An extension whose base file holds `rolesOnlyBase`. -/
def rolesOnlyFs : Node :=
  .dir [("ext", .dir [("icons", iconsDirWithBase (renderIndented rolesOnlyBase))])]

/-- The `iconPath` of definition `key` of a document. -/
def iconPathOf (d : Json) (key : String) : Option Json :=
  match lookupIn d "iconDefinitions" key with
  | some v => propOpt v "iconPath"
  | none => none

/-- The sub-object that the minimal default document holds under `light` and `highContrast`. -/
def variantRoles : Json :=
  .obj [("file", .str "_file"), ("folder", .str "_folder"),
    ("folderExpanded", .str "_folder_open")]

/-- The identifier in the template `${framework.toLowerCase().replace(/[\s.]/g, "-")}.json`
of `processIconConfig`. -/
def overlayIdentifier (J : JsRuntime) (framework : String) : String :=
  replaceSpaceDot (J.toLowerCase framework)

/-- One character of the overlay identifier of an ASCII key: a hyphen for a whitespace
character or a dot, the lower case of the character otherwise. -/
def identifierChar (c : Char) : Char :=
  if isJsWhitespace c.toLower || c.toLower = '.' then '-' else c.toLower

/-- Whether every character of a text is an ASCII character. -/
def isAsciiText (s : String) : Bool :=
  s.data.all (fun c => decide (c.toNat < 128))

/-- Lower-casing as ECMAScript defines it on the ASCII letters and on the capital letter I with
dot above (U+0130), whose lower case is `i` followed by the combining dot above (U+0307). -/
def dottedLowerCase (s : String) : String :=
  String.mk (s.data.flatMap
    (fun c => if c = Char.ofNat 304 then ['i', Char.ofNat 775] else [c.toLower]))

/-- A runtime whose `toLowerCase` is `dottedLowerCase`. -/
def dottedRuntime : JsRuntime where
  parse := parseKnown []
  stringify := renderCompact
  stringifyIndented := renderIndented
  looseGtZero := fun _ => false
  toLowerCase := dottedLowerCase

/-- The sample extension once the sample base document has been staged. -/
def sampleStagedFs : Node :=
  .dir [("ext", .dir [
    ("icons", sampleIconsDir sampleBase),
    ("seti.json.temp", .file (renderIndented sampleBase))])]

/-- The sample extension once the staged document has been renamed to the live slot. -/
def sampleCommittedFs : Node :=
  .dir [("ext", .dir [
    ("icons", sampleIconsDir sampleBase),
    ("seti.json", .file (renderIndented sampleBase))])]

/-- The directory `icons` of the sample extension with a given text in the overlay file
`frameworks/next-js.json`. -/
def iconsDirWithOverlay (overlayText : String) : Node :=
  .dir [
    ("file.svg", .file "<svg/>"),
    ("folder.svg", .file "<svg/>"),
    ("folder-open.svg", .file "<svg/>"),
    ("js.svg", .file "<svg/>"),
    ("seti-base.json", .file (renderIndented sampleBase)),
    ("frameworks", .dir [("next-js.json", .file overlayText)])]

/-- The sample extension with an overlay for `Next.js` that is not JSON. -/
def corruptOverlayFs : Node :=
  .dir [("ext", .dir [("icons", iconsDirWithOverlay "<<<<<<< not json")])]

/-- The sample extension with an overlay for `Next.js` that holds `null`. -/
def nullOverlayFs : Node :=
  .dir [("ext", .dir [("icons", iconsDirWithOverlay "null")])]

/-- A runtime that parses the sample base document and the text `null`. -/
def nullRuntime : JsRuntime :=
  knownRuntime [sampleBase, .null]

/-- The manifest of an extension that declares its icon theme at `themes/seti.json`. -/
def themedManifest : Json :=
  .obj [("contributes", .obj [("iconThemes",
    .arr [.obj [("id", .str "seti"), ("path", .str "./themes/seti.json")]] [])])]

/-- An extension whose manifest declares the live slot `themes/seti.json`, which holds the
literal minimal configuration. -/
def themedFs : Node :=
  .dir [("ext", .dir [
    ("icons", sampleIconsDir sampleBase),
    ("package.json", .file (renderIndented themedManifest)),
    ("themes", .dir [("seti.json", .file (renderIndented basicConfig))])])]

/-- The file system `themedFs` after a reset. -/
def themedResetFs : Node :=
  .dir [("ext", .dir [
    ("icons", sampleIconsDir sampleBase),
    ("package.json", .file (renderIndented themedManifest)),
    ("themes", .dir [("seti.json", .file (renderIndented basicConfig))]),
    ("seti.json", .file (renderIndented sampleBase))])]

/-- A runtime that parses the sample base document and the manifest. -/
def themedRuntime : JsRuntime :=
  knownRuntime [sampleBase, themedManifest]

/-- The session `activate` sets up on `themedFs`. -/
def themedSession : Session :=
  ⟨themedRuntime, "/ext", activateIconFilePath themedRuntime themedFs "/ext"⟩

/-- A base document with a definition that is an array. -/
def arrayBase : Json :=
  .obj [
    ("iconDefinitions", .obj [
      ("_file", .obj [("iconPath", .str "./icons/file.svg")]),
      ("list", .arr [] [])]),
    ("file", .str "_file"),
    ("folder", .str "_file"),
    ("folderExpanded", .str "_file")]

/-- The document `arrayBase` after normalization: `fixIconColors` has set `fontColor` on the
array as a named property. -/
def arrayNormalized : Json :=
  .obj [
    ("iconDefinitions", .obj [
      ("_file", .obj [("iconPath", .str "./icons/file.svg")]),
      ("list", .arr [] [("fontColor", .str "#519aba")])]),
    ("file", .str "_file"),
    ("folder", .str "_file"),
    ("folderExpanded", .str "_file")]

/-- An extension whose base document is `arrayBase`, with no live slot. -/
def arrayFs : Node :=
  .dir [("ext", .dir [("icons", sampleIconsDir arrayBase)])]

/-- The session of the example with an array definition. -/
def arraySession : Session :=
  ⟨knownRuntime [arrayBase], "/ext", "/ext/seti.json"⟩


/-! # Theorems -/

/-! ## Property lists -/

theorem assocGet_assocSet_same {β : Type} (l : List (String × β)) (k : String) (v : β) :
    assocGet (assocSet l k v) k = some v := by
  induction l with
  | nil => simp [assocSet, assocGet]
  | cons hd tl ih =>
    obtain ⟨k', v'⟩ := hd
    by_cases h : k' = k
    · simp [assocSet, assocGet, h]
    · simp [assocSet, assocGet, h, ih]

theorem assocGet_assocSet_ne {β : Type} (l : List (String × β)) (k k' : String) (v : β)
    (h : k ≠ k') : assocGet (assocSet l k v) k' = assocGet l k' := by
  induction l with
  | nil => simp [assocSet, assocGet, h]
  | cons hd tl ih =>
    obtain ⟨k1, v1⟩ := hd
    by_cases h1 : k1 = k
    · subst h1
      simp [assocSet, assocGet, h]
    · by_cases h2 : k1 = k'
      · subst h2
        simp [assocSet, assocGet, h1]
      · simp [assocSet, assocGet, h1, h2, ih]

theorem getProp_replaceProp_same (d : Json) (k : String) (x y : Json)
    (h : getProp d k = .ok (some x)) : getProp (replaceProp d k y) k = .ok (some y) := by
  cases d <;> simp [getProp, replaceProp, setProp, assocGet_assocSet_same] at h ⊢

theorem getProp_replaceProp_ne (d : Json) (k k' : String) (y : Json) (h : k ≠ k') :
    getProp (replaceProp d k y) k' = getProp d k' := by
  cases d <;> simp [getProp, replaceProp, setProp, assocGet_assocSet_ne _ _ _ _ h]

/-! ## Loops over entries -/

theorem forEntries_keys (body : String → Json → Except JsError Json) (es : List (String × Json)) :
    (forEntries body es).1.map Prod.fst = es.map Prod.fst := by
  induction es with
  | nil => simp [forEntries]
  | cons hd tl ih =>
    obtain ⟨k, v⟩ := hd
    cases hb : body k v <;> simp [forEntries, hb, ih]

theorem forEntries_ok (body : String → Json → Except JsError Json) (es : List (String × Json))
    (h : ∀ kv ∈ es, ∃ v', body kv.1 kv.2 = .ok v') : (forEntries body es).2 = none := by
  induction es with
  | nil => simp [forEntries]
  | cons hd tl ih =>
    obtain ⟨k, v⟩ := hd
    obtain ⟨v', hv'⟩ := h (k, v) (by simp)
    simp [forEntries, hv']
    exact ih (fun kv hkv => h kv (by simp [hkv]))

theorem forEntries_get (body : String → Json → Except JsError Json) (es : List (String × Json))
    (hok : (forEntries body es).2 = none) (k : String) (v : Json) (hk : assocGet es k = some v) :
    ∃ v', body k v = .ok v' ∧ assocGet (forEntries body es).1 k = some v' := by
  induction es with
  | nil => simp [assocGet] at hk
  | cons hd tl ih =>
    obtain ⟨k1, v1⟩ := hd
    cases hb : body k1 v1 with
    | error e => simp [forEntries, hb] at hok
    | ok w =>
      simp [forEntries, hb] at hok
      by_cases h1 : k1 = k
      · subst h1
        simp [assocGet] at hk
        subst hk
        exact ⟨w, hb, by simp [forEntries, hb, assocGet]⟩
      · simp [assocGet, h1] at hk
        obtain ⟨v', h1', h2'⟩ := ih hok hk
        exact ⟨v', h1', by simp [forEntries, hb, assocGet, h1, h2']⟩

/-! ## `fixIconColors` on one definition -/

theorem getProp_setProp_same (v : Json) (k : String) (x v' : Json)
    (h : setProp v k x = .ok v') : getProp v' k = .ok (some x) := by
  cases v <;> simp [setProp] at h <;> subst h <;> simp [getProp, assocGet_assocSet_same]

theorem getProp_setProp_ne (v : Json) (k k' : String) (x v' : Json)
    (h : setProp v k x = .ok v') (hne : k ≠ k') : getProp v' k' = getProp v k' := by
  cases v <;> simp [setProp] at h <;> subst h <;> simp [getProp, assocGet_assocSet_ne _ _ _ _ hne]

theorem setProp_of_container (v : Json) (k : String) (x : Json) (h : isContainer v = true) :
    setProp v k x = .ok (replaceProp v k x) := by
  cases v <;> simp [isContainer] at h <;> simp [setProp, replaceProp]

theorem isContainer_replaceProp (v : Json) (k : String) (x : Json) :
    isContainer (replaceProp v k x) = isContainer v := by
  cases v <;> simp [isContainer, replaceProp, setProp]

theorem getProp_of_container (v : Json) (k : String) (h : isContainer v = true) :
    ∃ r, getProp v k = .ok r := by
  cases v <;> simp [isContainer] at h <;> simp [getProp]

theorem propTruthy_withDefaultColor (v : Json) (h : isContainer v = true) :
    propTruthy (withDefaultColor v) "fontColor" = true := by
  cases v <;> simp [isContainer] at h <;>
    simp [withDefaultColor, replaceProp, setProp, propTruthy, getProp, assocGet_assocSet_same,
      truthyOpt, truthy]

theorem getProp_withDefaultColor_ne (v : Json) (f : String) (h : "fontColor" ≠ f) :
    getProp (withDefaultColor v) f = getProp v f :=
  getProp_replaceProp_ne v "fontColor" f _ h

theorem propTruthy_withDefaultColor_ne (v : Json) (f : String) (h : "fontColor" ≠ f) :
    propTruthy (withDefaultColor v) f = propTruthy v f := by
  simp [propTruthy, getProp_withDefaultColor_ne v f h]

theorem propTruthy_eq (v : Json) (k : String) (r : Option Json) (h : getProp v k = .ok r) :
    propTruthy v k = truthyOpt r := by
  simp [propTruthy, h]

/-- On an object or array the loop body of `fixIconColors` does not throw. -/
theorem fixIconColorValue_container (k : String) (v : Json) (h : isContainer v = true) :
    fixIconColorValue k v = .ok (coloredValue k v) := by
  obtain ⟨fc, hfc⟩ := getProp_of_container v "fontColor" h
  have hpt := propTruthy_eq v "fontColor" fc hfc
  simp only [fixIconColorValue, coloredValue, hfc, hpt]
  by_cases h1 : truthyOpt fc = true
  · simp [assignDefaultColor, hpt, h1]
  · have h1' : truthyOpt fc = false := by simpa using h1
    have hw := propTruthy_withDefaultColor v h
    simp only [withDefaultColor] at hw
    by_cases h2 : notReserved k = true
    · simp [assignDefaultColor, h1', h2, setProp_of_container v _ _ h, hw, withDefaultColor]
    · have h2' : notReserved k = false := by simpa using h2
      by_cases h3 : propTruthy v "fontCharacter" = true
      · simp [assignDefaultColor, h1', h2', h3, hpt, setProp_of_container v _ _ h,
          withDefaultColor]
      · simp [assignDefaultColor, h1', h2', h3, hpt]

theorem fixIconColorValue_not_container (k : String) (v v' : Json)
    (h : fixIconColorValue k v = .ok v') (hc : isContainer v = false) : v' = v := by
  by_cases hr : notReserved k = true
  · cases v <;> simp [isContainer] at hc <;>
      simp [fixIconColorValue, getProp, setProp, truthyOpt, assignDefaultColor, hr] at h
  · cases v <;> simp [isContainer] at hc <;>
      simp [fixIconColorValue, getProp, setProp, truthyOpt, assignDefaultColor, propTruthy,
        hr] at h <;> exact h.symm

theorem isContainer_coloredValue (k : String) (v : Json) :
    isContainer (coloredValue k v) = isContainer v := by
  unfold coloredValue
  split
  · rfl
  · split
    · exact isContainer_replaceProp _ _ _
    · rfl

theorem coloredValue_idem (k : String) (v : Json) (h : isContainer v = true) :
    coloredValue k (coloredValue k v) = coloredValue k v := by
  by_cases h1 : propTruthy v "fontColor" = true
  · simp [coloredValue, h1]
  · by_cases h2 : (notReserved k || propTruthy v "fontCharacter") = true
    · have : coloredValue k v = withDefaultColor v := by simp [coloredValue, h1, h2]
      rw [this]
      simp [coloredValue, propTruthy_withDefaultColor v h]
    · have : coloredValue k v = v := by simp [coloredValue, h1, h2]
      rw [this, this]

theorem fixIconColorValue_idem (k : String) (v v' : Json)
    (h : fixIconColorValue k v = .ok v') : fixIconColorValue k v' = .ok v' := by
  by_cases hc : isContainer v = true
  · rw [fixIconColorValue_container k v hc] at h
    cases h
    rw [fixIconColorValue_container k _ (by rw [isContainer_coloredValue]; exact hc),
      coloredValue_idem k v hc]
  · have hc' : isContainer v = false := by simpa using hc
    have := fixIconColorValue_not_container k v v' h hc'
    subst this
    exact h

theorem getProp_coloredValue_ne (k : String) (v : Json) (f : String) (h : "fontColor" ≠ f) :
    getProp (coloredValue k v) f = getProp v f := by
  unfold coloredValue
  split
  · rfl
  · split
    · exact getProp_withDefaultColor_ne v f h
    · rfl

/-! ## Strings and the dotted form of a path -/

theorem string_mk_data (s : String) : String.mk s.data = s := rfl

theorem dotSlash_data (p : String) : ("./" ++ p).data = '.' :: '/' :: p.data := by
  show ("./".data ++ p.data) = _
  rfl

theorem jsStartsWith_dotSlash (p : String) : jsStartsWith ("./" ++ p) "./" = true := by
  simp [jsStartsWith, dotSlash_data, startsWithChars]

theorem jsStartsWith_dot_of_dotSlash (p : String) : jsStartsWith ("./" ++ p) "." = true := by
  simp [jsStartsWith, dotSlash_data, startsWithChars]

theorem isAbsolute_dotSlash (p : String) : isAbsolute ("./" ++ p) = false := by
  simp [isAbsolute, dotSlash_data]

theorem drop_dotSlash (p : String) : String.mk (("./" ++ p).data.drop 2) = p := by
  simp [dotSlash_data]

theorem eq_dotSlash_of_startsWith (p : String) (h : jsStartsWith p "./" = true) :
    p = "./" ++ String.mk (p.data.drop 2) := by
  obtain ⟨cs⟩ := p
  match cs, h with
  | [], h => simp [jsStartsWith, startsWithChars] at h
  | [_], h => simp [jsStartsWith, startsWithChars] at h
  | a :: b :: rest, h =>
    simp [jsStartsWith, startsWithChars] at h
    obtain ⟨h1, h2⟩ := h
    subst h1; subst h2
    apply String.ext
    simp [dotSlash_data]

theorem ensureDotted_dotSlash (p : String) : ensureDotted ("./" ++ p) = "./" ++ p := by
  simp [ensureDotted, jsStartsWith_dot_of_dotSlash]

theorem ensureDotted_idem (p : String) : ensureDotted (ensureDotted p) = ensureDotted p := by
  unfold ensureDotted
  split
  · simp [jsStartsWith_dot_of_dotSlash]
  · rename_i h; simp [h]

theorem ensureDotted_of_startsWith (p : String) (h : jsStartsWith p "./" = true) :
    ensureDotted p = p := by
  rw [eq_dotSlash_of_startsWith p h]; exact ensureDotted_dotSlash _

theorem isAbsolute_of_startsWith (p : String) (h : jsStartsWith p "./" = true) :
    isAbsolute p = false := by
  rw [eq_dotSlash_of_startsWith p h]; exact isAbsolute_dotSlash _

theorem fullPath_of_not_absolute (ext p : String) (h : isAbsolute p = false) :
    fullPath ext p = pathJoin [ext, p] := by
  simp [fullPath, h]

theorem ensureDotted_of_stable (p : String)
    (h : (!isAbsolute p && !jsStartsWith p ".") = false) : ensureDotted p = p := by
  simp [ensureDotted, h]

theorem ensureDotted_of_unstable (p : String)
    (h : (!isAbsolute p && !jsStartsWith p ".") = true) : ensureDotted p = "./" ++ p := by
  simp [ensureDotted, h]

theorem fixedIconPath_of_exists (fs : Node) (ext p : String)
    (h : existsSync fs (fullPath ext p) = true) : fixedIconPath fs ext p = ensureDotted p := by
  simp [fixedIconPath, h]

theorem correctedPath_of_startsWith (fs : Node) (ext p : String)
    (h : jsStartsWith p "./" = true) :
    correctedPath fs ext p =
      if existsSync fs (pathJoin [ext, String.mk (p.data.drop 2)]) then
        some (String.mk (p.data.drop 2))
      else none := by
  simp [correctedPath, h]

theorem correctedPath_of_relative (fs : Node) (ext p : String)
    (h : jsStartsWith p "./" = false) (habs : isAbsolute p = false) :
    correctedPath fs ext p =
      if existsSync fs (pathJoin [ext, "./" ++ p]) then some ("./" ++ p) else none := by
  simp [correctedPath, h, habs]

theorem not_startsWith_of_absolute (p : String) (habs : isAbsolute p = true) :
    jsStartsWith p "./" = false := by
  by_contra hcon
  have hcon' : jsStartsWith p "./" = true := by simpa using hcon
  rw [isAbsolute_of_startsWith p hcon'] at habs
  cases habs

theorem correctedPath_of_absolute (fs : Node) (ext p : String) (habs : isAbsolute p = true) :
    correctedPath fs ext p = none := by
  simp [correctedPath, not_startsWith_of_absolute p habs, habs]

theorem not_startsWith_of_undotted (p : String) (hdot : jsStartsWith p "." = false) :
    jsStartsWith p "./" = false := by
  by_contra hcon
  have hcon' : jsStartsWith p "./" = true := by simpa using hcon
  have := congrArg (fun q => jsStartsWith q ".") (eq_dotSlash_of_startsWith p hcon')
  simp [jsStartsWith_dot_of_dotSlash, hdot] at this

theorem dotSlash_ne_empty (p : String) : "./" ++ p ≠ "" := by
  intro h
  have := congrArg String.data h
  simp [dotSlash_data] at this

/-- The repaired form `./r` of a relative, undotted path `r` is left alone by a second repair. -/
theorem fixedIconPath_dotSlash (fs : Node) (ext r : String) (habs : isAbsolute r = false)
    (hdot : jsStartsWith r "." = false)
    (h : existsSync fs (pathJoin [ext, r]) = true ∨
      (existsSync fs (pathJoin [ext, "./" ++ r]) = false ∧
        existsSync fs (pathJoin [ext, r]) = false)) :
    fixedIconPath fs ext ("./" ++ r) = "./" ++ r := by
  have hed : ensureDotted r = "./" ++ r := by simp [ensureDotted, habs, hdot]
  unfold fixedIconPath
  rw [fullPath_of_not_absolute _ _ (isAbsolute_dotSlash r)]
  by_cases he : existsSync fs (pathJoin [ext, "./" ++ r]) = true
  · simp [he, ensureDotted_dotSlash]
  · have he' : existsSync fs (pathJoin [ext, "./" ++ r]) = false := by simpa using he
    simp only [he', Bool.not_false, if_true]
    rw [correctedPath_of_startsWith fs ext _ (jsStartsWith_dotSlash r), drop_dotSlash]
    rcases h with h | ⟨_, h⟩
    · simp only [h, if_true]
      by_cases hr0 : r = ""
      · rw [if_pos hr0]; exact ensureDotted_dotSlash r
      · rw [if_neg hr0]; exact hed
    · simp [h, ensureDotted_dotSlash]

/-- The synchronous path repair reaches a fixed point in one step. -/
theorem fixedIconPath_idem (fs : Node) (ext p : String) :
    fixedIconPath fs ext (fixedIconPath fs ext p) = fixedIconPath fs ext p := by
  by_cases hE : existsSync fs (fullPath ext p) = true
  · have hq := fixedIconPath_of_exists fs ext p hE
    by_cases hs : (!isAbsolute p && !jsStartsWith p ".") = true
    · have habs : isAbsolute p = false := by simp at hs; exact hs.1
      have hdot : jsStartsWith p "." = false := by simp at hs; exact hs.2
      rw [hq, ensureDotted_of_unstable p hs]
      rw [fullPath_of_not_absolute _ _ habs] at hE
      exact fixedIconPath_dotSlash fs ext p habs hdot (Or.inl hE)
    · have hs' : (!isAbsolute p && !jsStartsWith p ".") = false := by simpa using hs
      have h2 := ensureDotted_of_stable p hs'
      rw [hq, h2]; exact hq.trans h2
  · have hE' : existsSync fs (fullPath ext p) = false := by simpa using hE
    cases hc : correctedPath fs ext p with
    | none =>
      have hq : fixedIconPath fs ext p = ensureDotted p := by simp [fixedIconPath, hE', hc]
      by_cases hs : (!isAbsolute p && !jsStartsWith p ".") = true
      · have habs : isAbsolute p = false := by simp at hs; exact hs.1
        have hdot : jsStartsWith p "." = false := by simp at hs; exact hs.2
        rw [hq, ensureDotted_of_unstable p hs]
        rw [fullPath_of_not_absolute _ _ habs] at hE'
        refine fixedIconPath_dotSlash fs ext p habs hdot (Or.inr ⟨?_, hE'⟩)
        rw [correctedPath_of_relative fs ext p (not_startsWith_of_undotted p hdot) habs] at hc
        by_contra hcon
        simp at hcon
        simp [hcon] at hc
      · have hs' : (!isAbsolute p && !jsStartsWith p ".") = false := by simpa using hs
        have h2 := ensureDotted_of_stable p hs'
        rw [hq, h2]; exact hq.trans h2
    | some c =>
      by_cases hsw : jsStartsWith p "./" = true
      · -- the candidate is `p` without its leading `./`
        rw [correctedPath_of_startsWith fs ext p hsw] at hc
        split at hc
        · rename_i hex
          have hcd : String.mk (p.data.drop 2) = c := Option.some.inj hc
          rw [hcd] at hex
          have hp : p = "./" ++ c := by rw [← hcd]; exact eq_dotSlash_of_startsWith p hsw
          have hcor : correctedPath fs ext p = some c := by
            rw [correctedPath_of_startsWith fs ext p hsw, hcd, if_pos hex]
          by_cases hc0 : c = ""
          · have hq : fixedIconPath fs ext p = ensureDotted p := by
              simp [fixedIconPath, hE', hcor, hc0]
            have h2 := ensureDotted_of_startsWith p hsw
            rw [hq, h2]; exact hq.trans h2
          · have hq : fixedIconPath fs ext p = ensureDotted c := by
              simp [fixedIconPath, hE', hcor, hc0]
            by_cases hs : (!isAbsolute c && !jsStartsWith c ".") = true
            · have h2 : ensureDotted c = p := by rw [ensureDotted_of_unstable c hs, ← hp]
              rw [hq, h2]; exact hq.trans h2
            · have hs' : (!isAbsolute c && !jsStartsWith c ".") = false := by simpa using hs
              rw [hq, ensureDotted_of_stable c hs']
              by_cases hex2 : existsSync fs (fullPath ext c) = true
              · rw [fixedIconPath_of_exists fs ext c hex2, ensureDotted_of_stable c hs']
              · have hex2' : existsSync fs (fullPath ext c) = false := by simpa using hex2
                have habs : isAbsolute c = true := by
                  by_contra hcon
                  have hcon' : isAbsolute c = false := by simpa using hcon
                  rw [fullPath_of_not_absolute _ _ hcon', hex] at hex2'
                  cases hex2'
                simp [fixedIconPath, hex2', correctedPath_of_absolute fs ext c habs,
                  ensureDotted_of_stable c hs']
        · cases hc
      · -- the candidate is `p` with `./` added
        have hsw' : jsStartsWith p "./" = false := by simpa using hsw
        have habs : isAbsolute p = false := by
          by_contra hcon
          have hcon' : isAbsolute p = true := by simpa using hcon
          rw [correctedPath_of_absolute fs ext p hcon'] at hc
          cases hc
        have hcor := hc
        rw [correctedPath_of_relative fs ext p hsw' habs] at hc
        split at hc
        · rename_i hex
          have hcd : "./" ++ p = c := Option.some.inj hc
          have hq : fixedIconPath fs ext p = ensureDotted c := by
            simp [fixedIconPath, hE', hcor, ← hcd, dotSlash_ne_empty]
          subst hcd
          rw [hq, ensureDotted_dotSlash]
          rw [fixedIconPath_of_exists fs ext _
            (by rw [fullPath_of_not_absolute _ _ (isAbsolute_dotSlash p)]; exact hex),
            ensureDotted_dotSlash]
        · cases hc

/-! ## The loop bodies on one definition -/

theorem fixIconPathValue_of_settled (fs : Node) (ext : String) (v : Json) (ip : Option Json)
    (hget : getProp v "iconPath" = .ok ip) (hs : iconPathSettled fs ext ip) :
    fixIconPathValue fs ext v = .ok v := by
  unfold fixIconPathValue
  rw [hget]
  cases ip with
  | none => rfl
  | some x =>
    rcases hs with hs | ⟨p, hx, hp⟩
    · simp [hs]
    · subst hx
      by_cases ht : truthy (.str p) = true
      · simp [ht, hp]
      · simp [ht]

theorem settled_of_fixIconPathValue (fs : Node) (ext : String) (v v' : Json)
    (h : fixIconPathValue fs ext v = .ok v') :
    ∃ ip, getProp v' "iconPath" = .ok ip ∧ iconPathSettled fs ext ip := by
  unfold fixIconPathValue at h
  cases hget : getProp v "iconPath" with
  | error e => simp [hget] at h
  | ok ip =>
    rw [hget] at h
    cases ip with
    | none =>
      simp at h; subst h
      exact ⟨none, hget, trivial⟩
    | some x =>
      by_cases ht : truthy x = true
      · simp only [ht, Bool.not_true, Bool.false_eq_true, if_false] at h
        cases x with
        | str p =>
          by_cases hp : fixedIconPath fs ext p = p
          · simp [hp] at h; subst h
            exact ⟨_, hget, Or.inr ⟨p, rfl, hp⟩⟩
          · simp only [hp, if_false] at h
            exact ⟨_, getProp_setProp_same _ _ _ _ h,
              Or.inr ⟨_, rfl, fixedIconPath_idem fs ext p⟩⟩
        | null => simp at h
        | bool b => simp at h
        | num n => simp at h
        | arr a b => simp at h
        | obj o => simp at h
      · have ht' : truthy x = false := by simpa using ht
        simp [ht'] at h; subst h
        exact ⟨_, hget, Or.inl ht'⟩

theorem fixIconPathValue_idem (fs : Node) (ext : String) (v v' : Json)
    (h : fixIconPathValue fs ext v = .ok v') : fixIconPathValue fs ext v' = .ok v' := by
  obtain ⟨ip, h1, h2⟩ := settled_of_fixIconPathValue fs ext v v' h
  exact fixIconPathValue_of_settled fs ext v' ip h1 h2

theorem settled_of_fixed (fs : Node) (ext : String) (v : Json)
    (h : fixIconPathValue fs ext v = .ok v) :
    ∃ ip, getProp v "iconPath" = .ok ip ∧ iconPathSettled fs ext ip :=
  settled_of_fixIconPathValue fs ext v v h

theorem fixIconPathValue_not_container (fs : Node) (ext : String) (v v' : Json)
    (h : fixIconPathValue fs ext v = .ok v') (hc : isContainer v = false) : v' = v := by
  cases v <;> simp [isContainer] at hc <;> simp [fixIconPathValue, getProp] at h <;> exact h.symm

theorem settled_of_coloredValue (fs : Node) (ext : String) (k : String) (v : Json)
    (h : fixIconPathValue fs ext v = .ok v) :
    fixIconPathValue fs ext (coloredValue k v) = .ok (coloredValue k v) := by
  obtain ⟨ip, h1, h2⟩ := settled_of_fixed fs ext v h
  refine fixIconPathValue_of_settled fs ext _ ip ?_ h2
  rw [getProp_coloredValue_ne k v "iconPath" (by decide)]
  exact h1

theorem fixIconPathValue_of_colored (fs : Node) (ext : String) (k : String) (v v' : Json)
    (h : fixIconPathValue fs ext v = .ok v) (hc : fixIconColorValue k v = .ok v') :
    fixIconPathValue fs ext v' = .ok v' := by
  by_cases hcon : isContainer v = true
  · rw [fixIconColorValue_container k v hcon] at hc
    cases hc
    exact settled_of_coloredValue fs ext k v h
  · have := fixIconColorValue_not_container k v v' hc (by simpa using hcon)
    subst this
    exact h

/-! ## Loops over `config.iconDefinitions` -/

theorem assocSet_self {β : Type} (l : List (String × β)) (k : String) (x : β)
    (h : assocGet l k = some x) : assocSet l k x = l := by
  induction l with
  | nil => simp [assocGet] at h
  | cons hd tl ih =>
    obtain ⟨k1, v1⟩ := hd
    by_cases h1 : k1 = k
    · simp [assocGet, h1] at h
      simp [assocSet, h1, h]
    · simp [assocGet, h1] at h
      simp [assocSet, h1, ih h]

theorem replaceProp_self (d : Json) (k : String) (x : Json)
    (h : getProp d k = .ok (some x)) : replaceProp d k x = d := by
  cases d <;> simp [getProp] at h <;> simp [replaceProp, setProp, assocSet_self _ _ _ h]

theorem indexedFrom_length (i : Nat) (xs : List Json) :
    (indexedFrom i xs).length = xs.length := by
  induction xs generalizing i with
  | nil => rfl
  | cons x xs ih => simp [indexedFrom, ih]

theorem indexedFrom_map_snd (i : Nat) (xs : List Json) :
    (indexedFrom i xs).map Prod.snd = xs := by
  induction xs generalizing i with
  | nil => rfl
  | cons x xs ih => simp [indexedFrom, ih]

theorem indexedFrom_of_keys (i : Nat) (xs : List Json) (l : List (String × Json))
    (h : l.map Prod.fst = (indexedFrom i xs).map Prod.fst) :
    indexedFrom i (l.map Prod.snd) = l := by
  induction xs generalizing i l with
  | nil =>
    simp [indexedFrom] at h
    subst h; rfl
  | cons x xs ih =>
    cases l with
    | nil => simp [indexedFrom] at h
    | cons hd tl =>
      obtain ⟨k, v⟩ := hd
      simp [indexedFrom] at h
      simp [indexedFrom, h.1, ih (i + 1) tl h.2]

theorem withValues_ownEntries (c : Json) : withValues c (ownEntries c) = c := by
  cases c with
  | arr items props =>
    simp [withValues, ownEntries, ← indexedFrom_length 0 items, indexedFrom_map_snd]
  | _ => rfl

theorem truthy_withValues (c : Json) (es : List (String × Json)) :
    truthy (withValues c es) = truthy c := by
  cases c <;> rfl

theorem forEntries_fixed (body : String → Json → Except JsError Json)
    (es : List (String × Json)) (h : ∀ kv ∈ es, body kv.1 kv.2 = .ok kv.2) :
    forEntries body es = (es, none) := by
  induction es with
  | nil => rfl
  | cons hd tl ih =>
    obtain ⟨k, v⟩ := hd
    have h1 := h (k, v) (by simp)
    simp only at h1
    have h2 := ih (fun kv hkv => h kv (by simp [hkv]))
    simp [forEntries, h1, h2]

theorem forEntries_mem (body : String → Json → Except JsError Json)
    (es : List (String × Json)) (hok : (forEntries body es).2 = none) :
    ∀ kv ∈ (forEntries body es).1, ∃ v, (kv.1, v) ∈ es ∧ body kv.1 v = .ok kv.2 := by
  induction es with
  | nil => simp [forEntries]
  | cons hd tl ih =>
    obtain ⟨k, v⟩ := hd
    cases hb : body k v with
    | error e => simp [forEntries, hb] at hok
    | ok w =>
      simp [forEntries, hb] at hok
      intro kv hkv
      simp [forEntries, hb] at hkv
      rcases hkv with hkv | hkv
      · subst hkv
        exact ⟨v, by simp, hb⟩
      · obtain ⟨v0, h1, h2⟩ := ih hok kv hkv
        exact ⟨v0, by simp [h1], h2⟩

theorem forEntries_not_container (body : String → Json → Except JsError Json)
    (hprim : ∀ k v v', body k v = .ok v' → isContainer v = false → v' = v)
    (es : List (String × Json)) (hes : ∀ kv ∈ es, isContainer kv.2 = false)
    (hok : (forEntries body es).2 = none) : (forEntries body es).1 = es := by
  induction es with
  | nil => rfl
  | cons hd tl ih =>
    obtain ⟨k, v⟩ := hd
    cases hb : body k v with
    | error e => simp [forEntries, hb] at hok
    | ok w =>
      simp [forEntries, hb] at hok
      have := hprim k v w hb (hes (k, v) (by simp))
      subst this
      simp [forEntries, hb, ih (fun kv hkv => hes kv (by simp [hkv])) hok]

theorem indexedFrom_not_container (i : Nat) (cs : List Char) :
    ∀ kv ∈ indexedFrom i (cs.map (fun c => Json.str (String.singleton c))),
      isContainer kv.2 = false := by
  induction cs generalizing i with
  | nil => simp [indexedFrom]
  | cons c cs ih =>
    intro kv hkv
    simp [indexedFrom] at hkv
    rcases hkv with hkv | hkv
    · subst hkv; rfl
    · exact ih (i + 1) kv hkv

/-- The entries of the container rebuilt after a loop are the entries the loop produced. -/
theorem ownEntries_withValues (body : String → Json → Except JsError Json)
    (hprim : ∀ k v v', body k v = .ok v' → isContainer v = false → v' = v)
    (c : Json) (hok : (forEntries body (ownEntries c)).2 = none) :
    ownEntries (withValues c (forEntries body (ownEntries c)).1) =
      (forEntries body (ownEntries c)).1 := by
  cases c with
  | obj ps => rfl
  | arr items props =>
    have hkeys := forEntries_keys body (ownEntries (.arr items props))
    generalize (forEntries body (ownEntries (Json.arr items props))).1 = es at hkeys
    simp only [ownEntries, List.map_append] at hkeys
    have hlen : (es.take items.length).map Prod.fst = (indexedFrom 0 items).map Prod.fst := by
      have := congrArg (List.take items.length) hkeys
      rw [← List.map_take] at this
      rw [this, List.take_append_of_le_length (by simp [indexedFrom_length])]
      rw [List.take_of_length_le (by simp [indexedFrom_length])]
    simp only [withValues, ownEntries]
    rw [indexedFrom_of_keys 0 items _ hlen, List.take_append_drop]
  | str s =>
    simp only [withValues]
    exact (forEntries_not_container body hprim _
      (by simpa [ownEntries] using indexedFrom_not_container 0 s.data) hok).symm
  | null => simp [ownEntries, forEntries, withValues]
  | bool b => simp [ownEntries, forEntries, withValues]
  | num n => simp [ownEntries, forEntries, withValues]

/-- What a loop over `config.iconDefinitions` that ends without an exception has done. -/
theorem forIconDefinitions_spec (body : String → Json → Except JsError Json)
    (hprim : ∀ k v v', body k v = .ok v' → isContainer v = false → v' = v)
    (d : Json) (hok : (forIconDefinitions body d).2 = none) :
    ((forIconDefinitions body d).1 = d ∧
      ∃ r, getProp d "iconDefinitions" = .ok r ∧
        ∀ defs, r = some defs → truthy defs = false) ∨
    (∃ defs defs', getProp d "iconDefinitions" = .ok (some defs) ∧ truthy defs = true ∧
      (forEntries body (ownEntries defs)).2 = none ∧
      getProp (forIconDefinitions body d).1 "iconDefinitions" = .ok (some defs') ∧
      truthy defs' = true ∧
      ownEntries defs' = (forEntries body (ownEntries defs)).1) := by
  unfold forIconDefinitions at hok ⊢
  cases hget : getProp d "iconDefinitions" with
  | error e => simp [hget] at hok
  | ok r =>
    cases r with
    | none =>
      left
      exact ⟨by simp, none, rfl, by simp⟩
    | some defs =>
      by_cases ht : truthy defs = true
      · right
        simp only [hget, ht, Bool.not_true, Bool.false_eq_true, if_false] at hok ⊢
        refine ⟨defs, withValues defs (forEntries body (ownEntries defs)).1, rfl, ht, hok,
          getProp_replaceProp_same d _ _ _ hget, ?_, ownEntries_withValues body hprim defs hok⟩
        rw [truthy_withValues]; exact ht
      · left
        have ht' : truthy defs = false := by simpa using ht
        refine ⟨by simp [ht'], some defs, rfl, ?_⟩
        intro defs0 h0
        cases h0
        exact ht'

theorem entriesSatisfy_of_run (body : String → Json → Except JsError Json)
    (hprim : ∀ k v v', body k v = .ok v' → isContainer v = false → v' = v)
    (Q : String → Json → Prop) (hQ : ∀ k v v', body k v = .ok v' → Q k v')
    (d : Json) (hok : (forIconDefinitions body d).2 = none) :
    EntriesSatisfy Q (forIconDefinitions body d).1 := by
  rcases forIconDefinitions_spec body hprim d hok with ⟨h1, r, hr, hfalsy⟩ | h
  · rw [h1]
    refine ⟨r, hr, ?_⟩
    intro defs hd ht
    rw [hfalsy defs hd] at ht
    cases ht
  · obtain ⟨defs, defs', _, _, hok', hget', _, hent⟩ := h
    refine ⟨some defs', hget', ?_⟩
    intro defs0 h0 _ kv hkv
    cases h0
    rw [hent] at hkv
    obtain ⟨v, _, hb⟩ := forEntries_mem body _ hok' kv hkv
    exact hQ kv.1 v kv.2 hb

theorem entriesSatisfy_preserved (body : String → Json → Except JsError Json)
    (hprim : ∀ k v v', body k v = .ok v' → isContainer v = false → v' = v)
    (Q : String → Json → Prop) (hQ : ∀ k v v', Q k v → body k v = .ok v' → Q k v')
    (d : Json) (hd : EntriesSatisfy Q d) (hok : (forIconDefinitions body d).2 = none) :
    EntriesSatisfy Q (forIconDefinitions body d).1 := by
  rcases forIconDefinitions_spec body hprim d hok with ⟨h1, _⟩ | h
  · rw [h1]; exact hd
  · obtain ⟨defs, defs', hget, ht, hok', hget', _, hent⟩ := h
    obtain ⟨r, hr, hall⟩ := hd
    rw [hget] at hr
    cases hr
    refine ⟨some defs', hget', ?_⟩
    intro defs0 h0 _ kv hkv
    cases h0
    rw [hent] at hkv
    obtain ⟨v, hmem, hb⟩ := forEntries_mem body _ hok' kv hkv
    exact hQ kv.1 v kv.2 (hall defs rfl ht (kv.1, v) hmem) hb

theorem run_of_entriesSatisfy (body : String → Json → Except JsError Json) (d : Json)
    (hd : EntriesSatisfy (fun k v => body k v = .ok v) d) :
    forIconDefinitions body d = (d, none) := by
  obtain ⟨r, hr, hall⟩ := hd
  unfold forIconDefinitions
  rw [hr]
  cases r with
  | none => rfl
  | some defs =>
    by_cases ht : truthy defs = true
    · have := forEntries_fixed body (ownEntries defs) (hall defs rfl ht)
      simp [ht, this, withValues_ownEntries, replaceProp_self d _ _ hr]
    · simp [ht]

/-! ## Idempotence of the normalization -/

theorem repairConfig_fixed (fs : Node) (ext : String) (d d' : Json)
    (h : repairConfig fs ext d = .ok d') : repairConfig fs ext d' = .ok d' := by
  unfold repairConfig at h
  cases h1 : (fixIconPaths fs ext d).2 with
  | some e => simp [h1] at h
  | none =>
    cases h2 : (fixIconColors (fixIconPaths fs ext d).1).2 with
    | some e => simp [h1, h2] at h
    | none =>
      simp only [h1, h2] at h
      cases h
      have pprim : ∀ (k : String) v v', fixIconPathValue fs ext v = .ok v' →
          isContainer v = false → v' = v :=
        fun _ v v' => fixIconPathValue_not_container fs ext v v'
      have s1 : EntriesSatisfy (fun _ v => fixIconPathValue fs ext v = .ok v)
          (fixIconPaths fs ext d).1 :=
        entriesSatisfy_of_run _ pprim _
          (fun _ v v' hb => fixIconPathValue_idem fs ext v v' hb) d h1
      have s2 : EntriesSatisfy (fun _ v => fixIconPathValue fs ext v = .ok v)
          (fixIconColors (fixIconPaths fs ext d).1).1 :=
        entriesSatisfy_preserved _ fixIconColorValue_not_container _
          (fun k v v' hq hb => fixIconPathValue_of_colored fs ext k v v' hq hb) _ s1 h2
      have s3 : EntriesSatisfy (fun k v => fixIconColorValue k v = .ok v)
          (fixIconColors (fixIconPaths fs ext d).1).1 :=
        entriesSatisfy_of_run _ fixIconColorValue_not_container _
          (fun k v v' hb => fixIconColorValue_idem k v v' hb) _ h2
      have e1 : fixIconPaths fs ext (fixIconColors (fixIconPaths fs ext d).1).1 =
          ((fixIconColors (fixIconPaths fs ext d).1).1, none) :=
        run_of_entriesSatisfy _ _ s2
      have e2 : fixIconColors (fixIconColors (fixIconPaths fs ext d).1).1 =
          ((fixIconColors (fixIconPaths fs ext d).1).1, none) :=
        run_of_entriesSatisfy _ _ s3
      simp [repairConfig, e1, e2]

/-- C7.  Idempotent normalize (P1): for every document and every fixed file system, running the
normalization (`fixIconPaths` followed by `fixIconColors`) on the document it has produced
returns that document unchanged; when the first run throws there is no document to run it on
again. -/
theorem repairConfig_idempotent (fs : Node) (extensionPath : String) (d : Json) :
    (repairConfig fs extensionPath d).bind (repairConfig fs extensionPath) =
      repairConfig fs extensionPath d := by
  cases h : repairConfig fs extensionPath d with
  | error e => rfl
  | ok d' => exact repairConfig_fixed fs extensionPath d d' h

/-! ## The color invariant -/

theorem mem_of_assocGet {β : Type} (l : List (String × β)) (k : String) (v : β)
    (h : assocGet l k = some v) : (k, v) ∈ l := by
  induction l with
  | nil => simp [assocGet] at h
  | cons hd tl ih =>
    obtain ⟨k1, v1⟩ := hd
    by_cases h1 : k1 = k
    · simp [assocGet, h1] at h
      simp [h1, h]
    · simp [assocGet, h1] at h
      simp [ih h]

theorem isContainer_of_isObject (v : Json) (h : isObject v = true) : isContainer v = true := by
  cases v <;> first | rfl | simp [isObject] at h

/-- C8.  Color invariant I3 of the normalizer: when every icon definition of a document is an
object, `fixIconColors` ends without an exception and keeps the keys of `iconDefinitions`;
afterwards every definition whose key is none of `_file`, `_folder`, `_folder_open` has a
truthy (non-empty) `fontColor`, equal to its previous `fontColor` if that was non-empty and to
the default accent color `#519aba` otherwise, and a definition under a reserved key that had
neither a `fontColor` nor a `fontCharacter` is left as it was, without a `fontColor`. -/
theorem fixIconColors_color_invariant (d : Json) (ps : List (String × Json))
    (hdefs : getProp d "iconDefinitions" = .ok (some (.obj ps)))
    (hobj : ∀ kv ∈ ps, isObject kv.2 = true) :
    ∃ ps', (fixIconColors d).2 = none ∧
      getProp (fixIconColors d).1 "iconDefinitions" = .ok (some (.obj ps')) ∧
      ps'.map Prod.fst = ps.map Prod.fst ∧
      ∀ k v, assocGet ps k = some v →
        ∃ v', assocGet ps' k = some v' ∧
          (notReserved k = true →
            ∃ c, getProp v' "fontColor" = .ok (some c) ∧ truthy c = true ∧
              (propTruthy v "fontColor" = true → getProp v "fontColor" = .ok (some c)) ∧
              (propTruthy v "fontColor" = false → c = .str "#519aba")) ∧
          (notReserved k = false → propTruthy v "fontColor" = false →
            propTruthy v "fontCharacter" = false →
            v' = v ∧ propTruthy v' "fontColor" = false) := by
  have hall : ∀ kv ∈ ps, ∃ v', fixIconColorValue kv.1 kv.2 = .ok v' := fun kv hkv =>
    ⟨_, fixIconColorValue_container kv.1 kv.2 (isContainer_of_isObject _ (hobj kv hkv))⟩
  have hok := forEntries_ok fixIconColorValue ps hall
  refine ⟨(forEntries fixIconColorValue ps).1, ?_, ?_, forEntries_keys _ _, ?_⟩
  · simp [fixIconColors, forIconDefinitions, hdefs, truthy, ownEntries, hok]
  · simp only [fixIconColors, forIconDefinitions, hdefs, truthy, ownEntries, withValues]
    simpa using getProp_replaceProp_same d "iconDefinitions" _ _ hdefs
  · intro k v hk
    obtain ⟨v', hb, hget⟩ := forEntries_get fixIconColorValue ps hok k v hk
    refine ⟨v', hget, ?_⟩
    have hcon := isContainer_of_isObject _ (hobj (k, v) (mem_of_assocGet ps k v hk))
    rw [fixIconColorValue_container k v hcon] at hb
    cases hb
    constructor
    · intro hres
      by_cases h1 : propTruthy v "fontColor" = true
      · obtain ⟨r, hr⟩ := getProp_of_container v "fontColor" hcon
        have hpt := propTruthy_eq v "fontColor" r hr
        rw [h1] at hpt
        cases r with
        | none => simp [truthyOpt] at hpt
        | some c =>
          refine ⟨c, by simp [coloredValue, h1, hr], by simpa [truthyOpt] using hpt.symm,
            fun _ => hr, fun h => ?_⟩
          rw [h1] at h; cases h
      · have h1' : propTruthy v "fontColor" = false := by simpa using h1
        have hcv : coloredValue k v = withDefaultColor v := by
          simp [coloredValue, h1', hres]
        refine ⟨.str "#519aba", ?_, by decide, fun h => ?_, fun _ => rfl⟩
        · rw [hcv]
          obtain ⟨r, hr⟩ := getProp_of_container v "fontColor" hcon
          cases v <;> simp [isContainer] at hcon <;>
            simp [withDefaultColor, replaceProp, setProp, getProp, assocGet_assocSet_same]
        · rw [h1'] at h; cases h
    · intro hres h1 h2
      have hcv : coloredValue k v = v := by simp [coloredValue, h1, h2, hres]
      rw [hcv]
      exact ⟨rfl, h1⟩

/-! ## Object spread -/

theorem assocGet_none_of_not_mem {β : Type} (l : List (String × β)) (k : String)
    (h : k ∉ l.map Prod.fst) : assocGet l k = none := by
  induction l with
  | nil => rfl
  | cons hd tl ih =>
    obtain ⟨k1, v1⟩ := hd
    simp at h
    have h1 : k1 ≠ k := fun e => h.1 e.symm
    simp [assocGet, h1]
    exact ih (by simpa using h.2)

theorem assocGet_foldl_assocSet (es acc : List (String × Json)) (k : String)
    (hnd : (es.map Prod.fst).Nodup) :
    assocGet (es.foldl (fun a kv => assocSet a kv.1 kv.2) acc) k =
      match assocGet es k with
      | some v => some v
      | none => assocGet acc k := by
  induction es generalizing acc with
  | nil => simp [assocGet]
  | cons hd tl ih =>
    obtain ⟨k1, v1⟩ := hd
    simp only [List.map_cons, List.nodup_cons] at hnd
    simp only [List.foldl_cons]
    rw [ih _ hnd.2]
    by_cases h1 : k1 = k
    · subst h1
      simp [assocGet, assocGet_none_of_not_mem tl k1 hnd.1, assocGet_assocSet_same]
    · simp [assocGet, h1, assocGet_assocSet_ne _ _ _ _ h1]

theorem mem_assocSet {β : Type} (l : List (String × β)) (k : String) (v : β)
    (kv : String × β) (h : kv ∈ assocSet l k v) : kv ∈ l ∨ kv = (k, v) := by
  induction l with
  | nil => simp [assocSet] at h; exact Or.inr h
  | cons hd tl ih =>
    obtain ⟨k1, v1⟩ := hd
    by_cases h1 : k1 = k
    · simp [assocSet, h1] at h
      rcases h with h | h
      · exact Or.inr h
      · exact Or.inl (by simp [h])
    · simp [assocSet, h1] at h
      rcases h with h | h
      · exact Or.inl (by simp [h])
      · rcases ih h with h | h
        · exact Or.inl (by simp [h])
        · exact Or.inr h

theorem mem_foldl_assocSet (es acc : List (String × Json)) (kv : String × Json)
    (h : kv ∈ es.foldl (fun a kv => assocSet a kv.1 kv.2) acc) : kv ∈ acc ∨ kv ∈ es := by
  induction es generalizing acc with
  | nil => exact Or.inl h
  | cons hd tl ih =>
    simp only [List.foldl_cons] at h
    rcases ih _ h with h | h
    · rcases mem_assocSet _ _ _ _ h with h | h
      · exact Or.inl h
      · exact Or.inr (by simp [h])
    · exact Or.inr (by simp [h])

theorem ownEntries_of_falsy (c : Json) (h : truthy c = false) : ownEntries c = [] := by
  cases c <;> simp [truthy] at h <;> simp [ownEntries, indexedFrom, h]

theorem spread2_eq (a b : Option Json) : spread2 a b = .obj (spreadEntries a b) := rfl

theorem spreadInto_eq (acc : List (String × Json)) (src : Option Json) :
    spreadInto acc src = (entriesOpt src).foldl (fun a kv => assocSet a kv.1 kv.2) acc := by
  cases src <;> rfl

theorem assocGet_spreadEntries (a b : Option Json) (k : String)
    (ha : ((entriesOpt a).map Prod.fst).Nodup) (hb : ((entriesOpt b).map Prod.fst).Nodup) :
    assocGet (spreadEntries a b) k =
      match assocGet (entriesOpt b) k with
      | some v => some v
      | none => assocGet (entriesOpt a) k := by
  unfold spreadEntries
  rw [spreadInto_eq, spreadInto_eq, assocGet_foldl_assocSet _ _ _ hb,
    assocGet_foldl_assocSet _ _ _ ha]
  cases assocGet (entriesOpt b) k with
  | some v => rfl
  | none =>
    cases assocGet (entriesOpt a) k <;> simp [assocGet]

theorem mem_spreadEntries (a b : Option Json) (kv : String × Json)
    (h : kv ∈ spreadEntries a b) : kv ∈ entriesOpt a ∨ kv ∈ entriesOpt b := by
  unfold spreadEntries at h
  rw [spreadInto_eq, spreadInto_eq] at h
  rcases mem_foldl_assocSet _ _ _ h with h | h
  · rcases mem_foldl_assocSet _ _ _ h with h | h
    · simp at h
    · exact Or.inl h
  · exact Or.inr h

/-! ## `mergeConfigurations` in normal form -/

theorem getProp_eq_propOpt (v : Json) (k : String) (h : v ≠ .null) :
    getProp v k = .ok (propOpt v k) := by
  cases v <;> simp [getProp, propOpt, Except.toOption] at h ⊢

theorem ne_null_of_container (v : Json) (h : isContainer v = true) : v ≠ .null := by
  cases v <;> simp [isContainer] at h <;> simp

theorem getProp_replaceProp_container (d : Json) (k : String) (y : Json)
    (h : isContainer d = true) : getProp (replaceProp d k y) k = .ok (some y) := by
  cases d <;> simp [isContainer] at h <;>
    simp [getProp, replaceProp, setProp, assocGet_assocSet_same]

theorem replaceProp_ne_null (d : Json) (k : String) (y : Json) (h : d ≠ .null) :
    replaceProp d k y ≠ .null := by
  cases d <;> simp [replaceProp, setProp] at h ⊢

theorem propTruthy_eq_propOpt (v : Json) (k : String) :
    propTruthy v k = truthyOpt (propOpt v k) := by
  cases v <;> simp [propTruthy, getProp, propOpt, Except.toOption, truthyOpt]

theorem mergeBinding_eq (result fc : Json) (k : String) (hr : isContainer result = true)
    (hfc : fc ≠ .null) : mergeBinding result fc k = .ok (mergedBinding result fc k) := by
  unfold mergeBinding mergedBinding
  rw [getProp_eq_propOpt fc k hfc, getProp_eq_propOpt result k (ne_null_of_container _ hr),
    propTruthy_eq_propOpt]
  by_cases h : truthyOpt (propOpt fc k) = true
  · simp [h, setProp_of_container _ _ _ hr, Except.toOption]
  · simp [h]

theorem isContainer_mergedBinding (result fc : Json) (k : String) :
    isContainer (mergedBinding result fc k) = isContainer result := by
  unfold mergedBinding
  split
  · exact isContainer_replaceProp _ _ _
  · rfl

theorem getProp_mergedBinding_ne (result fc : Json) (k k' : String) (h : k ≠ k') :
    getProp (mergedBinding result fc k) k' = getProp result k' := by
  unfold mergedBinding
  split
  · exact getProp_replaceProp_ne _ _ _ _ h
  · rfl

theorem isContainer_forIconDefinitions (body : String → Json → Except JsError Json) (d : Json) :
    isContainer (forIconDefinitions body d).1 = isContainer d := by
  unfold forIconDefinitions
  split
  · rfl
  · rfl
  · split
    · rfl
    · exact isContainer_replaceProp _ _ _

theorem getProp_forIconDefinitions_ne (body : String → Json → Except JsError Json) (d : Json)
    (k : String) (h : "iconDefinitions" ≠ k) :
    getProp (forIconDefinitions body d).1 k = getProp d k := by
  unfold forIconDefinitions
  split
  · rfl
  · rfl
  · split
    · rfl
    · exact getProp_replaceProp_ne _ _ _ _ h

theorem overlayAfter_ne_null (O M : Json) (h : O ≠ .null) : overlayAfter O M ≠ .null := by
  unfold overlayAfter
  split
  · exact replaceProp_ne_null _ _ _ h
  · exact h

theorem getProp_overlayAfter_ne (O M : Json) (k : String) (h : "iconDefinitions" ≠ k) :
    getProp (overlayAfter O M) k = getProp O k := by
  unfold overlayAfter
  split
  · exact getProp_replaceProp_ne _ _ _ _ h
  · rfl

/-- The value `mergeConfigurations` returns and the state it leaves the overlay in, when the deep
copy reproduces the base, the base is an object, the overlay is not `null` and the path repair
of the merged definitions does not throw. -/
theorem mergeConfigurations_eq (J : JsRuntime) (fs : Node) (B O : Json) (ext : String)
    (hB : isContainer B = true) (hO : O ≠ .null)
    (hcopy : J.parse (J.stringify B) = some B)
    (hfix : (fixIconPaths fs ext (mergedDefinitions B O)).2 = none) :
    mergeConfigurations J fs B O ext =
      ⟨mergedBinding (mergedBinding (mergedBinding (fixIconPaths fs ext (mergedDefinitions B O)).1
          (overlayAfter O (fixIconPaths fs ext (mergedDefinitions B O)).1) "fileExtensions")
          (overlayAfter O (fixIconPaths fs ext (mergedDefinitions B O)).1) "fileNames")
          (overlayAfter O (fixIconPaths fs ext (mergedDefinitions B O)).1) "languageIds",
        B, overlayAfter O (fixIconPaths fs ext (mergedDefinitions B O)).1⟩ := by
  have hF : isContainer (fixIconPaths fs ext (mergedDefinitions B O)).1 = true := by
    unfold fixIconPaths
    rw [isContainer_forIconDefinitions]
    unfold mergedDefinitions
    rw [isContainer_replaceProp]; exact hB
  have hO1 := overlayAfter_ne_null O (fixIconPaths fs ext (mergedDefinitions B O)).1 hO
  have h1 := mergeBinding_eq _ _ "fileExtensions" hF hO1
  have hF2 : isContainer (mergedBinding (fixIconPaths fs ext (mergedDefinitions B O)).1
      (overlayAfter O (fixIconPaths fs ext (mergedDefinitions B O)).1) "fileExtensions") = true := by
    rw [isContainer_mergedBinding]; exact hF
  have h2 := mergeBinding_eq _ _ "fileNames" hF2 hO1
  have hF3 : isContainer (mergedBinding (mergedBinding
      (fixIconPaths fs ext (mergedDefinitions B O)).1
      (overlayAfter O (fixIconPaths fs ext (mergedDefinitions B O)).1) "fileExtensions")
      (overlayAfter O (fixIconPaths fs ext (mergedDefinitions B O)).1) "fileNames") = true := by
    rw [isContainer_mergedBinding]; exact hF2
  have h3 := mergeBinding_eq _ _ "languageIds" hF3 hO1
  unfold mergeConfigurations
  simp only [hcopy, getProp_eq_propOpt B _ (ne_null_of_container _ hB),
    getProp_eq_propOpt O _ hO, setProp_of_container B _ _ hB]
  have hmd : replaceProp B "iconDefinitions"
      (spread2 (propOpt B "iconDefinitions") (propOpt O "iconDefinitions")) =
      mergedDefinitions B O := rfl
  simp only [hmd, hfix, h1, h2, h3]

/-! ## Lookups in the merged document -/

theorem lookupIn_eq (d : Json) (m k : String) :
    lookupIn d m k = assocGet (entriesOpt (propOpt d m)) k := by
  unfold lookupIn propOpt
  cases hg : getProp d m with
  | error e => simp [Except.toOption, entriesOpt, assocGet]
  | ok r => cases r <;> simp [Except.toOption, entriesOpt, assocGet]

theorem distinctKeys_eq (d : Json) (m : String) (h : distinctKeys d m = true) :
    ((entriesOpt (propOpt d m)).map Prod.fst).Nodup := by
  unfold distinctKeys at h
  unfold propOpt
  cases hg : getProp d m with
  | error e => simp [Except.toOption, entriesOpt]
  | ok r =>
    cases r with
    | none => simp [Except.toOption, entriesOpt]
    | some c => simpa [hg, Except.toOption, entriesOpt] using h

theorem propOpt_congr (d d' : Json) (m : String) (h : getProp d m = getProp d' m) :
    propOpt d m = propOpt d' m := by
  simp [propOpt, h]

theorem fixIconPathValue_of_repairable (fs : Node) (ext : String) (v : Json)
    (h : pathRepairable v = true) : ∃ v', fixIconPathValue fs ext v = .ok v' := by
  unfold pathRepairable at h
  unfold fixIconPathValue
  cases hg : getProp v "iconPath" with
  | error e => simp [hg] at h
  | ok ip =>
    cases ip with
    | none => exact ⟨v, rfl⟩
    | some x =>
      by_cases ht : truthy x = true
      · cases x with
        | str p =>
          simp only [ht, Bool.not_true, Bool.false_eq_true, if_false]
          by_cases hp : fixedIconPath fs ext p = p
          · exact ⟨v, by simp [hp]⟩
          · have hc : isContainer v = true := by
              cases v <;> simp [getProp] at hg <;> rfl
            exact ⟨replaceProp v "iconPath" (.str (fixedIconPath fs ext p)),
              by simp [hp, setProp_of_container v _ _ hc]⟩
        | null => simp [truthy] at ht
        | bool b => simp [hg, ht] at h
        | num n => simp [hg, ht] at h
        | arr a b => simp [hg, ht] at h
        | obj o => simp [hg, ht] at h
      · exact ⟨v, by simp [ht]⟩

theorem repairable_of_definitionsRepairable (d : Json) (h : definitionsRepairable d = true) :
    ∀ kv ∈ entriesOpt (propOpt d "iconDefinitions"), pathRepairable kv.2 = true := by
  unfold definitionsRepairable at h
  unfold propOpt
  cases hg : getProp d "iconDefinitions" with
  | error e => simp [Except.toOption, entriesOpt]
  | ok r =>
    cases r with
    | none => simp [Except.toOption, entriesOpt]
    | some c =>
      simp only [hg, List.all_eq_true] at h
      simpa [Except.toOption, entriesOpt] using h

/-- The path repair of the merged definitions does not throw when it throws on no definition of
the base or the overlay, and it leaves the merged definitions repaired entry by entry. -/
theorem fixIconPaths_mergedDefinitions (fs : Node) (ext : String) (B O : Json)
    (hB : isContainer B = true)
    (hBdefs : definitionsRepairable B = true) (hOdefs : definitionsRepairable O = true) :
    (fixIconPaths fs ext (mergedDefinitions B O)).2 = none ∧
    getProp (fixIconPaths fs ext (mergedDefinitions B O)).1 "iconDefinitions" =
      .ok (some (.obj (forEntries (fun _ v => fixIconPathValue fs ext v)
        (spreadEntries (propOpt B "iconDefinitions") (propOpt O "iconDefinitions"))).1)) ∧
    (forEntries (fun _ v => fixIconPathValue fs ext v)
        (spreadEntries (propOpt B "iconDefinitions") (propOpt O "iconDefinitions"))).2 = none := by
  have hget : getProp (mergedDefinitions B O) "iconDefinitions" =
      .ok (some (.obj (spreadEntries (propOpt B "iconDefinitions")
        (propOpt O "iconDefinitions")))) :=
    getProp_replaceProp_container B _ _ hB
  have hok : (forEntries (fun _ v => fixIconPathValue fs ext v)
      (spreadEntries (propOpt B "iconDefinitions") (propOpt O "iconDefinitions"))).2 = none := by
    apply forEntries_ok
    intro kv hkv
    apply fixIconPathValue_of_repairable
    rcases mem_spreadEntries _ _ kv hkv with h | h
    · exact repairable_of_definitionsRepairable B hBdefs kv h
    · exact repairable_of_definitionsRepairable O hOdefs kv h
  refine ⟨?_, ?_, hok⟩
  · simp [fixIconPaths, forIconDefinitions, hget, truthy, ownEntries, hok]
  · simp only [fixIconPaths, forIconDefinitions, hget, truthy, ownEntries, withValues]
    simpa using getProp_replaceProp_same (mergedDefinitions B O) "iconDefinitions" _ _ hget

theorem lookupIn_congr (d d' : Json) (m k : String) (h : getProp d m = getProp d' m) :
    lookupIn d m k = lookupIn d' m k := by
  simp [lookupIn, h]

theorem distinctKeys_congr (d d' : Json) (m : String) (h : getProp d m = getProp d' m) :
    distinctKeys d m = distinctKeys d' m := by
  simp [distinctKeys, h]

theorem lookupIn_mergedBinding (result fc : Json) (m k : String)
    (hr : isContainer result = true)
    (hrk : distinctKeys result m = true) (hfk : distinctKeys fc m = true) :
    lookupIn (mergedBinding result fc m) m k =
      match lookupIn fc m k with
      | some v => some v
      | none => lookupIn result m k := by
  unfold mergedBinding
  rw [propTruthy_eq_propOpt]
  by_cases ht : truthyOpt (propOpt fc m) = true
  · simp only [ht, if_true]
    have hr' := getProp_eq_propOpt result m (ne_null_of_container _ hr)
    have : lookupIn (replaceProp result m
        (spread2 (getProp result m).toOption.join (getProp fc m).toOption.join)) m k =
        assocGet (spreadEntries (propOpt result m) (propOpt fc m)) k := by
      simp [lookupIn, getProp_replaceProp_container result m _ hr, spread2_eq, ownEntries, propOpt]
    rw [this, assocGet_spreadEntries _ _ _ (distinctKeys_eq _ _ hrk) (distinctKeys_eq _ _ hfk),
      lookupIn_eq fc, lookupIn_eq result]
  · simp only [ht, Bool.false_eq_true, if_false]
    have hnone : lookupIn fc m k = none := by
      rw [lookupIn_eq]
      cases hp : propOpt fc m with
      | none => simp [entriesOpt, assocGet]
      | some c =>
        have : truthy c = false := by simpa [hp, truthyOpt] using ht
        simp [entriesOpt, ownEntries_of_falsy c this, assocGet]
    rw [hnone]

/-! ## Binding maps and roles of the merged document -/

theorem getProp_fixed_merged_ne (fs : Node) (ext : String) (B O : Json) (k : String)
    (h : "iconDefinitions" ≠ k) :
    getProp (fixIconPaths fs ext (mergedDefinitions B O)).1 k = getProp B k := by
  unfold fixIconPaths
  rw [getProp_forIconDefinitions_ne _ _ _ h]
  exact getProp_replaceProp_ne _ _ _ _ h

theorem mergeConfigurations_of_null (J : JsRuntime) (fs : Node) (B : Json) (ext : String) :
    (mergeConfigurations J fs B .null ext).result = B := by
  unfold mergeConfigurations
  cases J.parse (J.stringify B) with
  | none => rfl
  | some result =>
    cases hg : getProp result "iconDefinitions" <;> simp [getProp]

theorem lookupIn_null (m k : String) : lookupIn .null m k = none := rfl

/-- C6.  Merge of binding maps and frame on roles: when the deep copy reproduces the base, the
base is an object, `fixIconPaths` throws on no definition of base or overlay, and the binding
maps have distinct keys, each of `fileExtensions`, `fileNames`, `languageIds` of the result of
`mergeConfigurations` maps a key to the overlay's value if the overlay's map has the key and
otherwise to the base's value (and has no other key), while `file`, `folder`,
`folderExpanded`, `light` and `highContrast` of the result are those of the base, whatever the
overlay holds under these names. -/
theorem mergeConfigurations_bindings_and_roles (J : JsRuntime) (fs : Node) (B O : Json)
    (extensionPath : String)
    (hB : isContainer B = true)
    (hcopy : J.parse (J.stringify B) = some B)
    (hBdefs : definitionsRepairable B = true) (hOdefs : definitionsRepairable O = true)
    (hBkeys : bindingKeysDistinct B = true) (hOkeys : bindingKeysDistinct O = true) :
    (∀ m, m = "fileExtensions" ∨ m = "fileNames" ∨ m = "languageIds" → ∀ k,
      lookupIn (mergeConfigurations J fs B O extensionPath).result m k =
        match lookupIn O m k with
        | some v => some v
        | none => lookupIn B m k) ∧
    (∀ r, r = "file" ∨ r = "folder" ∨ r = "folderExpanded" ∨ r = "light" ∨
        r = "highContrast" →
      getProp (mergeConfigurations J fs B O extensionPath).result r = getProp B r) := by
  by_cases hO : O = .null
  · subst hO
    rw [mergeConfigurations_of_null]
    exact ⟨fun m _ k => by rw [lookupIn_null], fun r _ => rfl⟩
  · obtain ⟨hfix, _, _⟩ := fixIconPaths_mergedDefinitions fs extensionPath B O hB hBdefs hOdefs
    rw [mergeConfigurations_eq J fs B O extensionPath hB hO hcopy hfix]
    simp only [bindingKeysDistinct, Bool.and_eq_true] at hBkeys hOkeys
    have hF : isContainer (fixIconPaths fs extensionPath (mergedDefinitions B O)).1 = true := by
      unfold fixIconPaths
      rw [isContainer_forIconDefinitions]
      unfold mergedDefinitions
      rw [isContainer_replaceProp]; exact hB
    -- the base's maps reach the merge steps unchanged
    have hFB := getProp_fixed_merged_ne fs extensionPath B O
    have hOO := getProp_overlayAfter_ne O (fixIconPaths fs extensionPath (mergedDefinitions B O)).1
    constructor
    · intro m hm k
      rcases hm with hm | hm | hm <;> subst hm
      · rw [lookupIn_congr _ _ "fileExtensions" k
            ((getProp_mergedBinding_ne _ _ "languageIds" _ (by decide)).trans
              (getProp_mergedBinding_ne _ _ "fileNames" _ (by decide)))]
        rw [lookupIn_mergedBinding _ _ _ _ hF
            (by rw [distinctKeys_congr _ B _ (hFB _ (by decide))]; exact hBkeys.1.1)
            (by rw [distinctKeys_congr _ O _ (hOO _ (by decide))]; exact hOkeys.1.1)]
        rw [lookupIn_congr _ O _ k (hOO _ (by decide)),
          lookupIn_congr _ B _ k (hFB _ (by decide))]
      · rw [lookupIn_congr _ _ "fileNames" k
            (getProp_mergedBinding_ne _ _ "languageIds" _ (by decide))]
        rw [lookupIn_mergedBinding _ _ _ _ (by rw [isContainer_mergedBinding]; exact hF)
            (by rw [distinctKeys_congr _ B _ ((getProp_mergedBinding_ne _ _ "fileExtensions" _
                  (by decide)).trans (hFB _ (by decide)))]; exact hBkeys.1.2)
            (by rw [distinctKeys_congr _ O _ (hOO _ (by decide))]; exact hOkeys.1.2)]
        rw [lookupIn_congr _ O _ k (hOO _ (by decide)),
          lookupIn_congr _ B _ k ((getProp_mergedBinding_ne _ _ "fileExtensions" _
            (by decide)).trans (hFB _ (by decide)))]
      · rw [lookupIn_mergedBinding _ _ _ _
            (by rw [isContainer_mergedBinding, isContainer_mergedBinding]; exact hF)
            (by rw [distinctKeys_congr _ B _ ((getProp_mergedBinding_ne _ _ "fileNames" _
                  (by decide)).trans ((getProp_mergedBinding_ne _ _ "fileExtensions" _
                  (by decide)).trans (hFB _ (by decide))))]; exact hBkeys.2)
            (by rw [distinctKeys_congr _ O _ (hOO _ (by decide))]; exact hOkeys.2)]
        rw [lookupIn_congr _ O _ k (hOO _ (by decide)),
          lookupIn_congr _ B _ k ((getProp_mergedBinding_ne _ _ "fileNames" _
            (by decide)).trans ((getProp_mergedBinding_ne _ _ "fileExtensions" _
            (by decide)).trans (hFB _ (by decide))))]
    · intro r hr
      have h1 : "languageIds" ≠ r := by rcases hr with h | h | h | h | h <;> subst h <;> decide
      have h2 : "fileNames" ≠ r := by rcases hr with h | h | h | h | h <;> subst h <;> decide
      have h3 : "fileExtensions" ≠ r := by rcases hr with h | h | h | h | h <;> subst h <;> decide
      have h4 : "iconDefinitions" ≠ r := by rcases hr with h | h | h | h | h <;> subst h <;> decide
      rw [getProp_mergedBinding_ne _ _ _ _ h1, getProp_mergedBinding_ne _ _ _ _ h2,
        getProp_mergedBinding_ne _ _ _ _ h3, hFB _ h4]

/-! ## Definitions of the merged document -/

theorem getProp_fixIconPathValue_ne (fs : Node) (ext : String) (v v' : Json)
    (h : fixIconPathValue fs ext v = .ok v') (f : String) (hf : f ≠ "iconPath") :
    getProp v' f = getProp v f := by
  unfold fixIconPathValue at h
  cases hg : getProp v "iconPath" with
  | error e => simp [hg] at h
  | ok ip =>
    rw [hg] at h
    cases ip with
    | none => simp at h; rw [h]
    | some x =>
      by_cases ht : truthy x = true
      · simp only [ht, Bool.not_true, Bool.false_eq_true, if_false] at h
        cases x with
        | str p =>
          by_cases hp : fixedIconPath fs ext p = p
          · simp [hp] at h; rw [h]
          · simp only [hp, if_false] at h
            exact getProp_setProp_ne _ _ _ _ _ h (fun e => hf e.symm)
        | null => simp at h
        | bool b => simp at h
        | num n => simp at h
        | arr a b => simp at h
        | obj o => simp at h
      · simp [ht] at h; rw [h]

theorem entriesSatisfy_of_repairConfig (fs : Node) (ext : String) (d d' : Json)
    (h : repairConfig fs ext d = .ok d') :
    EntriesSatisfy (fun _ v => fixIconPathValue fs ext v = .ok v) d' := by
  unfold repairConfig at h
  cases h1 : (fixIconPaths fs ext d).2 with
  | some e => simp [h1] at h
  | none =>
    cases h2 : (fixIconColors (fixIconPaths fs ext d).1).2 with
    | some e => simp [h1, h2] at h
    | none =>
      simp only [h1, h2] at h
      cases h
      have pprim : ∀ (k : String) v v', fixIconPathValue fs ext v = .ok v' →
          isContainer v = false → v' = v :=
        fun _ v v' => fixIconPathValue_not_container fs ext v v'
      have s1 : EntriesSatisfy (fun _ v => fixIconPathValue fs ext v = .ok v)
          (fixIconPaths fs ext d).1 :=
        entriesSatisfy_of_run _ pprim _
          (fun _ v v' hb => fixIconPathValue_idem fs ext v v' hb) d h1
      exact entriesSatisfy_preserved _ fixIconColorValue_not_container _
        (fun k v v' hq hb => fixIconPathValue_of_colored fs ext k v v' hq hb) _ s1 h2

theorem fixed_of_normalized (fs : Node) (ext : String) (B : Json)
    (hnorm : repairConfig fs ext B = .ok B) :
    ∀ kv ∈ entriesOpt (propOpt B "iconDefinitions"), fixIconPathValue fs ext kv.2 = .ok kv.2 := by
  obtain ⟨r, hr, hall⟩ := entriesSatisfy_of_repairConfig fs ext B B hnorm
  intro kv hkv
  have hp : propOpt B "iconDefinitions" = r := by simp [propOpt, hr, Except.toOption]
  rw [hp] at hkv
  cases r with
  | none => simp [entriesOpt] at hkv
  | some defs =>
    simp only [entriesOpt] at hkv
    by_cases ht : truthy defs = true
    · exact hall defs rfl ht kv hkv
    · rw [ownEntries_of_falsy defs (by simpa using ht)] at hkv
      simp at hkv

/-- The path repair of the merged definitions, given that its loop body throws on none of
them. -/
theorem fixIconPaths_merged_of_forall (fs : Node) (ext : String) (B O : Json)
    (hB : isContainer B = true)
    (hall : ∀ kv ∈ spreadEntries (propOpt B "iconDefinitions") (propOpt O "iconDefinitions"),
      ∃ v', fixIconPathValue fs ext kv.2 = .ok v') :
    (fixIconPaths fs ext (mergedDefinitions B O)).2 = none ∧
    getProp (fixIconPaths fs ext (mergedDefinitions B O)).1 "iconDefinitions" =
      .ok (some (.obj (forEntries (fun _ v => fixIconPathValue fs ext v)
        (spreadEntries (propOpt B "iconDefinitions") (propOpt O "iconDefinitions"))).1)) ∧
    (forEntries (fun _ v => fixIconPathValue fs ext v)
        (spreadEntries (propOpt B "iconDefinitions") (propOpt O "iconDefinitions"))).2 = none := by
  have hget : getProp (mergedDefinitions B O) "iconDefinitions" =
      .ok (some (.obj (spreadEntries (propOpt B "iconDefinitions")
        (propOpt O "iconDefinitions")))) :=
    getProp_replaceProp_container B _ _ hB
  have hok := forEntries_ok (fun _ v => fixIconPathValue fs ext v) _ hall
  refine ⟨?_, ?_, hok⟩
  · simp [fixIconPaths, forIconDefinitions, hget, truthy, ownEntries, hok]
  · simp only [fixIconPaths, forIconDefinitions, hget, truthy, ownEntries, withValues]
    simpa using getProp_replaceProp_same (mergedDefinitions B O) "iconDefinitions" _ _ hget

/-- C4, as amended.  Merge of icon definitions: for a normalized base `B` (an object that the
normalization leaves unchanged and that the deep copy reproduces) and an overlay `O` on whose
definitions `fixIconPaths` does not throw, every key of `O.iconDefinitions` is present in the
result of `mergeConfigurations` with `O`'s value as repaired by the loop body of
`fixIconPaths` (its `iconPath` possibly rewritten, every other field as `O` supplied it), and
every key of `B.iconDefinitions` absent from `O.iconDefinitions` is present with `B`'s value
unchanged. -/
theorem mergeConfigurations_definitions (J : JsRuntime) (fs : Node) (B O : Json)
    (extensionPath : String)
    (hB : isContainer B = true)
    (hcopy : J.parse (J.stringify B) = some B)
    (hnorm : repairConfig fs extensionPath B = .ok B)
    (hOdefs : definitionsRepairable O = true)
    (hBkeys : distinctKeys B "iconDefinitions" = true)
    (hOkeys : distinctKeys O "iconDefinitions" = true) :
    (∀ k v, lookupIn O "iconDefinitions" k = some v →
      ∃ v', fixIconPathValue fs extensionPath v = .ok v' ∧
        lookupIn (mergeConfigurations J fs B O extensionPath).result "iconDefinitions" k =
          some v' ∧
        ∀ f, f ≠ "iconPath" → getProp v' f = getProp v f) ∧
    (∀ k v, lookupIn B "iconDefinitions" k = some v →
      lookupIn O "iconDefinitions" k = none →
      lookupIn (mergeConfigurations J fs B O extensionPath).result "iconDefinitions" k =
        some v) := by
  by_cases hO : O = .null
  · subst hO
    rw [mergeConfigurations_of_null]
    exact ⟨fun k v h => by simp [lookupIn_null] at h, fun k v h _ => h⟩
  · have hBfix := fixed_of_normalized fs extensionPath B hnorm
    have hall : ∀ kv ∈ spreadEntries (propOpt B "iconDefinitions")
        (propOpt O "iconDefinitions"), ∃ v', fixIconPathValue fs extensionPath kv.2 = .ok v' := by
      intro kv hkv
      rcases mem_spreadEntries _ _ kv hkv with h | h
      · exact ⟨kv.2, hBfix kv h⟩
      · exact fixIconPathValue_of_repairable fs extensionPath kv.2
          (repairable_of_definitionsRepairable O hOdefs kv h)
    obtain ⟨hfix, hget, hok⟩ := fixIconPaths_merged_of_forall fs extensionPath B O hB hall
    rw [mergeConfigurations_eq J fs B O extensionPath hB hO hcopy hfix]
    have hR : ∀ k, lookupIn (mergedBinding (mergedBinding (mergedBinding
        (fixIconPaths fs extensionPath (mergedDefinitions B O)).1
        (overlayAfter O (fixIconPaths fs extensionPath (mergedDefinitions B O)).1) "fileExtensions")
        (overlayAfter O (fixIconPaths fs extensionPath (mergedDefinitions B O)).1) "fileNames")
        (overlayAfter O (fixIconPaths fs extensionPath (mergedDefinitions B O)).1) "languageIds")
        "iconDefinitions" k =
        assocGet (forEntries (fun _ v => fixIconPathValue fs extensionPath v)
          (spreadEntries (propOpt B "iconDefinitions") (propOpt O "iconDefinitions"))).1 k := by
      intro k
      rw [lookupIn_congr _ _ "iconDefinitions" k
        ((getProp_mergedBinding_ne _ _ "languageIds" _ (by decide)).trans
          ((getProp_mergedBinding_ne _ _ "fileNames" _ (by decide)).trans
            (getProp_mergedBinding_ne _ _ "fileExtensions" _ (by decide))))]
      simp [lookupIn, hget, ownEntries]
    have hmerged := fun k => assocGet_spreadEntries (propOpt B "iconDefinitions")
      (propOpt O "iconDefinitions") k (distinctKeys_eq _ _ hBkeys) (distinctKeys_eq _ _ hOkeys)
    constructor
    · intro k v hk
      rw [lookupIn_eq] at hk
      have hm : assocGet (spreadEntries (propOpt B "iconDefinitions")
          (propOpt O "iconDefinitions")) k = some v := by rw [hmerged k, hk]
      obtain ⟨v', hb, hg⟩ := forEntries_get _ _ hok k v hm
      exact ⟨v', hb, by rw [hR k, hg],
        fun f hf => getProp_fixIconPathValue_ne fs extensionPath v v' hb f hf⟩
    · intro k v hk hnone
      rw [lookupIn_eq] at hk hnone
      have hm : assocGet (spreadEntries (propOpt B "iconDefinitions")
          (propOpt O "iconDefinitions")) k = some v := by rw [hmerged k, hnone, hk]
      obtain ⟨v', hb, hg⟩ := forEntries_get _ _ hok k v hm
      have hv := hBfix (k, v) (mem_of_assocGet _ k v hk)
      simp only at hb hv
      rw [hv] at hb
      cases hb
      rw [hR k, hg]

/-! ## What `mergeConfigurations` does to its arguments -/

theorem mergeConfigurations_outcome (J : JsRuntime) (fs : Node) (B O : Json) (ext : String) :
    (mergeConfigurations J fs B O ext).baseConfig = B ∧
    ((mergeConfigurations J fs B O ext).frameworkConfig = O ∨
      ∃ result own fw result1, getProp result "iconDefinitions" = .ok own ∧
        getProp O "iconDefinitions" = .ok fw ∧
        setProp result "iconDefinitions" (spread2 own fw) = .ok result1 ∧
        (mergeConfigurations J fs B O ext).frameworkConfig =
          overlayAfter O (fixIconPaths fs ext result1).1) := by
  cases hp : J.parse (J.stringify B) with
  | none => simp [mergeConfigurations, hp]
  | some result =>
    cases hg : getProp result "iconDefinitions" with
    | error e => simp [mergeConfigurations, hp, hg]
    | ok own =>
      cases hf : getProp O "iconDefinitions" with
      | error e => simp [mergeConfigurations, hp, hg, hf]
      | ok fw =>
        cases hs : setProp result "iconDefinitions" (spread2 own fw) with
        | error e => simp [mergeConfigurations, hp, hg, hf, hs]
        | ok result1 =>
          have hbase : (mergeConfigurations J fs B O ext).baseConfig = B := by
            simp only [mergeConfigurations, hp, hg, hf, hs]
            split
            · rfl
            · split
              · rfl
              · split
                · rfl
                · split <;> rfl
          have hfw : (mergeConfigurations J fs B O ext).frameworkConfig =
              overlayAfter O (fixIconPaths fs ext result1).1 := by
            simp only [mergeConfigurations, hp, hg, hf, hs]
            split
            · rfl
            · split
              · rfl
              · split
                · rfl
                · split <;> rfl
          exact ⟨hbase, Or.inr ⟨result, own, fw, result1, hg, rfl, hs, hfw⟩⟩

theorem assocGet_map_values (l : List (String × Json)) (g : String → Json → Json) (k : String) :
    assocGet (l.map (fun kv => (kv.1, g kv.1 kv.2))) k = (assocGet l k).map (g k) := by
  induction l with
  | nil => rfl
  | cons hd tl ih =>
    obtain ⟨k1, v1⟩ := hd
    by_cases h1 : k1 = k
    · subst h1; simp [assocGet]
    · simp [assocGet, h1, ih]

theorem forEntries_get_any (body : String → Json → Except JsError Json)
    (es : List (String × Json)) (k : String) (v : Json) (hk : assocGet es k = some v) :
    ∃ v', assocGet (forEntries body es).1 k = some v' ∧ (v' = v ∨ body k v = .ok v') := by
  induction es with
  | nil => simp [assocGet] at hk
  | cons hd tl ih =>
    obtain ⟨k1, v1⟩ := hd
    cases hb : body k1 v1 with
    | error e => exact ⟨v, by simp [forEntries, hb, hk], Or.inl rfl⟩
    | ok w =>
      by_cases h1 : k1 = k
      · subst h1
        simp [assocGet] at hk
        subst hk
        exact ⟨w, by simp [forEntries, hb, assocGet], Or.inr hb⟩
      · simp [assocGet, h1] at hk
        obtain ⟨v', h1', h2'⟩ := ih hk
        exact ⟨v', by simp [forEntries, hb, assocGet, h1, h1'], h2'⟩

/-- C5, as amended.  `mergeConfigurations` leaves the base equal to its value before the call;
of the overlay it leaves every property other than `iconDefinitions` as it was and keeps the
keys of `iconDefinitions`, but the definitions under these keys are the objects it has put into
the merged result, so each of them ends either as it was or as the loop body of `fixIconPaths`
has rewritten it: only its `iconPath` can differ. -/
theorem mergeConfigurations_inputs (J : JsRuntime) (fs : Node) (B O : Json)
    (extensionPath : String) (ops : List (String × Json))
    (hdefs : getProp O "iconDefinitions" = .ok (some (.obj ops)))
    (hnd : (ops.map Prod.fst).Nodup) :
    (mergeConfigurations J fs B O extensionPath).baseConfig = B ∧
    (∀ f, f ≠ "iconDefinitions" →
      getProp (mergeConfigurations J fs B O extensionPath).frameworkConfig f = getProp O f) ∧
    ∃ ops', getProp (mergeConfigurations J fs B O extensionPath).frameworkConfig
        "iconDefinitions" = .ok (some (.obj ops')) ∧
      ops'.map Prod.fst = ops.map Prod.fst ∧
      ∀ k v, assocGet ops k = some v →
        ∃ v', assocGet ops' k = some v' ∧
          (v' = v ∨ fixIconPathValue fs extensionPath v = .ok v') ∧
          ∀ f, f ≠ "iconPath" → getProp v' f = getProp v f := by
  obtain ⟨hbase, hfc⟩ := mergeConfigurations_outcome J fs B O extensionPath
  refine ⟨hbase, ?_⟩
  rcases hfc with hfc | ⟨result, own, fw, result1, hg, hf, hs, hfc⟩
  · rw [hfc]
    exact ⟨fun _ _ => rfl, ops, hdefs, rfl, fun k v hk => ⟨v, hk, Or.inl rfl, fun _ _ => rfl⟩⟩
  · rw [hfc]
    rw [hdefs] at hf
    cases hf
    have hcon : isContainer result = true := by
      cases result <;> simp [setProp] at hs <;> rfl
    have hr1 : result1 = replaceProp result "iconDefinitions"
        (spread2 own (some (.obj ops))) := by
      rw [setProp_of_container _ _ _ hcon] at hs
      cases hs; rfl
    have hget1 : getProp result1 "iconDefinitions" =
        .ok (some (.obj (spreadEntries own (some (.obj ops))))) := by
      rw [hr1]; exact getProp_replaceProp_container _ _ _ hcon
    have hgetM : getProp (fixIconPaths fs extensionPath result1).1 "iconDefinitions" =
        .ok (some (.obj (forEntries (fun _ v => fixIconPathValue fs extensionPath v)
          (spreadEntries own (some (.obj ops)))).1)) := by
      simp only [fixIconPaths, forIconDefinitions, hget1, truthy, ownEntries, withValues]
      simpa using getProp_replaceProp_same result1 "iconDefinitions" _ _ hget1
    have hover : overlayAfter O (fixIconPaths fs extensionPath result1).1 =
        replaceProp O "iconDefinitions" (.obj (ops.map (fun kv => (kv.1,
          ((assocGet (forEntries (fun _ v => fixIconPathValue fs extensionPath v)
            (spreadEntries own (some (.obj ops)))).1 kv.1).getD kv.2))))) := by
      simp [overlayAfter, hdefs, hgetM, shareBack, withValues, ownEntries]
    rw [hover]
    refine ⟨fun f hf => getProp_replaceProp_ne _ _ _ _ (fun e => hf e.symm), _,
      getProp_replaceProp_same O _ _ _ hdefs, by simp [List.map_map, Function.comp_def], ?_⟩
    intro k v hk
    have hm : assocGet (spreadEntries own (some (.obj ops))) k = some v := by
      unfold spreadEntries
      rw [spreadInto_eq _ (some (.obj ops))]
      simp only [entriesOpt, ownEntries]
      rw [assocGet_foldl_assocSet _ _ _ hnd, hk]
    obtain ⟨v', hv', hrel⟩ := forEntries_get_any
      (fun _ v => fixIconPathValue fs extensionPath v) _ k v hm
    refine ⟨v', ?_, hrel, ?_⟩
    · rw [assocGet_map_values ops (fun k v =>
        (assocGet (forEntries (fun _ v => fixIconPathValue fs extensionPath v)
          (spreadEntries own (some (.obj ops)))).1 k).getD v) k, hk]
      simp [hv']
    · intro f hf
      rcases hrel with h | h
      · rw [h]
      · exact getProp_fixIconPathValue_ne fs extensionPath v v' h f hf

/-! ## `path.join` and the `./` spelling -/

theorem splitSlash_ne_nil (cs : List Char) : splitSlash cs ≠ [] := by
  cases cs with
  | nil => simp [splitSlash]
  | cons c cs =>
    unfold splitSlash
    split
    · simp
    · split <;> simp

theorem splitSlash_append_slash (a b : List Char) :
    splitSlash (a ++ '/' :: b) = splitSlash a ++ splitSlash b := by
  induction a with
  | nil => simp [splitSlash]
  | cons c a ih =>
    by_cases hc : c = '/'
    · subst hc
      simp [splitSlash, ih]
    · have h1 : splitSlash (c :: a ++ '/' :: b) =
          match splitSlash (a ++ '/' :: b) with
          | [] => [[c]]
          | seg :: rest => (c :: seg) :: rest := by
        simp [splitSlash, hc]
      have h2 : splitSlash (c :: a) =
          match splitSlash a with
          | [] => [[c]]
          | seg :: rest => (c :: seg) :: rest := by
        simp [splitSlash, hc]
      rw [h1, h2, ih]
      cases hs : splitSlash a with
      | nil => exact absurd hs (splitSlash_ne_nil a)
      | cons seg rest => simp

theorem normSegs_dot (allowAbove : Bool) (xs ys : List (List Char)) :
    normSegs allowAbove (xs ++ ['.'] :: ys) = normSegs allowAbove (xs ++ ys) := by
  simp [normSegs, List.foldl_append, normStep]

theorem append_data (a b : String) : (a ++ b).data = a.data ++ b.data := rfl

theorem joinRaw_pair (ext x : String) (hext : ext ≠ "") (hx : x ≠ "") :
    joinRaw [ext, x] = some (ext ++ "/" ++ x) := by
  simp [joinRaw, hext, hx]

theorem data_ne_nil (s : String) (h : s ≠ "") : s.data ≠ [] := by
  intro hd
  apply h
  apply String.ext
  simpa using hd

/-- Joining `./w` to a directory gives the same path as joining `w`. -/
theorem pathJoin_dotSlash (ext w : String) (hext : ext ≠ "") (hw : w ≠ "") :
    pathJoin [ext, "./" ++ w] = pathJoin [ext, w] := by
  have hdw : "./" ++ w ≠ "" := dotSlash_ne_empty w
  simp only [pathJoin, joinRaw_pair ext _ hext hdw, joinRaw_pair ext _ hext hw]
  have hd1 : (ext ++ "/" ++ ("./" ++ w)).data = ext.data ++ '/' :: ('.' :: '/' :: w.data) := by
    simp [append_data, dotSlash_data]
  have hd2 : (ext ++ "/" ++ w).data = ext.data ++ '/' :: w.data := by
    simp [append_data]
  have he := data_ne_nil ext hext
  have hwd := data_ne_nil w hw
  have hne1 : ext ++ "/" ++ ("./" ++ w) ≠ "" := by
    intro h
    have := congrArg String.data h
    rw [hd1] at this
    simp at this
  have hne2 : ext ++ "/" ++ w ≠ "" := by
    intro h
    have := congrArg String.data h
    rw [hd2] at this
    simp at this
  have habs : isAbsolute (ext ++ "/" ++ ("./" ++ w)) = isAbsolute (ext ++ "/" ++ w) := by
    simp only [isAbsolute, hd1, hd2]
    cases hx : ext.data with
    | nil => exact absurd hx he
    | cons c cs => simp
  have hlast : (ext ++ "/" ++ ("./" ++ w)).data.getLast? = (ext ++ "/" ++ w).data.getLast? := by
    rw [hd1, hd2]
    have e1 : ext.data ++ '/' :: ('.' :: '/' :: w.data) =
        (ext.data ++ ['/', '.', '/']) ++ w.data := by simp
    have e2 : ext.data ++ '/' :: w.data = (ext.data ++ ['/']) ++ w.data := by simp
    rw [e1, e2, List.getLast?_append_of_ne_nil _ hwd, List.getLast?_append_of_ne_nil _ hwd]
  have hsegs : ∀ b, normSegs b (splitSlash (ext ++ "/" ++ ("./" ++ w)).data) =
      normSegs b (splitSlash (ext ++ "/" ++ w).data) := by
    intro b
    rw [hd1, hd2, splitSlash_append_slash, splitSlash_append_slash]
    have : splitSlash ('.' :: '/' :: w.data) = ['.'] :: splitSlash w.data := by
      have := splitSlash_append_slash ['.'] w.data
      simp [splitSlash] at this ⊢
    rw [this, normSegs_dot]
  simp only [normalize, hne1, hne2, if_false, habs, hlast, hsegs]

/-- When the declared location of a relative path does not exist, neither does the candidate
that `fixIconPaths` derives from it, unless the candidate is the empty string. -/
theorem correctedPath_of_missing (fs : Node) (ext p : String) (hext : ext ≠ "") (hp : p ≠ "")
    (hmissing : existsSync fs (fullPath ext p) = false) :
    correctedPath fs ext p = none ∨ correctedPath fs ext p = some "" := by
  by_cases habs : isAbsolute p = true
  · exact Or.inl (correctedPath_of_absolute fs ext p habs)
  · have habs' : isAbsolute p = false := by simpa using habs
    rw [fullPath_of_not_absolute _ _ habs'] at hmissing
    by_cases hsw : jsStartsWith p "./" = true
    · rw [correctedPath_of_startsWith fs ext p hsw]
      by_cases hw : String.mk (p.data.drop 2) = ""
      · rw [hw]
        split
        · exact Or.inr rfl
        · exact Or.inl rfl
      · have hpe := eq_dotSlash_of_startsWith p hsw
        rw [hpe, pathJoin_dotSlash ext _ hext hw] at hmissing
        simp [hmissing]
    · have hsw' : jsStartsWith p "./" = false := by simpa using hsw
      rw [correctedPath_of_relative fs ext p hsw' habs', pathJoin_dotSlash ext p hext hp]
      simp [hmissing]

theorem fixedIconPath_of_missing (fs : Node) (ext p : String) (hext : ext ≠ "") (hp : p ≠ "")
    (hmissing : existsSync fs (fullPath ext p) = false) :
    fixedIconPath fs ext p = ensureDotted p := by
  rcases correctedPath_of_missing fs ext p hext hp hmissing with h | h <;>
    simp [fixedIconPath, hmissing, h]

/-- C10, as amended.  An asset path that is missing at its declared location, and for which the
search under the extension root finds nothing, is retained by `fixIconPaths` as it is when it
is absolute or starts with a dot; a relative path that does not start with a dot (such as
`icons/missing.svg`) gets `./` in front.  No other field of the definition changes, and the
search callback makes no later assignment. -/
theorem fixIconPaths_unresolvable (J : JsRuntime) (fs : Node) (extensionPath : String)
    (value : Json)
    (p : String) (hext : extensionPath ≠ "")
    (hp : getProp value "iconPath" = .ok (some (.str p))) (hne : p ≠ "")
    (hmissing : existsSync fs (fullPath extensionPath p) = false)
    (hsearch : findFileInDir J fs extensionPath (basename p) = .ok none) :
    ∃ value', fixIconPathValue fs extensionPath value = .ok value' ∧
      getProp value' "iconPath" =
        .ok (some (.str (if isAbsolute p || jsStartsWith p "." then p else "./" ++ p))) ∧
      (∀ f, f ≠ "iconPath" → getProp value' f = getProp value f) ∧
      deferredIconPath J fs extensionPath value = none := by
  have hfix := fixedIconPath_of_missing fs extensionPath p hext hne hmissing
  have hed : ensureDotted p = if isAbsolute p || jsStartsWith p "." then p else "./" ++ p := by
    unfold ensureDotted
    cases isAbsolute p <;> cases jsStartsWith p "." <;> simp
  have hcon : isContainer value = true := by
    cases value <;> simp [getProp] at hp <;> rfl
  have htruthy : truthy (.str p) = true := by simp [truthy, hne]
  have hdef : deferredIconPath J fs extensionPath value = none := by
    simp only [deferredIconPath, hp, hsearch]
    split <;> rfl
  by_cases hsame : ensureDotted p = p
  · refine ⟨value, ?_, ?_, fun _ _ => rfl, hdef⟩
    · simp [fixIconPathValue, hp, htruthy, hfix, hsame]
    · rw [← hed, hsame]; exact hp
  · refine ⟨replaceProp value "iconPath" (.str (ensureDotted p)), ?_, ?_, ?_, hdef⟩
    · simp [fixIconPathValue, hp, htruthy, hfix, hsame, setProp_of_container value _ _ hcon]
    · rw [← hed]; exact getProp_replaceProp_container value _ _ hcon
    · intro f hf
      exact getProp_replaceProp_ne _ _ _ _ (fun e => hf e.symm)

/-! ## File system: reading back what was written -/

theorem Node.get_put_same (n : Node) (segs : List String) (x n' : Node)
    (h : n.put segs x = some n') : n'.get segs = some x := by
  induction segs generalizing n n' with
  | nil => cases n <;> simp [Node.put] at h
  | cons s rest ih =>
    cases n with
    | file c => simp [Node.put] at h
    | dir es =>
      cases rest with
      | nil =>
        simp [Node.put] at h
        subst h
        simp [Node.get, assocGet_assocSet_same]
      | cons t rest' =>
        simp only [Node.put] at h
        cases hc : assocGet es s with
        | none => simp [hc] at h
        | some c =>
          simp only [hc, Option.map_eq_some'] at h
          obtain ⟨c', hput, hn'⟩ := h
          subst hn'
          simp [Node.get, assocGet_assocSet_same, ih c c' hput]

theorem assocGet_assocErase_same {β : Type} (l : List (String × β)) (k : String) :
    assocGet (assocErase l k) k = none := by
  induction l with
  | nil => rfl
  | cons hd tl ih =>
    obtain ⟨k1, v1⟩ := hd
    by_cases h1 : k1 = k
    · simp only [assocErase, List.filter, h1, ne_eq, not_true_eq_false, decide_False] at ih ⊢
      exact ih
    · simp only [assocErase, List.filter, ne_eq, h1, not_false_eq_true, decide_True, assocGet,
        if_false] at ih ⊢
      exact ih

theorem Node.get_remove_same (n : Node) (segs : List String) (n' : Node)
    (h : n.remove segs = some n') : n'.get segs = none := by
  induction segs generalizing n n' with
  | nil => cases n <;> simp [Node.remove] at h
  | cons s rest ih =>
    cases n with
    | file c => simp [Node.remove] at h
    | dir es =>
      cases rest with
      | nil =>
        simp [Node.remove] at h
        subst h
        simp [Node.get, assocGet_assocErase_same]
      | cons t rest' =>
        simp only [Node.remove] at h
        cases hc : assocGet es s with
        | none => simp [hc] at h
        | some c =>
          simp only [hc, Option.map_eq_some'] at h
          obtain ⟨c', hrem, hn'⟩ := h
          subst hn'
          simp [Node.get, assocGet_assocSet_same, ih c c' hrem]

theorem Node.remove_isSome (n : Node) (segs : List String) (x : Node) (hne : segs ≠ [])
    (h : n.get segs = some x) : ∃ n', n.remove segs = some n' := by
  induction segs generalizing n with
  | nil => exact absurd rfl hne
  | cons s rest ih =>
    cases n with
    | file c => simp [Node.get] at h
    | dir es =>
      cases rest with
      | nil => exact ⟨_, rfl⟩
      | cons t rest' =>
        simp only [Node.get] at h
        cases hc : assocGet es s with
        | none => simp [hc] at h
        | some c =>
          simp only [hc] at h
          obtain ⟨c', hc'⟩ := ih c (by simp) h
          exact ⟨Node.dir (assocSet es s c'), by simp [Node.remove, hc, hc']⟩

/-- A file that has been written reads back with the content written. -/
theorem readFileSync_writeFileSync (fs fs' : Node) (p c : String)
    (h : writeFileSync fs p c = .ok fs') : readFileSync fs' p = .ok c := by
  unfold writeFileSync at h
  split at h
  · cases h
  · rename_i hcond
    simp only [not_or] at hcond
    have hput : fs.put (pathSegs p) (.file c) = some fs' := by
      split at h
      · cases h
      · split at h
        · rename_i heq; cases h; exact heq
        · cases h
    have hget := Node.get_put_same fs _ _ _ hput
    have hes : endsWithSlash p = false := by simpa using hcond.2
    simp [readFileSync, stat, hcond.1, hget, hes]

theorem existsSync_of_readFileSync (fs : Node) (p c : String)
    (h : readFileSync fs p = .ok c) : existsSync fs p = true := by
  unfold readFileSync at h
  unfold existsSync
  cases hs : stat fs p with
  | none => simp [hs] at h
  | some n => rfl

theorem copyFileSync_eq (fs : Node) (src dst c : String) (h : readFileSync fs src = .ok c) :
    copyFileSync fs src dst = writeFileSync fs dst c := by
  simp [copyFileSync, h]

theorem put_of_writeFileSync (fs fs' : Node) (p c : String)
    (h : writeFileSync fs p c = .ok fs') : fs.put (pathSegs p) (.file c) = some fs' := by
  unfold writeFileSync at h
  split at h
  · cases h
  · split at h
    · cases h
    · split at h
      · rename_i heq; cases h; exact heq
      · cases h

theorem pathSegs_ne_nil_of_write (fs fs' : Node) (p c : String)
    (h : writeFileSync fs p c = .ok fs') : pathSegs p ≠ [] := by
  intro hnil
  have := put_of_writeFileSync fs fs' p c h
  rw [hnil] at this
  cases fs <;> simp [Node.put] at this

/-- A regular file below the root can be unlinked, and is gone afterwards. -/
theorem unlinkSync_of_file (fs : Node) (p c : String) (hne : pathSegs p ≠ [])
    (h : readFileSync fs p = .ok c) :
    ∃ fs', unlinkSync fs p = .ok fs' ∧ fs'.get (pathSegs p) = none ∧
      existsSync fs' p = false := by
  unfold readFileSync at h
  cases hs : stat fs p with
  | none => simp [hs] at h
  | some n =>
    cases n with
    | dir es => simp [hs] at h
    | file c0 =>
      have hstat := hs
      unfold stat at hs
      split at hs
      · cases hs
      · cases hg : fs.get (pathSegs p) with
        | none => simp [hg] at hs
        | some n0 =>
          obtain ⟨fs', hrem⟩ := Node.remove_isSome fs _ n0 hne hg
          have := Node.get_remove_same fs _ fs' hrem
          exact ⟨fs', by simp [unlinkSync, hstat, hrem], this, by simp [existsSync, stat, this]⟩

/-! ## File system: paths that a write does not touch -/

theorem Node.get_file_cons (c : String) (s : String) (rest : List String) :
    (Node.file c).get (s :: rest) = none := rfl

theorem Node.get_put_none (n n' : Node) (p q : List String) (c : String)
    (hput : n.put p (.file c) = some n') (hq : n.get q = none) (hne : q ≠ p) :
    n'.get q = none := by
  induction p generalizing n n' q with
  | nil => cases n <;> simp [Node.put] at hput
  | cons s rest ih =>
    cases n with
    | file c0 => simp [Node.put] at hput
    | dir es =>
      cases q with
      | nil => simp [Node.get] at hq
      | cons s' q' =>
        cases rest with
        | nil =>
          simp [Node.put] at hput
          subst hput
          by_cases hs : s = s'
          · subst hs
            cases q' with
            | nil => exact absurd rfl hne
            | cons t q'' => simp [Node.get, assocGet_assocSet_same]
          · simp only [Node.get, assocGet_assocSet_ne _ _ _ _ hs]
            simpa [Node.get] using hq
        | cons t rest' =>
          simp only [Node.put] at hput
          cases hc : assocGet es s with
          | none => simp [hc] at hput
          | some c0 =>
            simp only [hc, Option.map_eq_some'] at hput
            obtain ⟨c', hput', hn'⟩ := hput
            subst hn'
            by_cases hs : s = s'
            · subst hs
              simp only [Node.get, hc] at hq
              simp only [Node.get, assocGet_assocSet_same]
              exact ih c0 c' q' hput' hq (fun e => hne (by rw [e]))
            · simp only [Node.get, assocGet_assocSet_ne _ _ _ _ hs]
              simpa [Node.get] using hq

/-- Splitting a text extended by a suffix without `/`: only the last segment grows. -/
theorem splitSlash_append_suffix (a b : List Char) (hb : '/' ∉ b) :
    ∃ init last, splitSlash a = init ++ [last] ∧ splitSlash (a ++ b) = init ++ [last ++ b] := by
  induction a with
  | nil =>
    refine ⟨[], [], rfl, ?_⟩
    induction b with
    | nil => rfl
    | cons c b ihb =>
      have hc : c ≠ '/' := fun e => hb (by simp [e])
      have hb' : '/' ∉ b := fun h => hb (by simp [h])
      have := ihb hb'
      simp only [List.nil_append] at this ⊢
      simp [splitSlash, hc, this]
  | cons c a ih =>
    obtain ⟨init, last, h1, h2⟩ := ih
    by_cases hc : c = '/'
    · subst hc
      exact ⟨[] :: init, last, by simp [splitSlash, h1], by simp [splitSlash, h2]⟩
    · cases init with
      | nil =>
        refine ⟨[], c :: last, ?_, ?_⟩
        · simp only [List.nil_append] at h1
          simp [splitSlash, hc, h1]
        · simp only [List.nil_append] at h2
          simp [splitSlash, hc, h2]
      | cons seg init' =>
        refine ⟨(c :: seg) :: init', last, ?_, ?_⟩
        · simp only [List.cons_append] at h1
          simp [splitSlash, hc, h1]
        · simp only [List.cons_append] at h2
          simp [splitSlash, hc, h2]

theorem normStep_length_le (st : List (List Char)) (seg : List Char) :
    (normStep false st seg).length ≤ st.length ∨ normStep false st seg = seg :: st := by
  unfold normStep
  split
  · exact Or.inl (le_refl _)
  · split
    · left
      cases st with
      | nil => simp
      | cons top rest =>
        simp only []
        split <;> simp
    · exact Or.inr rfl

/-- A path extended by a suffix of at least three characters without `/` names another entry. -/
theorem pathSegs_append_ne (p sfx : String) (hs : '/' ∉ sfx.data) (hlen : 3 ≤ sfx.data.length) :
    pathSegs (p ++ sfx) ≠ pathSegs p := by
  obtain ⟨init, last, h1, h2⟩ := splitSlash_append_suffix p.data sfx.data hs
  have hne1 : last ++ sfx.data ≠ [] := by
    intro h
    have := congrArg List.length h
    simp only [List.length_append, List.length_nil, List.length_cons] at this
    omega
  have hne2 : last ++ sfx.data ≠ ['.'] := by
    intro h
    have := congrArg List.length h
    simp only [List.length_append, List.length_nil, List.length_cons] at this
    omega
  have hne3 : last ++ sfx.data ≠ ['.', '.'] := by
    intro h
    have := congrArg List.length h
    simp only [List.length_append, List.length_nil, List.length_cons] at this
    omega
  have hstep : normStep false (init.foldl (normStep false) []) (last ++ sfx.data) =
      (last ++ sfx.data) :: init.foldl (normStep false) [] := by
    simp [normStep, hne1, hne2, hne3]
  intro heq
  unfold pathSegs at heq
  have hinj : Function.Injective String.mk := fun a b h => by cases h; rfl
  have heq' := List.map_injective_iff.mpr hinj heq
  rw [append_data, h1, h2] at heq'
  simp only [normSegs, List.foldl_append, List.foldl_cons, List.foldl_nil, hstep,
    List.reverse_inj] at heq'
  rcases normStep_length_le (init.foldl (normStep false) []) last with h | h
  · have := congrArg List.length heq'
    simp only [List.length_cons] at this
    omega
  · rw [h] at heq'
    have hh := (List.cons.inj heq').1
    have := congrArg List.length hh
    simp only [List.length_append] at this
    omega

theorem tempFilePath_ne (S : Session) : pathSegs S.tempFilePath ≠ pathSegs S.iconFilePath :=
  pathSegs_append_ne S.iconFilePath ".temp" (by decide) (by decide)

theorem backupIconPath_ne (S : Session) :
    pathSegs S.backupIconPath ≠ pathSegs S.iconFilePath :=
  pathSegs_append_ne S.iconFilePath ".backup" (by decide) (by decide)

/-- A path that names nothing still names nothing after another path has been written. -/
theorem existsSync_writeFileSync_other (fs fs' : Node) (p q c : String)
    (hw : writeFileSync fs p c = .ok fs') (hq : fs.get (pathSegs q) = none)
    (hne : pathSegs q ≠ pathSegs p) : existsSync fs' q = false := by
  have hput := put_of_writeFileSync fs fs' p c hw
  have := Node.get_put_none fs fs' _ _ c hput hq hne
  unfold existsSync stat
  split
  · rfl
  · simp [this]

/-! ## Recovery and commit -/

theorem verifyIconConfiguration_eq (S : Session) (fs : Node) :
    verifyIconConfiguration S fs =
      if liveAccepted S fs then fs else (restoreFromBackup S fs).2 := by
  unfold verifyIconConfiguration liveAccepted
  by_cases he : existsSync fs S.iconFilePath = true
  · cases hr : readJson S.runtime fs S.iconFilePath with
    | error e => simp [he]
    | ok cfg =>
      by_cases hc : structureComplete cfg = true
      · simp [he, hc]
      · simp [he, hc]
  · simp [he]

theorem restoreFromBackup_of_backup (S : Session) (fs fs1 : Node) (c : String)
    (hbackup : readFileSync fs S.backupIconPath = .ok c)
    (hwrite : writeFileSync fs S.iconFilePath c = .ok fs1) :
    restoreFromBackup S fs = (true, fs1) := by
  unfold restoreFromBackup
  rw [existsSync_of_readFileSync fs _ c hbackup, copyFileSync_eq fs _ _ c hbackup, hwrite]
  rfl

/-- C1, as amended.  Recovery from the backup: when `<live>.backup` is a readable file and the
live slot can be written, `verifyIconConfiguration` leaves a live slot that passes its check
(it exists, parses, and the parsed value is a non-null object with truthy `iconDefinitions`,
`file` and `folder`) untouched, and replaces every other live slot (absent, unreadable, not
parseable, or failing the check) by a copy of the backup: afterwards the live slot holds
exactly the backup's content, so it parses as a JSON object whose three roles name defined
icons if and only if the backup's content does. -/
theorem verifyIconConfiguration_restores (S : Session) (fs fs1 : Node) (c : String)
    (hbackup : readFileSync fs S.backupIconPath = .ok c)
    (hwrite : writeFileSync fs S.iconFilePath c = .ok fs1) :
    (liveAccepted S fs = true → verifyIconConfiguration S fs = fs) ∧
    (liveAccepted S fs = false →
      verifyIconConfiguration S fs = fs1 ∧
      readFileSync (verifyIconConfiguration S fs) S.iconFilePath = .ok c ∧
      (liveSlotValid S (verifyIconConfiguration S fs) ↔
        ∃ v, S.runtime.parse c = some v ∧ isObject v = true ∧ rolesDefined v = true)) := by
  constructor
  · intro h
    rw [verifyIconConfiguration_eq, h]; rfl
  · intro h
    have hv : verifyIconConfiguration S fs = fs1 := by
      rw [verifyIconConfiguration_eq, h, restoreFromBackup_of_backup S fs fs1 c hbackup hwrite]
      rfl
    have hread := readFileSync_writeFileSync fs fs1 _ c hwrite
    rw [hv]
    refine ⟨rfl, hread, ?_⟩
    constructor
    · rintro ⟨text, v, h1, h2, h3, h4⟩
      rw [hread] at h1
      cases h1
      exact ⟨v, h2, h3, h4⟩
    · rintro ⟨v, h2, h3, h4⟩
      exact ⟨c, v, hread, h2, h3, h4⟩

theorem stageIconConfig_written (S : Session) (fs fs4 : Node) (config : Json)
    (h : stageIconConfig S fs config = .ok fs4) :
    ∃ fs3, writeFileSync fs3 S.tempFilePath (S.runtime.stringifyIndented config) = .ok fs4 := by
  unfold stageIconConfig at h
  simp only [] at h
  split at h
  · cases h
  · rename_i fs3 _
    split at h
    · cases h
    · rename_i fs4' hw
      cases h
      exact ⟨fs3, hw⟩



/-! ## Worked examples -/

/-- C1, counterexample.  The live slot is absent and the backup is not JSON: after
`verifyIconConfiguration` the live slot is a copy of the corrupted backup, which does not
parse, so the live slot is not valid. -/
theorem verifyIconConfiguration_corrupt_backup :
    existsSync corruptBackupFs sampleSession.iconFilePath = false ∧
    readFileSync corruptBackupFs sampleSession.backupIconPath = .ok "<<<<<<< not json" ∧
    readFileSync (verifyIconConfiguration sampleSession corruptBackupFs)
      sampleSession.iconFilePath = .ok "<<<<<<< not json" ∧
    ¬ liveSlotValid sampleSession (verifyIconConfiguration sampleSession corruptBackupFs) := by
  have hread : readFileSync (verifyIconConfiguration sampleSession corruptBackupFs)
      sampleSession.iconFilePath = .ok "<<<<<<< not json" := by decide!
  refine ⟨by decide!, by decide!, hread, ?_⟩
  rintro ⟨text, v, h1, h2, _⟩
  rw [hread] at h1
  cases h1
  have hparse : sampleSession.runtime.parse "<<<<<<< not json" = none := by decide!
  rw [hparse] at h2
  cases h2

/-- C1, witness.  The live slot is absent and the backup holds a valid document: the live slot
becomes a copy of it and is valid. -/
theorem verifyIconConfiguration_restores_witness :
    readFileSync validBackupFs sampleSession.backupIconPath = .ok (renderIndented sampleBase) ∧
    writeFileSync validBackupFs sampleSession.iconFilePath (renderIndented sampleBase) =
      .ok restoredFs ∧
    liveAccepted sampleSession validBackupFs = false ∧
    verifyIconConfiguration sampleSession validBackupFs = restoredFs ∧
    liveSlotValid sampleSession (verifyIconConfiguration sampleSession validBackupFs) := by
  have h1 : readFileSync validBackupFs sampleSession.backupIconPath =
      .ok (renderIndented sampleBase) := by decide!
  have h2 : writeFileSync validBackupFs sampleSession.iconFilePath (renderIndented sampleBase) =
      .ok restoredFs := by decide!
  have h3 : liveAccepted sampleSession validBackupFs = false := by decide!
  have h := (verifyIconConfiguration_restores sampleSession validBackupFs restoredFs
    (renderIndented sampleBase) h1 h2).2 h3
  exact ⟨h1, h2, h3, h.1, h.2.2.mpr ⟨sampleBase, by decide!, by decide!, by decide!⟩⟩

/-- C3, counterexample.  A generated document whose `folder` and `folderExpanded` roles and
whose `js` binding name undefined icon keys passes the check and is committed: the commit
reports success and the live slot, absent before, holds that document. -/
theorem updateIconsForFramework_commits_dangling :
    existsSync danglingFs danglingSession.iconFilePath = false ∧
    (updateIconsForFramework danglingSession ⟨false, false⟩ danglingFs "Vue").1 = true ∧
    readFileSync (updateIconsForFramework danglingSession ⟨false, false⟩ danglingFs "Vue").2
      danglingSession.iconFilePath = .ok (renderIndented danglingBase) ∧
    danglingSession.runtime.parse (renderIndented danglingBase) = some danglingBase ∧
    rolesDefined danglingBase = false ∧
    bindingsDefined danglingBase "fileExtensions" = false ∧
    invariantI1 danglingBase = false := by
  decide!

/-- C4, counterexample.  The overlay supplies `js` with the path `icons/frameworks/next-js.svg`;
in the merged result the `js` definition has the path `./icons/frameworks/next-js.svg`, which
is not the overlay's value. -/
theorem mergeConfigurations_rewrites_overlay_path :
    repairConfig sampleFs "/ext" sampleBase = .ok sampleBase ∧
    lookupIn sampleOverlay "iconDefinitions" "js" =
      some (.obj [("iconPath", .str "icons/frameworks/next-js.svg")]) ∧
    lookupIn (mergeConfigurations sampleRuntime sampleFs sampleBase sampleOverlay "/ext").result
      "iconDefinitions" "js" =
      some (.obj [("iconPath", .str "./icons/frameworks/next-js.svg")]) ∧
    lookupIn (mergeConfigurations sampleRuntime sampleFs sampleBase sampleOverlay "/ext").result
      "iconDefinitions" "js" ≠ lookupIn sampleOverlay "iconDefinitions" "js" := by
  decide!

/-- C4, witness.  In the same merge the overlay's `js` definition is present as repaired and the
base's `_file` definition is present unchanged. -/
theorem mergeConfigurations_definitions_witness :
    isContainer sampleBase = true ∧
    sampleRuntime.parse (sampleRuntime.stringify sampleBase) = some sampleBase ∧
    repairConfig sampleFs "/ext" sampleBase = .ok sampleBase ∧
    definitionsRepairable sampleOverlay = true ∧
    distinctKeys sampleBase "iconDefinitions" = true ∧
    distinctKeys sampleOverlay "iconDefinitions" = true ∧
    (∃ v', fixIconPathValue sampleFs "/ext"
        (.obj [("iconPath", .str "icons/frameworks/next-js.svg")]) = .ok v' ∧
      lookupIn (mergeConfigurations sampleRuntime sampleFs sampleBase sampleOverlay
        "/ext").result "iconDefinitions" "js" = some v' ∧
      ∀ f, f ≠ "iconPath" →
        getProp v' f = getProp (.obj [("iconPath", .str "icons/frameworks/next-js.svg")]) f) ∧
    lookupIn (mergeConfigurations sampleRuntime sampleFs sampleBase sampleOverlay "/ext").result
      "iconDefinitions" "_file" = some (.obj [("iconPath", .str "./icons/file.svg")]) := by
  have h1 : isContainer sampleBase = true := by decide
  have h2 : sampleRuntime.parse (sampleRuntime.stringify sampleBase) = some sampleBase := by
    decide!
  have h3 : repairConfig sampleFs "/ext" sampleBase = .ok sampleBase := by decide!
  have h4 : definitionsRepairable sampleOverlay = true := by decide
  have h5 : distinctKeys sampleBase "iconDefinitions" = true := by decide
  have h6 : distinctKeys sampleOverlay "iconDefinitions" = true := by decide
  have h := mergeConfigurations_definitions sampleRuntime sampleFs sampleBase sampleOverlay
    "/ext" h1 h2 h3 h4 h5 h6
  exact ⟨h1, h2, h3, h4, h5, h6, h.1 "js" _ (by decide), h.2 "_file" _ (by decide) (by decide)⟩

/-- C5, counterexample.  After the merge the overlay is no longer equal to its value before the
call: the `iconPath` of its `js` definition has been rewritten. -/
theorem mergeConfigurations_mutates_overlay :
    lookupIn sampleOverlay "iconDefinitions" "js" =
      some (.obj [("iconPath", .str "icons/frameworks/next-js.svg")]) ∧
    lookupIn (mergeConfigurations sampleRuntime sampleFs sampleBase sampleOverlay
      "/ext").frameworkConfig "iconDefinitions" "js" =
      some (.obj [("iconPath", .str "./icons/frameworks/next-js.svg")]) ∧
    (mergeConfigurations sampleRuntime sampleFs sampleBase sampleOverlay "/ext").frameworkConfig ≠
      sampleOverlay := by
  decide!

/-- C5, witness.  In the same merge the base is unchanged and the overlay keeps its `file`
property. -/
theorem mergeConfigurations_inputs_witness :
    getProp sampleOverlay "iconDefinitions" = .ok (some (.obj sampleOverlayDefs)) ∧
    (sampleOverlayDefs.map Prod.fst).Nodup ∧
    (mergeConfigurations sampleRuntime sampleFs sampleBase sampleOverlay "/ext").baseConfig =
      sampleBase ∧
    getProp (mergeConfigurations sampleRuntime sampleFs sampleBase sampleOverlay
      "/ext").frameworkConfig "file" = getProp sampleOverlay "file" := by
  have h1 : getProp sampleOverlay "iconDefinitions" = .ok (some (.obj sampleOverlayDefs)) := by
    decide
  have h2 : (sampleOverlayDefs.map Prod.fst).Nodup := by decide
  have h := mergeConfigurations_inputs sampleRuntime sampleFs sampleBase sampleOverlay "/ext"
    sampleOverlayDefs h1 h2
  exact ⟨h1, h2, h.1, h.2.1 "file" (by decide)⟩

/-- C6, witness.  In the sample merge the extension `jsx` comes from the overlay, the extension
`js` from the base, and the `file` role stays the base's although the overlay supplies one. -/
theorem mergeConfigurations_bindings_and_roles_witness :
    isContainer sampleBase = true ∧
    sampleRuntime.parse (sampleRuntime.stringify sampleBase) = some sampleBase ∧
    definitionsRepairable sampleBase = true ∧
    definitionsRepairable sampleOverlay = true ∧
    bindingKeysDistinct sampleBase = true ∧
    bindingKeysDistinct sampleOverlay = true ∧
    lookupIn (mergeConfigurations sampleRuntime sampleFs sampleBase sampleOverlay "/ext").result
      "fileExtensions" "jsx" =
      (match lookupIn sampleOverlay "fileExtensions" "jsx" with
        | some v => some v
        | none => lookupIn sampleBase "fileExtensions" "jsx") ∧
    getProp (mergeConfigurations sampleRuntime sampleFs sampleBase sampleOverlay "/ext").result
      "file" = getProp sampleBase "file" := by
  have h1 : isContainer sampleBase = true := by decide
  have h2 : sampleRuntime.parse (sampleRuntime.stringify sampleBase) = some sampleBase := by
    decide!
  have h3 : definitionsRepairable sampleBase = true := by decide
  have h4 : definitionsRepairable sampleOverlay = true := by decide
  have h5 : bindingKeysDistinct sampleBase = true := by decide
  have h6 : bindingKeysDistinct sampleOverlay = true := by decide
  have h := mergeConfigurations_bindings_and_roles sampleRuntime sampleFs sampleBase
    sampleOverlay "/ext" h1 h2 h3 h4 h5 h6
  exact ⟨h1, h2, h3, h4, h5, h6, h.1 "fileExtensions" (Or.inl rfl) "jsx", h.2 "file" (Or.inl rfl)⟩

/-- C8, witness.  The color invariant on a document with an uncolored definition, a glyph under
a reserved key, a bare reserved key and a colored definition. -/
theorem fixIconColors_color_invariant_witness :
    getProp uncoloredDoc "iconDefinitions" = .ok (some (.obj uncoloredDefs)) ∧
    (∀ kv ∈ uncoloredDefs, isObject kv.2 = true) ∧
    ∃ ps', (fixIconColors uncoloredDoc).2 = none ∧
      getProp (fixIconColors uncoloredDoc).1 "iconDefinitions" = .ok (some (.obj ps')) ∧
      ps'.map Prod.fst = uncoloredDefs.map Prod.fst ∧
      ∀ k v, assocGet uncoloredDefs k = some v →
        ∃ v', assocGet ps' k = some v' ∧
          (notReserved k = true →
            ∃ c, getProp v' "fontColor" = .ok (some c) ∧ truthy c = true ∧
              (propTruthy v "fontColor" = true → getProp v "fontColor" = .ok (some c)) ∧
              (propTruthy v "fontColor" = false → c = .str "#519aba")) ∧
          (notReserved k = false → propTruthy v "fontColor" = false →
            propTruthy v "fontCharacter" = false →
            v' = v ∧ propTruthy v' "fontColor" = false) :=
  ⟨by decide, by decide,
    fixIconColors_color_invariant uncoloredDoc uncoloredDefs (by decide) (by decide)⟩

/-- C9, failing input.  Base `sampleBase`, profile `Next.js`, overlay `sampleOverlay`: the
document `generateIconConfig` returns has a `js` definition, introduced by the overlay, that
carries no `fontColor` although `js` is not a reserved key. -/
theorem generateIconConfig_overlay_uncolored :
    lookupIn (generateIconConfig sampleRuntime sampleFs "/ext" (some "Next.js")).1
      "iconDefinitions" "js" =
      some (.obj [("iconPath", .str "./icons/frameworks/next-js.svg")]) ∧
    notReserved "js" = true ∧
    propTruthy (.obj [("iconPath", .str "./icons/frameworks/next-js.svg")]) "fontColor" =
      false := by
  decide!

/-- C10, counterexample.  The asset `icons/missing.svg` exists nowhere under the root and the
search finds nothing, yet after `fixIconPaths` the path is `./icons/missing.svg`, not the
original text. -/
theorem fixIconPaths_prefixes_missing :
    existsSync sampleFs (fullPath "/ext" "icons/missing.svg") = false ∧
    findFileInDir sampleRuntime sampleFs "/ext" (basename "icons/missing.svg") = .ok none ∧
    deferredIconPath sampleRuntime sampleFs "/ext" missingAsset = none ∧
    lookupIn ghostDoc "iconDefinitions" "ghost" =
      some (.obj [("iconPath", .str "icons/missing.svg"), ("fontColor", .str "#cccccc")]) ∧
    lookupIn (fixIconPaths sampleFs "/ext" ghostDoc).1 "iconDefinitions" "ghost" =
      some (.obj [("iconPath", .str "./icons/missing.svg"), ("fontColor", .str "#cccccc")]) ∧
    "./icons/missing.svg" ≠ "icons/missing.svg" := by
  decide!

/-- C10, witness.  The same missing asset: the repaired path is the original with `./` in
front, the color is kept, and no later assignment is pending. -/
theorem fixIconPaths_unresolvable_witness :
    "/ext" ≠ "" ∧
    getProp missingAsset "iconPath" = .ok (some (.str "icons/missing.svg")) ∧
    "icons/missing.svg" ≠ "" ∧
    existsSync sampleFs (fullPath "/ext" "icons/missing.svg") = false ∧
    findFileInDir sampleRuntime sampleFs "/ext" (basename "icons/missing.svg") = .ok none ∧
    ∃ value', fixIconPathValue sampleFs "/ext" missingAsset = .ok value' ∧
      getProp value' "iconPath" =
        .ok (some (.str (if isAbsolute "icons/missing.svg" ||
          jsStartsWith "icons/missing.svg" "." then "icons/missing.svg"
          else "./" ++ "icons/missing.svg"))) ∧
      (∀ f, f ≠ "iconPath" → getProp value' f = getProp missingAsset f) ∧
      deferredIconPath sampleRuntime sampleFs "/ext" missingAsset = none :=
  ⟨by decide, by decide, by decide, by decide!, by decide!,
    fixIconPaths_unresolvable sampleRuntime sampleFs "/ext" missingAsset "icons/missing.svg"
      (by decide) (by decide) (by decide) (by decide!) (by decide!)⟩

/-! ## Asset paths that exist -/

/-- The loop body of `fixIconPaths` on a definition whose asset exists at its declared
location. -/
theorem fixIconPathValue_of_exists (fs : Node) (ext : String) (value : Json) (p : String)
    (hp : getProp value "iconPath" = .ok (some (.str p))) (hne : p ≠ "")
    (hex : existsSync fs (fullPath ext p) = true) :
    ∃ value', fixIconPathValue fs ext value = .ok value' ∧
      getProp value' "iconPath" =
        .ok (some (.str (if isAbsolute p || jsStartsWith p "." then p else "./" ++ p))) ∧
      ∀ f, f ≠ "iconPath" → getProp value' f = getProp value f := by
  have hfix := fixedIconPath_of_exists fs ext p hex
  have hed : ensureDotted p = if isAbsolute p || jsStartsWith p "." then p else "./" ++ p := by
    unfold ensureDotted
    cases isAbsolute p <;> cases jsStartsWith p "." <;> simp
  have hcon : isContainer value = true := by
    cases value <;> simp [getProp] at hp <;> rfl
  have htruthy : truthy (.str p) = true := by simp [truthy, hne]
  by_cases hsame : ensureDotted p = p
  · refine ⟨value, ?_, ?_, fun _ _ => rfl⟩
    · simp [fixIconPathValue, hp, htruthy, hfix, hsame]
    · rw [← hed, hsame]; exact hp
  · refine ⟨replaceProp value "iconPath" (.str (ensureDotted p)), ?_, ?_, ?_⟩
    · simp [fixIconPathValue, hp, htruthy, hfix, hsame, setProp_of_container value _ _ hcon]
    · rw [← hed]; exact getProp_replaceProp_container value _ _ hcon
    · intro f hf
      exact getProp_replaceProp_ne _ _ _ _ (fun e => hf e.symm)

/-- The definitions of a document after a loop over them that ended normally. -/
theorem lookupIn_forIconDefinitions (body : String → Json → Except JsError Json) (d : Json)
    (ps : List (String × Json))
    (hdefs : getProp d "iconDefinitions" = .ok (some (.obj ps)))
    (hok : (forIconDefinitions body d).2 = none) (k : String) (v : Json)
    (hk : assocGet ps k = some v) :
    ∃ v', body k v = .ok v' ∧
      lookupIn (forIconDefinitions body d).1 "iconDefinitions" k = some v' := by
  have hcon : isContainer d = true := by
    cases d <;> simp [getProp] at hdefs <;> rfl
  have hok' : (forEntries body ps).2 = none := by
    simpa [forIconDefinitions, hdefs, truthy, ownEntries] using hok
  obtain ⟨v', hb, hg⟩ := forEntries_get body ps hok' k v hk
  refine ⟨v', hb, ?_⟩
  have h1 : (forIconDefinitions body d).1 =
      replaceProp d "iconDefinitions" (.obj (forEntries body ps).1) := by
    simp [forIconDefinitions, hdefs, truthy, ownEntries, withValues]
  rw [h1]
  simp [lookupIn, getProp_replaceProp_container d _ _ hcon, ownEntries, hg]

/-- C11.  Existing asset paths are kept, normalized to a dotted form: when `fixIconPaths` ends
normally on a document, a definition whose non-empty `iconPath` exists at its declared location
(resolved against the root when relative) keeps its path if the path is absolute or starts
with a dot and otherwise gets `./` in front; no other field of the definition changes, and no
search callback is pending for it. -/
theorem fixIconPaths_existing (J : JsRuntime) (fs : Node) (extensionPath : String) (d : Json)
    (ps : List (String × Json)) (k : String) (value : Json) (p : String)
    (hdefs : getProp d "iconDefinitions" = .ok (some (.obj ps)))
    (hok : (fixIconPaths fs extensionPath d).2 = none)
    (hk : assocGet ps k = some value)
    (hp : getProp value "iconPath" = .ok (some (.str p))) (hne : p ≠ "")
    (hex : existsSync fs (fullPath extensionPath p) = true) :
    ∃ value', lookupIn (fixIconPaths fs extensionPath d).1 "iconDefinitions" k = some value' ∧
      getProp value' "iconPath" =
        .ok (some (.str (if isAbsolute p || jsStartsWith p "." then p else "./" ++ p))) ∧
      (∀ f, f ≠ "iconPath" → getProp value' f = getProp value f) ∧
      deferredIconPath J fs extensionPath value = none := by
  obtain ⟨v', hb, hl⟩ := lookupIn_forIconDefinitions
    (fun _ value => fixIconPathValue fs extensionPath value) d ps hdefs hok k value hk
  obtain ⟨w, hw, hpath, hrest⟩ := fixIconPathValue_of_exists fs extensionPath value p hp hne hex
  have hb2 : fixIconPathValue fs extensionPath value = .ok v' := hb
  have hwv : v' = w := by
    rw [hw] at hb2
    cases hb2
    rfl
  rw [hwv] at hl
  refine ⟨w, hl, hpath, hrest, ?_⟩
  simp [deferredIconPath, hp, hex]

/-- C11, witness.  The shipped base names `icons/file.svg`, which exists under the root: after
`fixIconPaths` the path is `./icons/file.svg`. -/
theorem fixIconPaths_existing_witness :
    getProp rawBase "iconDefinitions" =
      .ok (some (.obj [("_file", .obj [("iconPath", .str "icons/file.svg")])])) ∧
    (fixIconPaths sampleFs "/ext" rawBase).2 = none ∧
    existsSync sampleFs (fullPath "/ext" "icons/file.svg") = true ∧
    lookupIn (fixIconPaths sampleFs "/ext" rawBase).1 "iconDefinitions" "_file" =
      some (.obj [("iconPath", .str "./icons/file.svg")]) ∧
    ∃ value', lookupIn (fixIconPaths sampleFs "/ext" rawBase).1 "iconDefinitions" "_file" =
        some value' ∧
      getProp value' "iconPath" =
        .ok (some (.str (if isAbsolute "icons/file.svg" || jsStartsWith "icons/file.svg" "."
          then "icons/file.svg" else "./" ++ "icons/file.svg"))) ∧
      (∀ f, f ≠ "iconPath" →
        getProp value' f = getProp (.obj [("iconPath", .str "icons/file.svg")]) f) ∧
      deferredIconPath sampleRuntime sampleFs "/ext"
        (.obj [("iconPath", .str "icons/file.svg")]) = none :=
  ⟨by decide, by decide!, by decide!, by decide!,
    fixIconPaths_existing sampleRuntime sampleFs "/ext" rawBase
      [("_file", .obj [("iconPath", .str "icons/file.svg")])] "_file"
      (.obj [("iconPath", .str "icons/file.svg")]) "icons/file.svg"
      (by decide) (by decide!) (by decide) (by decide) (by decide) (by decide!)⟩

/-! ## The search fallback of `fixIconPaths` -/

/-- C12, failing input.  The asset of `next` is missing at `/ext/icons/next-js.svg` and a file
of that name exists at `/ext/icons/frameworks/next-js.svg`.  The document that
`processIconConfig` returns, and the one `generateIconConfig` resolves to, still hold the
declared path `./icons/next-js.svg`, which names no file; the path of the found file is
assigned only by the search callback, after the document has been returned. -/
theorem processIconConfig_search_pending :
    existsSync strayFs (fullPath "/ext" "./icons/next-js.svg") = false ∧
    correctedPath strayFs "/ext" "./icons/next-js.svg" = none ∧
    findFileInDir strayRuntime strayFs "/ext" (basename "./icons/next-js.svg") =
      .ok (some "/ext/icons/frameworks/next-js.svg") ∧
    existsSync strayFs (fullPath "/ext" "./icons/frameworks/next-js.svg") = true ∧
    (processIconConfig strayRuntime strayFs strayBase "/ext" none).map
        (fun c => lookupIn c "iconDefinitions" "next") =
      .ok (some (.obj [("iconPath", .str "./icons/next-js.svg"),
        ("fontColor", .str "#cbcb41")])) ∧
    lookupIn (generateIconConfig strayRuntime strayFs "/ext" none).1 "iconDefinitions" "next" =
      some (.obj [("iconPath", .str "./icons/next-js.svg"), ("fontColor", .str "#cbcb41")]) ∧
    deferredIconPath strayRuntime strayFs "/ext"
        (.obj [("iconPath", .str "./icons/next-js.svg"), ("fontColor", .str "#cbcb41")]) =
      some "./icons/frameworks/next-js.svg" := by
  decide!

/-! ## The recursive search -/

theorem firstMatch_append (J : JsRuntime) (fileName : String) (a b : List (String × String)) :
    firstMatch J fileName (a ++ b) =
      match firstMatch J fileName a with
      | some found => some found
      | none => firstMatch J fileName b := by
  unfold firstMatch
  rw [List.find?_append]
  cases List.find? (fun e => decide (J.toLowerCase e.1 = J.toLowerCase fileName)) a <;> simp

mutual
theorem findInNode_eq (J : JsRuntime) (fileName startPath : String) :
    (n : Node) → findInNode J fileName startPath n =
      firstMatch J fileName (comparedInNode startPath n)
  | .file _ => by simp [findInNode, comparedInNode, firstMatch]
  | .dir es => by
    simp only [findInNode, comparedInNode]
    exact findInEntries_eq J fileName startPath es
theorem findInEntries_eq (J : JsRuntime) (fileName startPath : String) :
    (es : List (String × Node)) → findInEntries J fileName startPath es =
      firstMatch J fileName (comparedInEntries startPath es)
  | [] => by simp [findInEntries, comparedInEntries, firstMatch]
  | (name, n) :: rest => by
    simp only [findInEntries, comparedInEntries]
    split
    · rw [firstMatch_append, findInNode_eq J fileName (pathJoin [startPath, name]) n,
        findInEntries_eq J fileName startPath rest]
    · rw [findInEntries_eq J fileName startPath rest]
      by_cases h : J.toLowerCase name = J.toLowerCase fileName
      · simp [firstMatch, h]
      · simp [firstMatch, h]
end

theorem startsWithChars_append (a b : List Char) : startsWithChars (a ++ b) a = true := by
  induction a with
  | nil => cases b <;> simp [startsWithChars]
  | cons c a ih => simp [startsWithChars, ih]

theorem includesChars_of_startsWith (s sub : List Char) (h : startsWithChars s sub = true) :
    includesChars s sub = true := by
  cases s with
  | nil => simpa [includesChars] using h
  | cons c cs => simp [includesChars, h]

theorem includesChars_append (pre seg post : List Char) :
    includesChars (pre ++ (seg ++ post)) seg = true := by
  induction pre with
  | nil => exact includesChars_of_startsWith _ _ (startsWithChars_append seg post)
  | cons c pre ih =>
    have h : includesChars (c :: (pre ++ (seg ++ post))) seg =
        (startsWithChars (c :: (pre ++ (seg ++ post))) seg ||
          includesChars (pre ++ (seg ++ post)) seg) := rfl
    rw [List.cons_append, h, ih, Bool.or_true]

theorem joinSlash_append_last (ys : List (List Char)) (seg : List Char) :
    ∃ pre, joinSlash (ys ++ [seg]) = pre ++ seg := by
  induction ys with
  | nil => exact ⟨[], by simp [joinSlash]⟩
  | cons y ys ih =>
    obtain ⟨pre, hpre⟩ := ih
    cases ys with
    | nil =>
      refine ⟨y ++ ['/'], ?_⟩
      simp [joinSlash]
    | cons z zs =>
      refine ⟨y ++ '/' :: pre, ?_⟩
      simp only [List.cons_append] at hpre ⊢
      simp [joinSlash, hpre]

theorem normSegs_append_plain (b : Bool) (xs : List (List Char)) (seg : List Char)
    (h1 : seg ≠ []) (h2 : seg ≠ ['.']) (h3 : seg ≠ ['.', '.']) :
    normSegs b (xs ++ [seg]) = normSegs b xs ++ [seg] := by
  simp [normSegs, List.foldl_append, normStep, h1, h2, h3]

/-- The joined path of an entry named `node_modules` contains `node_modules`, so
`findFileInDir` never enters a directory of that name. -/
theorem jsIncludes_join_node_modules (startPath : String) :
    jsIncludes (pathJoin [startPath, "node_modules"]) "node_modules" = true := by
  have key : ∀ joined : String, (∃ xs, splitSlash joined.data = xs ++ ["node_modules".data]) →
      joined.data.getLast? = some 's' →
      jsIncludes (normalize joined) "node_modules" = true := by
    intro joined ⟨xs, hxs⟩ hlast
    have hne : joined ≠ "" := by
      intro h
      rw [h] at hlast
      simp at hlast
    have hseg : ∀ b, ∃ pre, joinSlash (normSegs b (splitSlash joined.data)) =
        pre ++ "node_modules".data := by
      intro b
      rw [hxs, normSegs_append_plain b xs _ (by decide) (by decide) (by decide)]
      exact joinSlash_append_last _ _
    obtain ⟨pre, hpre⟩ := hseg (!isAbsolute joined)
    have hbody : joinSlash (normSegs (!isAbsolute joined) (splitSlash joined.data)) ≠ [] := by
      rw [hpre]
      simp
    simp only [normalize, hne, if_false, hbody, hlast]
    simp only [jsIncludes, hpre]
    have : (if isAbsolute joined = true then ['/'] else []) ++ (pre ++ "node_modules".data) ++
        (if decide (some 's' = some '/') = true then ['/'] else []) =
        ((if isAbsolute joined = true then ['/'] else []) ++ pre) ++
          ("node_modules".data ++ []) := by
      simp
    rw [this]
    exact includesChars_append _ _ _
  by_cases hs : startPath = ""
  · subst hs
    have : pathJoin ["", "node_modules"] = normalize "node_modules" := by
      simp [pathJoin, joinRaw]
    rw [this]
    exact key _ ⟨[], by decide⟩ (by decide)
  · have : pathJoin [startPath, "node_modules"] = normalize (startPath ++ "/" ++ "node_modules") := by
      simp [pathJoin, joinRaw, hs]
    rw [this]
    have hd : (startPath ++ "/" ++ "node_modules").data =
        startPath.data ++ '/' :: "node_modules".data := by
      simp [append_data]
    apply key
    · refine ⟨splitSlash startPath.data, ?_⟩
      rw [hd, splitSlash_append_slash]
      congr 1
    · rw [hd]
      have : startPath.data ++ '/' :: "node_modules".data =
          (startPath.data ++ ['/']) ++ "node_modules".data := by simp
      rw [this, List.getLast?_append_of_ne_nil _ (by decide)]
      decide


theorem firstMatch_isSome (J : JsRuntime) (fileName : String) (compared : List (String × String)) :
    (∃ found, firstMatch J fileName compared = some found) ↔
      ∃ e ∈ compared, J.toLowerCase e.1 = J.toLowerCase fileName := by
  unfold firstMatch
  constructor
  · rintro ⟨found, h⟩
    cases hf : List.find? (fun e => decide (J.toLowerCase e.1 = J.toLowerCase fileName))
        compared with
    | none => simp [hf] at h
    | some e =>
      have h1 := List.find?_some hf
      have h2 := List.mem_of_find?_eq_some hf
      exact ⟨e, h2, by simpa using h1⟩
  · rintro ⟨e, he, hm⟩
    cases hf : List.find? (fun e => decide (J.toLowerCase e.1 = J.toLowerCase fileName))
        compared with
    | none =>
      rw [List.find?_eq_none] at hf
      have := hf e he
      simp [hm] at this
    | some e' => exact ⟨e'.2, by simp⟩

/-- C13, as amended.  `findFileInDir(root, filename)` always ends: with `null` when the root
does not exist, with an exception when the root is a regular file, and on a directory with the
joined path of the first entry, in depth-first order of the listings, whose name equals
`filename` ignoring case among the entries it compares.  It enters a directory exactly when the
joined path of the directory does not contain the text `node_modules` and compares every other
entry, regular file or not; so it never enters a directory named `node_modules`, and it returns
a path exactly when some compared entry has a matching name. -/
theorem findFileInDir_first_match (J : JsRuntime) (fs : Node) (root fileName : String) :
    (existsSync fs root = false → findFileInDir J fs root fileName = .ok none) ∧
    (∀ c, stat fs root = some (.file c) → findFileInDir J fs root fileName = .error .fsError) ∧
    (∀ es, stat fs root = some (.dir es) →
      findFileInDir J fs root fileName =
        .ok (firstMatch J fileName (comparedInEntries root es)) ∧
      ((∃ found, findFileInDir J fs root fileName = .ok (some found)) ↔
        ∃ e ∈ comparedInEntries root es, J.toLowerCase e.1 = J.toLowerCase fileName)) ∧
    (∀ startPath n rest, comparedInEntries startPath (("node_modules", n) :: rest) =
      ("node_modules", pathJoin [startPath, "node_modules"]) ::
        comparedInEntries startPath rest) := by
  refine ⟨?_, ?_, ?_, ?_⟩
  · intro h
    simp [findFileInDir, h]
  · intro c h
    simp [findFileInDir, existsSync, readdirSync, h]
  · intro es h
    have h1 : findFileInDir J fs root fileName =
        .ok (firstMatch J fileName (comparedInEntries root es)) := by
      simp [findFileInDir, existsSync, readdirSync, h, findInEntries_eq]
    refine ⟨h1, ?_⟩
    rw [h1, ← firstMatch_isSome]
    constructor
    · rintro ⟨found, hf⟩
      exact ⟨found, by simpa using hf⟩
    · rintro ⟨found, hf⟩
      exact ⟨found, by rw [hf]⟩
  · intro startPath n rest
    simp [comparedInEntries, jsIncludes_join_node_modules]

/-- C13, counterexample.  The regular file `logo.svg` lies under the root in the directory
`old_node_modules`, which is not named `node_modules`: the search as the claim words it finds
it, `findFileInDir` returns `null`.  Asked for the name `node_modules`, `findFileInDir`
returns the directory of that name although no regular file has it. -/
theorem findFileInDir_skips_by_substring :
    (readdirSync vendoredFs "/ext").map (searchByNameEntries sampleRuntime "logo.svg" "/ext") =
      .ok (some "/ext/old_node_modules/logo.svg") ∧
    findFileInDir sampleRuntime vendoredFs "/ext" "logo.svg" = .ok none ∧
    (readdirSync vendoredFs "/ext").map
      (searchByNameEntries sampleRuntime "node_modules" "/ext") = .ok none ∧
    findFileInDir sampleRuntime vendoredFs "/ext" "node_modules" =
      .ok (some "/ext/node_modules") := by
  decide!

/-- C13, witness.  In the sample extension the search for `NEXT-JS.SVG` walks `icons` and
`icons/frameworks` and returns the first compared entry of that name, ignoring case; a search
from a root that does not exist returns `null`. -/
theorem findFileInDir_first_match_witness :
    stat sampleFs "/ext" = some (.dir [("icons", sampleIconsDir sampleBase)]) ∧
    findFileInDir sampleRuntime sampleFs "/ext" "NEXT-JS.SVG" =
      .ok (firstMatch sampleRuntime "NEXT-JS.SVG"
        (comparedInEntries "/ext" [("icons", sampleIconsDir sampleBase)])) ∧
    firstMatch sampleRuntime "NEXT-JS.SVG"
        (comparedInEntries "/ext" [("icons", sampleIconsDir sampleBase)]) =
      some "/ext/icons/frameworks/next-js.svg" ∧
    existsSync sampleFs "/missing" = false ∧
    findFileInDir sampleRuntime sampleFs "/missing" "NEXT-JS.SVG" = .ok none := by
  have h1 : stat sampleFs "/ext" = some (.dir [("icons", sampleIconsDir sampleBase)]) := by
    decide!
  have h2 : existsSync sampleFs "/missing" = false := by decide!
  exact ⟨h1,
    ((findFileInDir_first_match sampleRuntime sampleFs "/ext" "NEXT-JS.SVG").2.2.1 _ h1).1,
    by decide!, h2,
    (findFileInDir_first_match sampleRuntime sampleFs "/missing" "NEXT-JS.SVG").1 h2⟩

/-! ## The loader -/

theorem generateIconConfig_of_load_error (J : JsRuntime) (fs : Node) (ext : String)
    (framework : Option String) (e : JsError)
    (h : loadIconConfig J (verifyIconFilesExist J fs ext).1 ext framework = .error e) :
    generateIconConfig J fs ext framework =
      (generateBasicIconConfig (verifyIconFilesExist J fs ext).1 ext,
        (verifyIconFilesExist J fs ext).1) := by
  unfold generateIconConfig
  rcases hv : verifyIconFilesExist J fs ext with ⟨fs1, err⟩
  rw [hv] at h
  cases err with
  | some e1 => rfl
  | none => simp only [] at h ⊢; rw [h]

/-- C14, as amended.  `generateIconConfig` always resolves to a document, and the tier it
loads from is chosen by existence alone: when the file of the chosen tier cannot be read or
parsed (the primary `icons/seti-base.json` if it exists, else the alternate `seti-base.json`
at the root if it exists, else `package.json` if it exists) the result is the minimal default
document of `generateBasicIconConfig`; no further tier is tried. -/
theorem generateIconConfig_parse_failure (J : JsRuntime) (fs : Node) (extensionPath : String)
    (framework : Option String) (e : JsError) :
    (existsSync (verifyIconFilesExist J fs extensionPath).1
        (pathJoin [extensionPath, "icons", "seti-base.json"]) = true →
      readJson J (verifyIconFilesExist J fs extensionPath).1
        (pathJoin [extensionPath, "icons", "seti-base.json"]) = .error e →
      generateIconConfig J fs extensionPath framework =
        (generateBasicIconConfig (verifyIconFilesExist J fs extensionPath).1 extensionPath,
          (verifyIconFilesExist J fs extensionPath).1)) ∧
    (existsSync (verifyIconFilesExist J fs extensionPath).1
        (pathJoin [extensionPath, "icons", "seti-base.json"]) = false →
      existsSync (verifyIconFilesExist J fs extensionPath).1
        (pathJoin [extensionPath, "seti-base.json"]) = true →
      readJson J (verifyIconFilesExist J fs extensionPath).1
        (pathJoin [extensionPath, "seti-base.json"]) = .error e →
      generateIconConfig J fs extensionPath framework =
        (generateBasicIconConfig (verifyIconFilesExist J fs extensionPath).1 extensionPath,
          (verifyIconFilesExist J fs extensionPath).1)) ∧
    (existsSync (verifyIconFilesExist J fs extensionPath).1
        (pathJoin [extensionPath, "icons", "seti-base.json"]) = false →
      existsSync (verifyIconFilesExist J fs extensionPath).1
        (pathJoin [extensionPath, "seti-base.json"]) = false →
      existsSync (verifyIconFilesExist J fs extensionPath).1
        (pathJoin [extensionPath, "package.json"]) = true →
      readJson J (verifyIconFilesExist J fs extensionPath).1
        (pathJoin [extensionPath, "package.json"]) = .error e →
      generateIconConfig J fs extensionPath framework =
        (generateBasicIconConfig (verifyIconFilesExist J fs extensionPath).1 extensionPath,
          (verifyIconFilesExist J fs extensionPath).1)) := by
  refine ⟨?_, ?_, ?_⟩
  · intro h1 h2
    apply generateIconConfig_of_load_error J fs extensionPath framework e
    simp [loadIconConfig, h1, h2]
  · intro h1 h2 h3
    apply generateIconConfig_of_load_error J fs extensionPath framework e
    simp [loadIconConfig, h1, h2, h3]
  · intro h1 h2 h3 h4
    apply generateIconConfig_of_load_error J fs extensionPath framework e
    simp [loadIconConfig, h1, h2, h3, h4]

/-- C14, counterexample.  The primary base file exists and is not JSON, the alternate base file
at the root holds the sample base document, which is normalized: `generateIconConfig` returns
the minimal default document, not the content of the alternate file. -/
theorem generateIconConfig_skips_alternate :
    existsSync brokenPrimaryFs (pathJoin ["/ext", "icons", "seti-base.json"]) = true ∧
    readJson sampleRuntime brokenPrimaryFs (pathJoin ["/ext", "icons", "seti-base.json"]) =
      .error .syntaxError ∧
    readJson sampleRuntime brokenPrimaryFs (pathJoin ["/ext", "seti-base.json"]) =
      .ok sampleBase ∧
    repairConfig brokenPrimaryFs "/ext" sampleBase = .ok sampleBase ∧
    (generateIconConfig sampleRuntime brokenPrimaryFs "/ext" none).1 =
      generateBasicIconConfig brokenPrimaryFs "/ext" ∧
    (generateIconConfig sampleRuntime brokenPrimaryFs "/ext" none).1 ≠ sampleBase := by
  decide!

/-- C14, witness.  With the primary base file corrupted the result is the minimal default. -/
theorem generateIconConfig_parse_failure_witness :
    existsSync (verifyIconFilesExist sampleRuntime brokenPrimaryFs "/ext").1
      (pathJoin ["/ext", "icons", "seti-base.json"]) = true ∧
    readJson sampleRuntime (verifyIconFilesExist sampleRuntime brokenPrimaryFs "/ext").1
      (pathJoin ["/ext", "icons", "seti-base.json"]) = .error .syntaxError ∧
    generateIconConfig sampleRuntime brokenPrimaryFs "/ext" none =
      (generateBasicIconConfig (verifyIconFilesExist sampleRuntime brokenPrimaryFs "/ext").1
        "/ext", (verifyIconFilesExist sampleRuntime brokenPrimaryFs "/ext").1) :=
  ⟨by decide!, by decide!,
    (generateIconConfig_parse_failure sampleRuntime brokenPrimaryFs "/ext" none
      .syntaxError).1 (by decide!) (by decide!)⟩

theorem repairConfig_of_no_definitions (fs : Node) (ext : String) (v : Json)
    (hnn : v ≠ .null) (hdefs : propTruthy v "iconDefinitions" = false) :
    repairConfig fs ext v = .ok v := by
  have h : ∃ r, getProp v "iconDefinitions" = .ok r ∧ truthyOpt r = false := by
    cases v with
    | null => exact absurd rfl hnn
    | bool b => exact ⟨none, rfl, rfl⟩
    | num n => exact ⟨none, rfl, rfl⟩
    | str s => exact ⟨none, rfl, rfl⟩
    | arr items ps => exact ⟨assocGet ps "iconDefinitions", rfl, by simpa [propTruthy, getProp] using hdefs⟩
    | obj ps => exact ⟨assocGet ps "iconDefinitions", rfl, by simpa [propTruthy, getProp] using hdefs⟩
  obtain ⟨r, hr, ht⟩ := h
  have hloop : ∀ body, forIconDefinitions body v = (v, none) := by
    intro body
    cases r with
    | none => simp [forIconDefinitions, hr]
    | some defs =>
      have : truthy defs = false := by simpa [truthyOpt] using ht
      simp [forIconDefinitions, hr, this]
  simp [repairConfig, fixIconPaths, fixIconColors, hloop]

/-- C15, as amended.  A primary base file whose content parses to an object without a truthy
`iconDefinitions` is not replaced by the minimal default document: the repair functions
return at their guard `if (!config.iconDefinitions) return;`, and when no overlay is merged
`generateIconConfig` returns the parsed object itself.  (What is returned for content that is
not an object is not part of this statement.) -/
theorem generateIconConfig_without_definitions (J : JsRuntime) (fs : Node)
    (extensionPath : String) (framework : Option String) (v : Json)
    (hverify : (verifyIconFilesExist J fs extensionPath).2 = none)
    (hexists : existsSync (verifyIconFilesExist J fs extensionPath).1
      (pathJoin [extensionPath, "icons", "seti-base.json"]) = true)
    (hread : readJson J (verifyIconFilesExist J fs extensionPath).1
      (pathJoin [extensionPath, "icons", "seti-base.json"]) = .ok v)
    (hfw : ∀ fw, framework = some fw → fw = "" ∨
      existsSync (verifyIconFilesExist J fs extensionPath).1
        (frameworkIconPath J extensionPath fw) = false)
    (hobj : isObject v = true)
    (hdefs : propTruthy v "iconDefinitions" = false) :
    (generateIconConfig J fs extensionPath framework).1 = v ∧
    repairConfig (verifyIconFilesExist J fs extensionPath).1 extensionPath v = .ok v := by
  have hnn : v ≠ .null := by
    intro h
    rw [h] at hobj
    cases hobj
  have hrep := repairConfig_of_no_definitions (verifyIconFilesExist J fs extensionPath).1
    extensionPath v hnn hdefs
  refine ⟨?_, hrep⟩
  have hproc : processIconConfig J (verifyIconFilesExist J fs extensionPath).1 v extensionPath
      framework = .ok v := by
    cases framework with
    | none => simp [processIconConfig, hrep]
    | some fw =>
      rcases hfw fw rfl with h | h
      · simp [processIconConfig, hrep, h]
      · by_cases he : fw = ""
        · simp [processIconConfig, hrep, he]
        · simp [processIconConfig, hrep, he, h]
  have hload : loadIconConfig J (verifyIconFilesExist J fs extensionPath).1 extensionPath
      framework = .ok v := by
    simp [loadIconConfig, hexists, hread, hproc]
  unfold generateIconConfig
  rcases hv : verifyIconFilesExist J fs extensionPath with ⟨fs1, err⟩
  rw [hv] at hload hverify
  simp only [] at hverify
  subst hverify
  simp only []
  rw [hload]

/-- C15, counterexample.  A base file holding an object without `iconDefinitions`:
`generateIconConfig` returns the parsed object, not the minimal default document. -/
theorem generateIconConfig_returns_object :
    readJson (knownRuntime [rolesOnlyBase]) rolesOnlyFs
      (pathJoin ["/ext", "icons", "seti-base.json"]) = .ok rolesOnlyBase ∧
    isObject rolesOnlyBase = true ∧
    getProp rolesOnlyBase "iconDefinitions" = .ok none ∧
    (generateIconConfig (knownRuntime [rolesOnlyBase]) rolesOnlyFs "/ext" none).1 =
      rolesOnlyBase ∧
    (generateIconConfig (knownRuntime [rolesOnlyBase]) rolesOnlyFs "/ext" none).1 ≠
      generateBasicIconConfig rolesOnlyFs "/ext" := by
  decide!

/-- C15, witness.  The base file holding an object without `iconDefinitions` is returned as it
was parsed. -/
theorem generateIconConfig_without_definitions_witness :
    (verifyIconFilesExist (knownRuntime [rolesOnlyBase]) rolesOnlyFs "/ext").2 = none ∧
    isObject rolesOnlyBase = true ∧
    propTruthy rolesOnlyBase "iconDefinitions" = false ∧
    (generateIconConfig (knownRuntime [rolesOnlyBase]) rolesOnlyFs "/ext" none).1 =
      rolesOnlyBase :=
  ⟨by decide!, by decide, by decide,
    (generateIconConfig_without_definitions (knownRuntime [rolesOnlyBase]) rolesOnlyFs "/ext"
      none rolesOnlyBase (by decide!) (by decide!) (by decide!) (by simp) (by decide)
      (by decide)).1⟩

/-! ## The minimal default document -/

/-- C16, as amended.  For every file system and root, the document of
`generateBasicIconConfig` has the roles `_file`, `_folder`, `_folder_open`; the `iconPath` of
each of these three definitions is `./icons/file.svg`, `./icons/folder.svg`,
`./icons/folder-open.svg` when that asset exists under the root and the empty string
otherwise; its bindings are the extensions `js` and `json`, no file name, and the languages
`javascript` and `json`; every role and binding names a defined icon; and it does contain
variant roles: `light` and `highContrast` each restate the three roles. -/
theorem generateBasicIconConfig_shape (fs : Node) (extensionPath : String) :
    getProp (generateBasicIconConfig fs extensionPath) "file" = .ok (some (.str "_file")) ∧
    getProp (generateBasicIconConfig fs extensionPath) "folder" = .ok (some (.str "_folder")) ∧
    getProp (generateBasicIconConfig fs extensionPath) "folderExpanded" =
      .ok (some (.str "_folder_open")) ∧
    iconPathOf (generateBasicIconConfig fs extensionPath) "_file" =
      some (.str (if existsSync fs (pathJoin [extensionPath, "icons", "file.svg"]) then
        "./icons/file.svg" else "")) ∧
    iconPathOf (generateBasicIconConfig fs extensionPath) "_folder" =
      some (.str (if existsSync fs (pathJoin [extensionPath, "icons", "folder.svg"]) then
        "./icons/folder.svg" else "")) ∧
    iconPathOf (generateBasicIconConfig fs extensionPath) "_folder_open" =
      some (.str (if existsSync fs (pathJoin [extensionPath, "icons", "folder-open.svg"]) then
        "./icons/folder-open.svg" else "")) ∧
    getProp (generateBasicIconConfig fs extensionPath) "fileExtensions" =
      .ok (some (.obj [("js", .str "js"), ("json", .str "json")])) ∧
    getProp (generateBasicIconConfig fs extensionPath) "fileNames" = .ok (some (.obj [])) ∧
    getProp (generateBasicIconConfig fs extensionPath) "languageIds" =
      .ok (some (.obj [("javascript", .str "js"), ("json", .str "json")])) ∧
    invariantI1 (generateBasicIconConfig fs extensionPath) = true ∧
    getProp (generateBasicIconConfig fs extensionPath) "light" = .ok (some variantRoles) ∧
    getProp (generateBasicIconConfig fs extensionPath) "highContrast" =
      .ok (some variantRoles) := by
  refine ⟨rfl, rfl, rfl, rfl, rfl, rfl, rfl, rfl, rfl, ?_, rfl, rfl⟩
  simp [generateBasicIconConfig, invariantI1, rolesDefined, roleDefined, bindingsDefined,
    getProp, assocGet]

/-- C16, counterexample.  The minimal default document of the sample extension has the variant
roles `light` and `highContrast`. -/
theorem generateBasicIconConfig_has_variants :
    getProp (generateBasicIconConfig sampleFs "/ext") "light" = .ok (some variantRoles) ∧
    getProp (generateBasicIconConfig sampleFs "/ext") "highContrast" = .ok (some variantRoles) ∧
    getProp (generateBasicIconConfig sampleFs "/ext") "light" ≠ .ok none ∧
    getProp (generateBasicIconConfig sampleFs "/ext") "highContrast" ≠ .ok none := by
  decide!

/-- C16, witness.  In the sample extension the three basic assets exist, so the minimal
default names them; in an empty file system their paths are empty. -/
theorem generateBasicIconConfig_shape_witness :
    iconPathOf (generateBasicIconConfig sampleFs "/ext") "_file" =
      some (.str "./icons/file.svg") ∧
    iconPathOf (generateBasicIconConfig (.dir []) "/ext") "_folder_open" = some (.str "") ∧
    getProp (generateBasicIconConfig sampleFs "/ext") "light" = .ok (some variantRoles) := by
  have h := generateBasicIconConfig_shape sampleFs "/ext"
  have h0 := generateBasicIconConfig_shape (.dir []) "/ext"
  refine ⟨?_, ?_, h.2.2.2.2.2.2.2.2.2.2.1⟩
  · rw [h.2.2.2.1]
    decide!
  · rw [h0.2.2.2.2.2.1]
    decide!

/-! ## The overlay identifier -/

theorem toLower_cases (c : Char) :
    c.toLower = c ∨ (65 ≤ c.toNat ∧ c.toNat ≤ 90 ∧ c.toLower.toNat = c.toNat + 32) := by
  by_cases h : c.toNat ≥ 65 ∧ c.toNat ≤ 90
  · right
    refine ⟨h.1, h.2, ?_⟩
    have hl : c.toLower = Char.ofNat (c.toNat + 32) := by
      simp only [Char.toLower]
      rw [if_pos h]
    rw [hl]
    obtain ⟨h1, h2⟩ := h
    generalize c.toNat = n at h1 h2
    interval_cases n <;> rfl
  · left
    simp only [Char.toLower]
    rw [if_neg h]

theorem toLower_toLower (c : Char) : c.toLower.toLower = c.toLower := by
  rcases toLower_cases c with h | ⟨h1, h2, h3⟩
  · rw [h, h]
  · rcases toLower_cases c.toLower with h | ⟨h4, h5, _⟩
    · exact h
    · omega

theorem toLower_ascii (c : Char) (h : c.toNat < 128) : c.toLower.toNat < 128 := by
  rcases toLower_cases c with h1 | ⟨_, h2, h3⟩
  · rw [h1]; exact h
  · omega

theorem toNat_dash : ('-' : Char).toNat = 45 := rfl

/-- One character of the identifier: the lower case of the key's character, or a hyphen. -/
theorem overlayIdentifier_ascii_data (J : JsRuntime) (s : String)
    (hJ : ∀ t, isAsciiText t = true → J.toLowerCase t = asciiLowerCase t)
    (hs : isAsciiText s = true) :
    (overlayIdentifier J s).data = s.data.map identifierChar := by
  simp [overlayIdentifier, identifierChar, replaceSpaceDot, hJ s hs, asciiLowerCase, List.map_map,
    Function.comp_def]

theorem isAsciiText_overlayIdentifier (J : JsRuntime) (s : String)
    (hJ : ∀ t, isAsciiText t = true → J.toLowerCase t = asciiLowerCase t)
    (hs : isAsciiText s = true) : isAsciiText (overlayIdentifier J s) = true := by
  unfold isAsciiText at hs ⊢
  rw [overlayIdentifier_ascii_data J s hJ (by simpa [isAsciiText] using hs)]
  simp only [List.all_eq_true, decide_eq_true_eq, List.mem_map] at hs ⊢
  rintro x ⟨c, hc, rfl⟩
  unfold identifierChar
  split
  · rw [toNat_dash]; omega
  · exact toLower_ascii c (hs c hc)

theorem identifierChar_idem (c : Char) : identifierChar (identifierChar c) = identifierChar c := by
  by_cases h : (isJsWhitespace c.toLower || c.toLower = '.') = true
  · have h1 : identifierChar c = '-' := by
      unfold identifierChar
      rw [if_pos h]
    rw [h1]
    rfl
  · have h1 : identifierChar c = c.toLower := by
      unfold identifierChar
      rw [if_neg h]
    rw [h1]
    unfold identifierChar
    rw [toLower_toLower, if_neg h]

/-- C17, as amended.  The overlay file looked up for a profile key `s` is
`path.join(root, "icons", "frameworks", id + ".json")`, where `id` is obtained by lower-casing
`s` and then replacing each whitespace character and each dot by one hyphen.  When `s` is an
ASCII text, on which `toLowerCase` changes the letters `A` to `Z` only, `id` has the same
length as `s` and the derivation is idempotent.  (Outside ASCII the lower case of a character
can be longer than the character.) -/
theorem frameworkIconPath_identifier (J : JsRuntime) (extensionPath s : String)
    (hJ : ∀ t, isAsciiText t = true → J.toLowerCase t = asciiLowerCase t)
    (hs : isAsciiText s = true) :
    frameworkIconPath J extensionPath s =
      pathJoin [extensionPath, "icons", "frameworks", overlayIdentifier J s ++ ".json"] ∧
    (overlayIdentifier J s).data =
      s.data.map identifierChar ∧
    (overlayIdentifier J s).length = s.length ∧
    overlayIdentifier J (overlayIdentifier J s) = overlayIdentifier J s := by
  have hd := overlayIdentifier_ascii_data J s hJ hs
  have hd2 := overlayIdentifier_ascii_data J (overlayIdentifier J s) hJ
    (isAsciiText_overlayIdentifier J s hJ hs)
  refine ⟨rfl, hd, ?_, ?_⟩
  · show (overlayIdentifier J s).data.length = s.data.length
    rw [hd, List.length_map]
  · apply String.ext
    rw [hd2, hd, List.map_map]
    apply List.map_congr_left
    intro c _
    exact identifierChar_idem c

/-- C17, counterexample.  For the profile key made of the single letter U+0130 the identifier
has two characters, `i` and U+0307, so it is longer than the key. -/
theorem overlayIdentifier_longer :
    String.mk [Char.ofNat 304] ≠ "" ∧
    (String.mk [Char.ofNat 304]).length = 1 ∧
    overlayIdentifier dottedRuntime (String.mk [Char.ofNat 304]) =
      String.mk ['i', Char.ofNat 775] ∧
    (overlayIdentifier dottedRuntime (String.mk [Char.ofNat 304])).length = 2 ∧
    frameworkIconPath dottedRuntime "/ext" (String.mk [Char.ofNat 304]) =
      "/ext/icons/frameworks/" ++ String.mk ['i', Char.ofNat 775] ++ ".json" := by
  decide!

/-- C17, witness.  The keys `Next.js` and `React Native` give the identifiers `next-js` and
`react-native`. -/
theorem frameworkIconPath_identifier_witness :
    isAsciiText "Next.js" = true ∧
    overlayIdentifier sampleRuntime "Next.js" = "next-js" ∧
    overlayIdentifier sampleRuntime "React Native" = "react-native" ∧
    frameworkIconPath sampleRuntime "/ext" "Next.js" = "/ext/icons/frameworks/next-js.json" ∧
    (overlayIdentifier sampleRuntime "Next.js").length = "Next.js".length ∧
    overlayIdentifier sampleRuntime (overlayIdentifier sampleRuntime "Next.js") =
      overlayIdentifier sampleRuntime "Next.js" := by
  have h := frameworkIconPath_identifier sampleRuntime "/ext" "Next.js"
    (fun t _ => rfl) (by decide)
  exact ⟨by decide, by decide!, by decide!, by decide!, h.2.2.1, h.2.2.2⟩

/-! ## File system: siblings of a written file -/

theorem Node.get_append_dir (n : Node) (ys : List String) (z : String) (zs : List String)
    (m : Node) (h : n.get (ys ++ z :: zs) = some m) : ∃ es, n.get ys = some (.dir es) := by
  induction ys generalizing n with
  | nil =>
    cases n with
    | file c => simp [Node.get] at h
    | dir es => exact ⟨es, rfl⟩
  | cons y ys ih =>
    cases n with
    | file c => simp [Node.get] at h
    | dir es =>
      simp only [List.cons_append, Node.get] at h ⊢
      cases hc : assocGet es y with
      | none => simp [hc] at h
      | some c0 =>
        simp only [hc] at h ⊢
        exact ih c0 h

theorem Node.put_append_isSome (n : Node) (ys : List String) (l : String) (x : Node)
    (es : List (String × Node)) (h : n.get ys = some (.dir es)) :
    ∃ n', n.put (ys ++ [l]) x = some n' := by
  induction ys generalizing n with
  | nil =>
    simp only [Node.get, Option.some.injEq] at h
    subst h
    exact ⟨_, rfl⟩
  | cons y ys ih =>
    cases n with
    | file c => simp [Node.get] at h
    | dir es0 =>
      simp only [Node.get] at h
      cases hc : assocGet es0 y with
      | none => simp [hc] at h
      | some c0 =>
        simp only [hc] at h
        obtain ⟨c', hc'⟩ := ih c0 h
        cases hys : ys ++ [l] with
        | nil => simp at hys
        | cons t rest =>
          rw [hys] at hc'
          refine ⟨Node.dir (assocSet es0 y c'), ?_⟩
          simp [List.cons_append, hys, Node.put, hc, hc']

theorem Node.get_put_sibling (n n' : Node) (ys : List String) (a b : String) (x : Node)
    (hput : n.put (ys ++ [a]) x = some n') (hab : a ≠ b) :
    n'.get (ys ++ [b]) = n.get (ys ++ [b]) := by
  induction ys generalizing n n' with
  | nil =>
    cases n with
    | file c => simp [Node.put] at hput
    | dir es =>
      simp only [List.nil_append, Node.put, Option.some.injEq] at hput
      subst hput
      simp [Node.get, assocGet_assocSet_ne _ _ _ _ hab]
  | cons y ys ih =>
    cases n with
    | file c => simp [Node.put] at hput
    | dir es =>
      cases hys : ys ++ [a] with
      | nil => simp at hys
      | cons t rest =>
        simp only [List.cons_append, hys, Node.put] at hput
        cases hc : assocGet es y with
        | none => simp [hc] at hput
        | some c0 =>
          simp only [hc, Option.map_eq_some'] at hput
          obtain ⟨c', hput', hn'⟩ := hput
          subst hn'
          rw [← hys] at hput'
          simp only [List.cons_append, Node.get, assocGet_assocSet_same, hc]
          exact ih c0 c' hput'

/-! ## Paths: a file and its backup -/

theorem normStep_plain (st : List (List Char)) (seg : List Char) (h1 : seg ≠ [])
    (h2 : seg ≠ ['.']) (h3 : seg ≠ ['.', '.']) : normStep false st seg = seg :: st := by
  simp [normStep, h1, h2, h3]

theorem normStep_special (st : List (List Char)) (seg : List Char)
    (h : seg = [] ∨ seg = ['.'] ∨ seg = ['.', '.']) :
    ∃ dropped, st = dropped ++ normStep false st seg := by
  rcases h with h | h | h
  · exact ⟨[], by simp [normStep, h]⟩
  · exact ⟨[], by simp [normStep, h]⟩
  · subst h
    cases st with
    | nil => exact ⟨[], by simp [normStep]⟩
    | cons top rest =>
      by_cases ht : top = ['.', '.']
      · exact ⟨[], by simp [normStep, ht]⟩
      · exact ⟨[top], by simp [normStep, ht]⟩

theorem splitSlash_last_of_slash (cs : List Char) (init : List (List Char)) (last : List Char)
    (h : splitSlash cs = init ++ [last]) (hlast : cs.getLast? = some '/') : last = [] := by
  obtain ⟨a, ha⟩ : ∃ a, cs = a ++ ['/'] := by
    rw [List.getLast?_eq_some_iff] at hlast
    exact hlast
  rw [ha, splitSlash_append_slash] at h
  have h2 : splitSlash ([] : List Char) = [[]] := rfl
  rw [h2] at h
  have := (List.append_inj' h rfl).2
  simpa using this.symm

/-- The entry names of a path and of the path extended by a suffix such as `.backup`: either
the path names an entry beside the extended one in the same directory, or it names a
directory on the way to the extended one. -/
theorem pathSegs_suffix_cases (p sfx : String) (hs : '/' ∉ sfx.data)
    (hlen : 3 ≤ sfx.data.length) :
    ∃ parent b, pathSegs (p ++ sfx) = parent ++ [b] ∧
      ((∃ l, pathSegs p = parent ++ [l] ∧ l ≠ b ∧ endsWithSlash p = false ∧ p ≠ "") ∨
        ∃ rest, parent = pathSegs p ++ rest) := by
  obtain ⟨init, last, h1, h2⟩ := splitSlash_append_suffix p.data sfx.data hs
  have hne1 : last ++ sfx.data ≠ [] := by
    intro h
    have := congrArg List.length h
    simp only [List.length_append, List.length_nil, List.length_cons] at this
    omega
  have hne2 : last ++ sfx.data ≠ ['.'] := by
    intro h
    have := congrArg List.length h
    simp only [List.length_append, List.length_nil, List.length_cons] at this
    omega
  have hne3 : last ++ sfx.data ≠ ['.', '.'] := by
    intro h
    have := congrArg List.length h
    simp only [List.length_append, List.length_nil, List.length_cons] at this
    omega
  have hb : pathSegs (p ++ sfx) =
      ((init.foldl (normStep false) []).reverse.map String.mk) ++ [String.mk (last ++ sfx.data)] := by
    simp [pathSegs, append_data, h2, normSegs, List.foldl_append,
      normStep_plain _ _ hne1 hne2 hne3]
  have hp : pathSegs p =
      (normStep false (init.foldl (normStep false) []) last).reverse.map String.mk := by
    simp [pathSegs, h1, normSegs, List.foldl_append]
  refine ⟨_, _, hb, ?_⟩
  by_cases hsp : last = [] ∨ last = ['.'] ∨ last = ['.', '.']
  · right
    obtain ⟨dropped, hd⟩ := normStep_special (init.foldl (normStep false) []) last hsp
    refine ⟨dropped.reverse.map String.mk, ?_⟩
    rw [hp, ← List.map_append, ← List.reverse_append, ← hd]
  · left
    simp only [not_or] at hsp
    obtain ⟨p1, p2, p3⟩ := hsp
    refine ⟨String.mk last, ?_, ?_, ?_, ?_⟩
    · rw [hp, normStep_plain _ _ p1 p2 p3]
      simp
    · intro h
      have := congrArg String.data h
      simp only at this
      have := congrArg List.length this
      simp only [List.length_append] at this
      omega
    · unfold endsWithSlash
      by_contra hc
      simp only [Bool.not_eq_false, decide_eq_true_eq] at hc
      exact p1 (splitSlash_last_of_slash _ _ _ h1 hc)
    · intro h
      rw [h] at h1
      have h0 : splitSlash ("" : String).data = [[]] := rfl
      rw [h0] at h1
      have := (List.append_inj' (show ([] : List (List Char)) ++ [[]] = init ++ [last] from h1)
        rfl).2
      simp only [List.cons.injEq, and_true] at this
      exact p1 this.symm

theorem readFileSync_congr (fs fs' : Node) (q : String)
    (h : fs'.get (pathSegs q) = fs.get (pathSegs q)) : readFileSync fs' q = readFileSync fs q := by
  simp [readFileSync, stat, h]

/-- A file next to an existing regular file `p ++ sfx` can be written when nothing is there
yet, and the write leaves `p ++ sfx` as it was. -/
theorem writeFileSync_beside (fs : Node) (p sfx c c' : String) (hs : '/' ∉ sfx.data)
    (hlen : 3 ≤ sfx.data.length) (hp : p ≠ "")
    (habsent : existsSync fs p = false)
    (hfile : readFileSync fs (p ++ sfx) = .ok c) :
    ∃ fs1, writeFileSync fs p c' = .ok fs1 ∧ readFileSync fs1 (p ++ sfx) = .ok c := by
  obtain ⟨parent, b, hb, hcases⟩ := pathSegs_suffix_cases p sfx hs hlen
  have hget : ∃ m, fs.get (pathSegs (p ++ sfx)) = some m := by
    cases hg : fs.get (pathSegs (p ++ sfx)) with
    | none => simp [readFileSync, stat, hg] at hfile
    | some m => exact ⟨m, rfl⟩
  obtain ⟨m, hm⟩ := hget
  rcases hcases with ⟨l, hl, hlb, hes, _⟩ | ⟨rest, hrest⟩
  · rw [hb] at hm
    obtain ⟨es, hes'⟩ := Node.get_append_dir fs parent b [] m hm
    obtain ⟨fs1, hput⟩ := Node.put_append_isSome fs parent l (.file c') es hes'
    have hnone : fs.get (pathSegs p) = none := by
      unfold existsSync stat at habsent
      simp only [hp, if_false, hes] at habsent
      cases hg : fs.get (pathSegs p) with
      | none => rfl
      | some n => cases n <;> simp [hg] at habsent
    have hw : writeFileSync fs p c' = .ok fs1 := by
      unfold writeFileSync
      rw [hl] at hnone
      simp [hp, hes, hnone, hl, hput]
    refine ⟨fs1, hw, ?_⟩
    rw [← hfile]
    apply readFileSync_congr
    rw [hb]
    exact Node.get_put_sibling fs fs1 parent l b _ hput hlb
  · exfalso
    rw [hb, hrest, List.append_assoc] at hm
    have hne : rest ++ [b] ≠ [] := by simp
    cases hrb : rest ++ [b] with
    | nil => exact hne hrb
    | cons z zs =>
      rw [hrb] at hm
      obtain ⟨es, hes⟩ := Node.get_append_dir fs (pathSegs p) z zs m hm
      simp [existsSync, stat, hp, hes] at habsent

/-! ## Restore from the backup -/

/-- C18.  Restore is a copy: when the live slot (a path other than the empty text) is absent
and `<live>.backup` is a regular file, after `verifyIconConfiguration` the live slot exists
with exactly the content of the backup, and the backup still exists with its content
unchanged. -/
theorem verifyIconConfiguration_copies_backup (S : Session) (fs : Node) (c : String)
    (hlive : S.iconFilePath ≠ "")
    (habsent : existsSync fs S.iconFilePath = false)
    (hbackup : readFileSync fs S.backupIconPath = .ok c) :
    existsSync (verifyIconConfiguration S fs) S.iconFilePath = true ∧
    readFileSync (verifyIconConfiguration S fs) S.iconFilePath = .ok c ∧
    existsSync (verifyIconConfiguration S fs) S.backupIconPath = true ∧
    readFileSync (verifyIconConfiguration S fs) S.backupIconPath = .ok c := by
  obtain ⟨fs1, hw, hkeep⟩ := writeFileSync_beside fs S.iconFilePath ".backup" c c (by decide)
    (by decide) hlive habsent hbackup
  have hacc : liveAccepted S fs = false := by simp [liveAccepted, habsent]
  have hv : verifyIconConfiguration S fs = fs1 := by
    rw [verifyIconConfiguration_eq, hacc, restoreFromBackup_of_backup S fs fs1 c hbackup hw]
    rfl
  have hread := readFileSync_writeFileSync fs fs1 _ c hw
  have hkeep2 : readFileSync fs1 S.backupIconPath = .ok c := hkeep
  rw [hv]
  exact ⟨existsSync_of_readFileSync _ _ _ hread, hread,
    existsSync_of_readFileSync _ _ _ hkeep2, hkeep2⟩

/-- C18, witness.  With the live slot absent and a backup holding the sample base document,
the live slot becomes a copy of the backup and the backup stays. -/
theorem verifyIconConfiguration_copies_backup_witness :
    sampleSession.iconFilePath ≠ "" ∧
    existsSync validBackupFs sampleSession.iconFilePath = false ∧
    readFileSync validBackupFs sampleSession.backupIconPath = .ok (renderIndented sampleBase) ∧
    readFileSync (verifyIconConfiguration sampleSession validBackupFs)
      sampleSession.iconFilePath = .ok (renderIndented sampleBase) ∧
    readFileSync (verifyIconConfiguration sampleSession validBackupFs)
      sampleSession.backupIconPath = .ok (renderIndented sampleBase) := by
  have h1 : sampleSession.iconFilePath ≠ "" := by decide
  have h2 : existsSync validBackupFs sampleSession.iconFilePath = false := by decide!
  have h3 : readFileSync validBackupFs sampleSession.backupIconPath =
      .ok (renderIndented sampleBase) := by decide!
  have h := verifyIconConfiguration_copies_backup sampleSession validBackupFs
    (renderIndented sampleBase) h1 h2 h3
  exact ⟨h1, h2, h3, h.2.1, h.2.2.2⟩

/-! ## The staged write -/

theorem assocGet_assocErase_ne {β : Type} (l : List (String × β)) (k k' : String)
    (h : k ≠ k') : assocGet (assocErase l k) k' = assocGet l k' := by
  induction l with
  | nil => rfl
  | cons hd tl ih =>
    obtain ⟨k1, v1⟩ := hd
    unfold assocErase at ih ⊢
    simp only [ne_eq, decide_not] at ih ⊢
    by_cases h1 : k1 = k
    · subst h1
      simp [List.filter, assocGet, h, ih]
    · by_cases h2 : k1 = k'
      · subst h2
        simp [List.filter, assocGet, h1]
      · simp [List.filter, assocGet, h1, h2, ih]

theorem Node.get_remove_sibling (n n' : Node) (ys : List String) (a b : String)
    (hrem : n.remove (ys ++ [a]) = some n') (hab : a ≠ b) :
    n'.get (ys ++ [b]) = n.get (ys ++ [b]) := by
  induction ys generalizing n n' with
  | nil =>
    cases n with
    | file c => simp [Node.remove] at hrem
    | dir es =>
      simp only [List.nil_append, Node.remove, Option.some.injEq] at hrem
      subst hrem
      simp [Node.get, assocGet_assocErase_ne _ _ _ hab]
  | cons y ys ih =>
    cases n with
    | file c => simp [Node.remove] at hrem
    | dir es =>
      cases hys : ys ++ [a] with
      | nil => simp at hys
      | cons t rest =>
        simp only [List.cons_append, hys, Node.remove] at hrem
        cases hc : assocGet es y with
        | none => simp [hc] at hrem
        | some c0 =>
          simp only [hc, Option.map_eq_some'] at hrem
          obtain ⟨c', hrem', hn'⟩ := hrem
          subst hn'
          rw [← hys] at hrem'
          simp only [List.cons_append, Node.get, assocGet_assocSet_same, hc]
          exact ih c0 c' hrem'

/-- A successful rename of the staging file over the live slot: the live slot holds the staged
text and the staging file is gone. -/
theorem renameSync_staged (S : Session) (fs4 fs5 : Node) (text : String)
    (hread : readFileSync fs4 S.tempFilePath = .ok text)
    (hrename : renameSync fs4 S.tempFilePath S.iconFilePath = .ok fs5) :
    readFileSync fs5 S.iconFilePath = .ok text ∧ existsSync fs5 S.tempFilePath = false := by
  unfold renameSync at hrename
  rw [hread] at hrename
  simp only [] at hrename
  cases hw : writeFileSync fs4 S.iconFilePath text with
  | error e => simp [hw] at hrename
  | ok fsw =>
    simp only [hw, tempFilePath_ne S, if_false] at hrename
    have hlive := readFileSync_writeFileSync fs4 fsw _ _ hw
    have hput := put_of_writeFileSync fs4 fsw _ _ hw
    have hgetlive := Node.get_put_same fs4 _ _ _ hput
    unfold unlinkSync at hrename
    cases hst : stat fsw S.tempFilePath with
    | none => simp [hst] at hrename
    | some n =>
      cases n with
      | dir es => simp [hst] at hrename
      | file c0 =>
        simp only [hst] at hrename
        cases hrem : fsw.remove (pathSegs S.tempFilePath) with
        | none => simp [hrem] at hrename
        | some fs5' =>
          simp only [hrem, Except.ok.injEq] at hrename
          subst hrename
          have hgone := Node.get_remove_same fsw _ fs5' hrem
          refine ⟨?_, by simp [existsSync, stat, hgone]⟩
          have hgt : ∃ m, fsw.get (pathSegs S.tempFilePath) = some m := by
            cases hg : fsw.get (pathSegs S.tempFilePath) with
            | none => simp [stat, hg] at hst
            | some m => exact ⟨m, rfl⟩
          obtain ⟨m, hm⟩ := hgt
          obtain ⟨parent, b, hb, hcases⟩ :=
            pathSegs_suffix_cases S.iconFilePath ".temp" (by decide) (by decide)
          have hb' : pathSegs S.tempFilePath = parent ++ [b] := hb
          rcases hcases with ⟨l, hl, hlb, _, _⟩ | ⟨rest, hrest⟩
          · rw [← hlive]
            apply readFileSync_congr
            rw [hl]
            rw [hb'] at hrem
            exact Node.get_remove_sibling fsw fs5' parent b l hrem (fun e => hlb e.symm)
          · exfalso
            rw [hb', hrest, List.append_assoc] at hm
            cases hrb : rest ++ [b] with
            | nil => simp at hrb
            | cons z zs =>
              rw [hrb] at hm
              obtain ⟨es, hes⟩ := Node.get_append_dir fsw _ z zs m hm
              rw [hgetlive] at hes
              cases hes

/-! ## Overlays that cannot be merged -/

theorem processIconConfig_overlay_error (J : JsRuntime) (fs : Node) (ext fw : String)
    (baseConfig : Json) (e : JsError) (hfw : fw ≠ "")
    (hov : existsSync fs (frameworkIconPath J ext fw) = true)
    (hread : readJson J fs (frameworkIconPath J ext fw) = .error e) :
    ∃ e', processIconConfig J fs baseConfig ext (some fw) = .error e' := by
  unfold processIconConfig
  cases hr : repairConfig fs ext baseConfig with
  | error e1 => exact ⟨e1, rfl⟩
  | ok nb =>
    simp only [hfw, if_false, hov, if_true]
    unfold readJson at hread
    cases hf : readFileSync fs (frameworkIconPath J ext fw) with
    | error e2 => exact ⟨e2, rfl⟩
    | ok text =>
      simp only [hf] at hread
      cases hp : J.parse text with
      | none => exact ⟨.syntaxError, by simp [hp]⟩
      | some v => simp [hp] at hread

theorem loadIconConfig_overlay_error (J : JsRuntime) (fs : Node) (ext fw : String)
    (e : JsError) (hfw : fw ≠ "")
    (hov : existsSync fs (frameworkIconPath J ext fw) = true)
    (hread : readJson J fs (frameworkIconPath J ext fw) = .error e) :
    (∃ e', loadIconConfig J fs ext (some fw) = .error e') ∨
      loadIconConfig J fs ext (some fw) = .ok (generateBasicIconConfig fs ext) := by
  have hload : ∀ p, ∃ e', (match readJson J fs p with
      | .error e => Except.error e
      | .ok baseConfig => processIconConfig J fs baseConfig ext (some fw)) = .error e' := by
    intro p
    cases hr : readJson J fs p with
    | error e1 => exact ⟨e1, rfl⟩
    | ok b => exact processIconConfig_overlay_error J fs ext fw b e hfw hov hread
  unfold loadIconConfig
  simp only []
  split
  · split
    · exact Or.inl (hload _)
    · split
      · cases hpk : readJson J fs (pathJoin [ext, "package.json"]) with
        | error e1 => exact Or.inl ⟨e1, rfl⟩
        | ok packageData =>
          simp only []
          cases hd : declaredThemePath J packageData with
          | error e2 => exact Or.inl ⟨e2, rfl⟩
          | ok r =>
            cases r with
            | none => exact Or.inr rfl
            | some themePath =>
              simp only []
              split
              · exact Or.inl (hload _)
              · exact Or.inr rfl
      · exact Or.inr rfl
  · exact Or.inl (hload _)

/-- C20.  A corrupted overlay discards the base: for a non-empty profile key whose overlay
file exists but cannot be read and parsed as JSON, `generateIconConfig` resolves to the
minimal default document of `generateBasicIconConfig`, whatever the base document is; when
the overlay parses to `null` and the primary base document normalizes without an exception,
it resolves to the normalized base document. -/
theorem generateIconConfig_corrupt_overlay (J : JsRuntime) (fs : Node)
    (extensionPath fw : String) (hfw : fw ≠ "")
    (hov : existsSync (verifyIconFilesExist J fs extensionPath).1
      (frameworkIconPath J extensionPath fw) = true) :
    (∀ e, readJson J (verifyIconFilesExist J fs extensionPath).1
        (frameworkIconPath J extensionPath fw) = .error e →
      (generateIconConfig J fs extensionPath (some fw)).1 =
        generateBasicIconConfig (verifyIconFilesExist J fs extensionPath).1 extensionPath) ∧
    (∀ base normalized,
      (verifyIconFilesExist J fs extensionPath).2 = none →
      existsSync (verifyIconFilesExist J fs extensionPath).1
        (pathJoin [extensionPath, "icons", "seti-base.json"]) = true →
      readJson J (verifyIconFilesExist J fs extensionPath).1
        (pathJoin [extensionPath, "icons", "seti-base.json"]) = .ok base →
      repairConfig (verifyIconFilesExist J fs extensionPath).1 extensionPath base =
        .ok normalized →
      readJson J (verifyIconFilesExist J fs extensionPath).1
        (frameworkIconPath J extensionPath fw) = .ok .null →
      (generateIconConfig J fs extensionPath (some fw)).1 = normalized) := by
  constructor
  · intro e hread
    have h := loadIconConfig_overlay_error J (verifyIconFilesExist J fs extensionPath).1
      extensionPath fw e hfw hov hread
    unfold generateIconConfig
    rcases hv : verifyIconFilesExist J fs extensionPath with ⟨fs1, err⟩
    rw [hv] at h
    simp only [] at h
    cases err with
    | some e1 => rfl
    | none =>
      simp only []
      rcases h with ⟨e', h⟩ | h
      · rw [h]
      · rw [h]
  · intro base normalized hverify hexists hbase hnorm hnull
    have hproc : processIconConfig J (verifyIconFilesExist J fs extensionPath).1 base
        extensionPath (some fw) = .ok normalized := by
      unfold readJson at hnull
      cases hf : readFileSync (verifyIconFilesExist J fs extensionPath).1
          (frameworkIconPath J extensionPath fw) with
      | error e2 => simp [hf] at hnull
      | ok text =>
        simp only [hf] at hnull
        cases hp : J.parse text with
        | none => simp [hp] at hnull
        | some v =>
          simp only [hp, Except.ok.injEq] at hnull
          subst hnull
          simp [processIconConfig, hnorm, hfw, hov, hf, hp, mergeConfigurations_of_null]
    have hload : loadIconConfig J (verifyIconFilesExist J fs extensionPath).1 extensionPath
        (some fw) = .ok normalized := by
      simp [loadIconConfig, hexists, hbase, hproc]
    unfold generateIconConfig
    rcases hv : verifyIconFilesExist J fs extensionPath with ⟨fs1, err⟩
    rw [hv] at hload hverify
    simp only [] at hverify
    subst hverify
    simp only []
    rw [hload]

/-- C20, witness.  The sample extension with profile `Next.js`: with an overlay file that is
not JSON the result is the minimal default document, with an overlay file holding `null` it
is the sample base document, which is normalized. -/
theorem generateIconConfig_corrupt_overlay_witness :
    "Next.js" ≠ "" ∧
    existsSync (verifyIconFilesExist nullRuntime corruptOverlayFs "/ext").1
      (frameworkIconPath nullRuntime "/ext" "Next.js") = true ∧
    readJson nullRuntime (verifyIconFilesExist nullRuntime corruptOverlayFs "/ext").1
      (frameworkIconPath nullRuntime "/ext" "Next.js") = .error .syntaxError ∧
    (generateIconConfig nullRuntime corruptOverlayFs "/ext" (some "Next.js")).1 =
      generateBasicIconConfig (verifyIconFilesExist nullRuntime corruptOverlayFs "/ext").1
        "/ext" ∧
    readJson nullRuntime (verifyIconFilesExist nullRuntime nullOverlayFs "/ext").1
      (frameworkIconPath nullRuntime "/ext" "Next.js") = .ok .null ∧
    repairConfig (verifyIconFilesExist nullRuntime nullOverlayFs "/ext").1 "/ext" sampleBase =
      .ok sampleBase ∧
    (generateIconConfig nullRuntime nullOverlayFs "/ext" (some "Next.js")).1 = sampleBase := by
  have h1 : existsSync (verifyIconFilesExist nullRuntime corruptOverlayFs "/ext").1
      (frameworkIconPath nullRuntime "/ext" "Next.js") = true := by decide!
  have h2 : readJson nullRuntime (verifyIconFilesExist nullRuntime corruptOverlayFs "/ext").1
      (frameworkIconPath nullRuntime "/ext" "Next.js") = .error .syntaxError := by decide!
  have h3 : existsSync (verifyIconFilesExist nullRuntime nullOverlayFs "/ext").1
      (frameworkIconPath nullRuntime "/ext" "Next.js") = true := by decide!
  have h4 : readJson nullRuntime (verifyIconFilesExist nullRuntime nullOverlayFs "/ext").1
      (frameworkIconPath nullRuntime "/ext" "Next.js") = .ok .null := by decide!
  have h5 : repairConfig (verifyIconFilesExist nullRuntime nullOverlayFs "/ext").1 "/ext"
      sampleBase = .ok sampleBase := by decide!
  exact ⟨by decide, h1, h2,
    (generateIconConfig_corrupt_overlay nullRuntime corruptOverlayFs "/ext" "Next.js"
      (by decide) h1).1 _ h2,
    h4, h5,
    (generateIconConfig_corrupt_overlay nullRuntime nullOverlayFs "/ext" "Next.js"
      (by decide) h3).2 sampleBase sampleBase (by decide!) (by decide!) (by decide!) h5 h4⟩

/-! ## File system: regular files that an operation does not touch -/

theorem Node.get_put_other (n n' : Node) (p q : List String) (x : Node) (c : String)
    (hput : n.put p x = some n') (hguard : ∀ es, n.get p ≠ some (.dir es))
    (hq : n.get q = some (.file c)) (hne : q ≠ p) : n'.get q = some (.file c) := by
  induction p generalizing n n' q with
  | nil => cases n <;> simp [Node.put] at hput
  | cons s rest ih =>
    cases n with
    | file c0 => simp [Node.put] at hput
    | dir es =>
      cases q with
      | nil => simp [Node.get] at hq
      | cons s' q' =>
        cases rest with
        | nil =>
          simp only [Node.put, Option.some.injEq] at hput
          subst hput
          by_cases hs : s = s'
          · subst hs
            exfalso
            simp only [Node.get] at hq hguard
            cases hc : assocGet es s with
            | none => simp [hc] at hq
            | some c0 =>
              simp only [hc] at hq hguard
              cases c0 with
              | dir es0 => exact hguard es0 rfl
              | file c1 =>
                cases q' with
                | nil => exact hne rfl
                | cons t q'' => simp [Node.get] at hq
          · simp only [Node.get, assocGet_assocSet_ne _ _ _ _ hs]
            simpa [Node.get] using hq
        | cons t rest' =>
          simp only [Node.put] at hput
          cases hc : assocGet es s with
          | none => simp [hc] at hput
          | some c0 =>
            simp only [hc, Option.map_eq_some'] at hput
            obtain ⟨c', hput', hn'⟩ := hput
            subst hn'
            by_cases hs : s = s'
            · subst hs
              simp only [Node.get, hc] at hq hguard
              simp only [Node.get, assocGet_assocSet_same]
              exact ih c0 c' q' hput' hguard hq (fun e => hne (by rw [e]))
            · simp only [Node.get, assocGet_assocSet_ne _ _ _ _ hs]
              simpa [Node.get] using hq

theorem Node.get_mkdirp_file (n n' : Node) (p q : List String) (c : String)
    (hmk : n.mkdirp p = some n') (hq : n.get q = some (.file c)) :
    n'.get q = some (.file c) := by
  induction p generalizing n n' q with
  | nil =>
    cases n with
    | file c0 => simp [Node.mkdirp] at hmk
    | dir es =>
      simp only [Node.mkdirp, Option.some.injEq] at hmk
      subst hmk
      exact hq
  | cons s rest ih =>
    cases n with
    | file c0 => simp [Node.mkdirp] at hmk
    | dir es =>
      simp only [Node.mkdirp, Option.map_eq_some'] at hmk
      obtain ⟨c', hmk', hn'⟩ := hmk
      subst hn'
      cases q with
      | nil => simp [Node.get] at hq
      | cons s' q' =>
        by_cases hs : s = s'
        · subst hs
          simp only [Node.get] at hq
          cases hc : assocGet es s with
          | none => simp [hc] at hq
          | some c0 =>
            simp only [hc] at hq
            simp only [hc, Option.getD_some] at hmk'
            simp only [Node.get, assocGet_assocSet_same]
            exact ih c0 c' q' hmk' hq
        · simp only [Node.get, assocGet_assocSet_ne _ _ _ _ hs]
          simpa [Node.get] using hq

theorem get_of_readFileSync (fs : Node) (q c : String) (h : readFileSync fs q = .ok c) :
    fs.get (pathSegs q) = some (.file c) := by
  unfold readFileSync stat at h
  split at h
  · rename_i c0 hst
    cases h
    split at hst
    · cases hst
    · cases hg : fs.get (pathSegs q) with
      | none => simp [hg] at hst
      | some n =>
        cases n with
        | dir es => simp [hg] at hst
        | file c1 =>
          simp only [hg] at hst
          split at hst
          · cases hst
          · cases hst
            rfl
  · cases h

theorem readFileSync_of_get (fs fs' : Node) (q c : String) (h : readFileSync fs q = .ok c)
    (hget : fs'.get (pathSegs q) = some (.file c)) : readFileSync fs' q = .ok c := by
  rw [← h]
  apply readFileSync_congr
  rw [hget, get_of_readFileSync fs q c h]

/-- A write leaves every regular file at another place as it was. -/
theorem readFileSync_writeFileSync_other (fs fs' : Node) (p q c c0 : String)
    (hw : writeFileSync fs p c = .ok fs') (hq : readFileSync fs q = .ok c0)
    (hne : pathSegs q ≠ pathSegs p) : readFileSync fs' q = .ok c0 := by
  have hput := put_of_writeFileSync fs fs' p c hw
  have hguard : ∀ es, fs.get (pathSegs p) ≠ some (.dir es) := by
    intro es hes
    unfold writeFileSync at hw
    split at hw
    · cases hw
    · simp [hes] at hw
  exact readFileSync_of_get fs fs' q c0 hq
    (Node.get_put_other fs fs' _ _ _ c0 hput hguard (get_of_readFileSync fs q c0 hq) hne)

/-- Creating directories leaves every regular file as it was. -/
theorem readFileSync_mkdirSync (fs fs' : Node) (p q c : String)
    (hm : mkdirSync fs p = .ok fs') (hq : readFileSync fs q = .ok c) :
    readFileSync fs' q = .ok c := by
  unfold mkdirSync at hm
  split at hm
  · cases hm
  · cases hmk : fs.mkdirp (pathSegs p) with
    | none => simp [hmk] at hm
    | some n =>
      simp only [hmk, Except.ok.injEq] at hm
      subst hm
      exact readFileSync_of_get fs n q c hq
        (Node.get_mkdirp_file fs n _ _ c hmk (get_of_readFileSync fs q c hq))

/-- A guarded copy of `verifyIconFilesExist` leaves every regular file as it was: it writes
only where nothing exists. -/
theorem readFileSync_copyIfMissing (fs fs' : Node) (found : Option String) (target q c : String)
    (hcopy : copyIfMissing fs found target = .ok fs') (hq : readFileSync fs q = .ok c) :
    readFileSync fs' q = .ok c := by
  unfold copyIfMissing at hcopy
  cases found with
  | none =>
    simp only [Except.ok.injEq] at hcopy
    subst hcopy
    exact hq
  | some src =>
    simp only [] at hcopy
    split at hcopy
    · rename_i hmissing
      unfold copyFileSync at hcopy
      cases hr : readFileSync fs src with
      | error e => simp [hr] at hcopy
      | ok text =>
        simp only [hr] at hcopy
        by_cases hne : pathSegs q = pathSegs target
        · exfalso
          have hget := get_of_readFileSync fs q c hq
          rw [hne] at hget
          have hcond : ¬ (target = "" ∨ endsWithSlash target = true) := by
            intro hc
            simp [writeFileSync, hc] at hcopy
          simp only [not_or] at hcond
          have : existsSync fs target = true := by
            simp [existsSync, stat, hcond.1, hget, hcond.2]
          simp [this] at hmissing
        · exact readFileSync_writeFileSync_other fs fs' target q text c hcopy hq hne
    · simp only [Except.ok.injEq] at hcopy
      subst hcopy
      exact hq

/-- A write creates nothing at another place. -/
theorem existsSync_writeFileSync_absent (fs fs1 : Node) (p q c : String)
    (hw : writeFileSync fs p c = .ok fs1) (hq : existsSync fs q = false)
    (hne : pathSegs q ≠ pathSegs p) : existsSync fs1 q = false := by
  cases hg : fs.get (pathSegs q) with
  | none => exact existsSync_writeFileSync_other fs fs1 p q c hw hg hne
  | some n =>
    by_cases hq0 : q = ""
    · simp [existsSync, stat, hq0]
    · cases n with
      | dir es => simp [existsSync, stat, hq0, hg] at hq
      | file c0 =>
        have hes : endsWithSlash q = true := by
          by_contra hc
          simp [existsSync, stat, hq0, hg, hc] at hq
        have hput := put_of_writeFileSync fs fs1 p c hw
        have hguard : ∀ es, fs.get (pathSegs p) ≠ some (.dir es) := by
          intro es hes1
          unfold writeFileSync at hw
          split at hw
          · cases hw
          · simp [hes1] at hw
        have := Node.get_put_other fs fs1 _ _ _ c0 hput hguard hg hne
        simp [existsSync, stat, hq0, this, hes]

theorem verifyIconFilesExist_of_icons (J : JsRuntime) (fs : Node) (ext : String)
    (h1 : existsSync fs (pathJoin [ext, "icons", "file.svg"]) = true)
    (h2 : existsSync fs (pathJoin [ext, "icons", "folder.svg"]) = true)
    (h3 : existsSync fs (pathJoin [ext, "icons", "folder-open.svg"]) = true) :
    verifyIconFilesExist J fs ext = (fs, none) := by
  simp [verifyIconFilesExist, h1, h2, h3]

/-! ## Reset to the default icons -/

/-- The icon check of `generateIconConfig` leaves every regular file as it was. -/
theorem readFileSync_verifyIconFilesExist (J : JsRuntime) (fs : Node) (ext q c : String)
    (hq : readFileSync fs q = .ok c) :
    readFileSync (verifyIconFilesExist J fs ext).1 q = .ok c := by
  unfold verifyIconFilesExist
  simp only []
  split
  · exact hq
  · cases hmk : (if (!existsSync fs (pathJoin [ext, "icons"])) = true then
        mkdirSync fs (pathJoin [ext, "icons"]) else Except.ok fs) with
    | error e => exact hq
    | ok fs1 =>
      have h1 : readFileSync fs1 q = .ok c := by
        split at hmk
        · exact readFileSync_mkdirSync fs fs1 _ q c hmk hq
        · cases hmk
          exact hq
      simp only []
      cases hf1 : findFileInDir J fs1 ext "file.svg" with
      | error e =>
        cases findFileInDir J fs1 ext "folder.svg" <;>
          cases findFileInDir J fs1 ext "folder-open.svg" <;> exact h1
      | ok fileIcon =>
        cases hf2 : findFileInDir J fs1 ext "folder.svg" with
        | error e => cases findFileInDir J fs1 ext "folder-open.svg" <;> exact h1
        | ok folderIcon =>
          cases hf3 : findFileInDir J fs1 ext "folder-open.svg" with
          | error e => exact h1
          | ok folderOpenIcon =>
            simp only []
            cases hc1 : copyIfMissing fs1 fileIcon (pathJoin [ext, "icons", "file.svg"]) with
            | error e => exact h1
            | ok fs2 =>
              have h2 := readFileSync_copyIfMissing fs1 fs2 _ _ q c hc1 h1
              simp only []
              cases hc2 : copyIfMissing fs2 folderIcon
                  (pathJoin [ext, "icons", "folder.svg"]) with
              | error e => exact h2
              | ok fs3 =>
                have h3 := readFileSync_copyIfMissing fs2 fs3 _ _ q c hc2 h2
                simp only []
                cases hc3 : copyIfMissing fs3 folderOpenIcon
                    (pathJoin [ext, "icons", "folder-open.svg"]) with
                | error e => exact h3
                | ok fs4 => exact readFileSync_copyIfMissing fs3 fs4 _ _ q c hc3 h3

theorem generateIconConfig_snd (J : JsRuntime) (fs : Node) (ext : String)
    (framework : Option String) :
    (generateIconConfig J fs ext framework).2 = (verifyIconFilesExist J fs ext).1 := by
  unfold generateIconConfig
  rcases hv : verifyIconFilesExist J fs ext with ⟨fs1, err⟩
  cases err with
  | some e => rfl
  | none =>
    simp only []
    cases loadIconConfig J fs1 ext framework <;> rfl

/-- C21.  Reset targets a fixed path, not the live slot: `resetToDefaultIcons` makes one write,
of the indented text of the regenerated default configuration, to
`path.join(extensionPath, "seti.json")`, whatever `global.iconFilePath` is.  When the write
succeeds that file holds exactly this text, and when it throws nothing is written.  Either way
every regular file that is at another place keeps its content: in particular a live slot that
is configured at a different path, and its `.backup`, `.previous` and `.temp` companions; and
what did not exist at another place when the configuration had been regenerated, such as a
staging or snapshot file, does not exist afterwards.  (The regeneration itself changes the
file system only when a basic icon is missing.) -/
theorem resetToDefaultIcons_target (S : Session) (fs : Node) :
    (∀ fs1, writeFileSync (generateIconConfig S.runtime fs S.extensionPath none).2
        (pathJoin [S.extensionPath, "seti.json"])
        (S.runtime.stringifyIndented
          (generateIconConfig S.runtime fs S.extensionPath none).1) = .ok fs1 →
      resetToDefaultIcons S fs = fs1 ∧
      readFileSync (resetToDefaultIcons S fs) (pathJoin [S.extensionPath, "seti.json"]) =
        .ok (S.runtime.stringifyIndented
          (generateIconConfig S.runtime fs S.extensionPath none).1)) ∧
    (∀ e, writeFileSync (generateIconConfig S.runtime fs S.extensionPath none).2
        (pathJoin [S.extensionPath, "seti.json"])
        (S.runtime.stringifyIndented
          (generateIconConfig S.runtime fs S.extensionPath none).1) = .error e →
      resetToDefaultIcons S fs = (generateIconConfig S.runtime fs S.extensionPath none).2) ∧
    (∀ q c, readFileSync fs q = .ok c →
      pathSegs q ≠ pathSegs (pathJoin [S.extensionPath, "seti.json"]) →
      readFileSync (resetToDefaultIcons S fs) q = .ok c) ∧
    (pathSegs S.iconFilePath ≠ pathSegs (pathJoin [S.extensionPath, "seti.json"]) →
      ∀ c, readFileSync fs S.iconFilePath = .ok c →
        readFileSync (resetToDefaultIcons S fs) S.iconFilePath = .ok c) ∧
    (∀ q, existsSync (generateIconConfig S.runtime fs S.extensionPath none).2 q = false →
      pathSegs q ≠ pathSegs (pathJoin [S.extensionPath, "seti.json"]) →
      existsSync (resetToDefaultIcons S fs) q = false) ∧
    (existsSync fs (pathJoin [S.extensionPath, "icons", "file.svg"]) = true →
      existsSync fs (pathJoin [S.extensionPath, "icons", "folder.svg"]) = true →
      existsSync fs (pathJoin [S.extensionPath, "icons", "folder-open.svg"]) = true →
      (generateIconConfig S.runtime fs S.extensionPath none).2 = fs) := by
  have hframe : ∀ q c, readFileSync fs q = .ok c →
      pathSegs q ≠ pathSegs (pathJoin [S.extensionPath, "seti.json"]) →
      readFileSync (resetToDefaultIcons S fs) q = .ok c := by
    intro q c hq hne
    have hgen : readFileSync (generateIconConfig S.runtime fs S.extensionPath none).2 q =
        .ok c := by
      rw [generateIconConfig_snd]
      exact readFileSync_verifyIconFilesExist S.runtime fs S.extensionPath q c hq
    unfold resetToDefaultIcons
    simp only []
    cases hw : writeFileSync (generateIconConfig S.runtime fs S.extensionPath none).2
        (pathJoin [S.extensionPath, "seti.json"])
        (S.runtime.stringifyIndented
          (generateIconConfig S.runtime fs S.extensionPath none).1) with
    | error e => exact hgen
    | ok fs1 => exact readFileSync_writeFileSync_other _ fs1 _ q _ c hw hgen hne
  refine ⟨?_, ?_, hframe, fun hne c hq => hframe _ c hq hne, ?_, ?_⟩
  · intro fs1 hw
    have hr : resetToDefaultIcons S fs = fs1 := by
      unfold resetToDefaultIcons
      simp only [hw]
    rw [hr]
    exact ⟨rfl, readFileSync_writeFileSync _ fs1 _ _ hw⟩
  · intro e hw
    unfold resetToDefaultIcons
    simp only [hw]
  · intro q hq hne
    unfold resetToDefaultIcons
    simp only []
    cases hw : writeFileSync (generateIconConfig S.runtime fs S.extensionPath none).2
        (pathJoin [S.extensionPath, "seti.json"])
        (S.runtime.stringifyIndented
          (generateIconConfig S.runtime fs S.extensionPath none).1) with
    | error e => exact hq
    | ok fs1 => exact existsSync_writeFileSync_absent _ fs1 _ q _ hw hq hne
  · intro h1 h2 h3
    rw [generateIconConfig_snd,
      verifyIconFilesExist_of_icons S.runtime fs S.extensionPath h1 h2 h3]

/-- C21, witness.  The manifest declares the live slot `themes/seti.json`, so `activate` sets
`global.iconFilePath` to `/ext/themes/seti.json`.  A reset writes the regenerated default
configuration to `/ext/seti.json`; the live slot keeps its content, and no staging, snapshot
or backup file appears. -/
theorem resetToDefaultIcons_target_witness :
    themedSession.iconFilePath = "/ext/themes/seti.json" ∧
    pathSegs themedSession.iconFilePath ≠ pathSegs (pathJoin ["/ext", "seti.json"]) ∧
    readFileSync themedFs themedSession.iconFilePath = .ok (renderIndented basicConfig) ∧
    resetToDefaultIcons themedSession themedFs = themedResetFs ∧
    readFileSync (resetToDefaultIcons themedSession themedFs)
      (pathJoin [themedSession.extensionPath, "seti.json"]) =
      .ok (themedSession.runtime.stringifyIndented
        (generateIconConfig themedSession.runtime themedFs themedSession.extensionPath
          none).1) ∧
    readFileSync (resetToDefaultIcons themedSession themedFs) themedSession.iconFilePath =
      .ok (renderIndented basicConfig) ∧
    existsSync (resetToDefaultIcons themedSession themedFs) themedSession.tempFilePath =
      false := by
  have h := resetToDefaultIcons_target themedSession themedFs
  have h1 : themedSession.iconFilePath = "/ext/themes/seti.json" := by decide!
  have h2 : pathSegs themedSession.iconFilePath ≠ pathSegs (pathJoin ["/ext", "seti.json"]) := by
    decide!
  have h3 : readFileSync themedFs themedSession.iconFilePath =
      .ok (renderIndented basicConfig) := by decide!
  have h4 := h.1 themedResetFs (by decide!)
  exact ⟨h1, h2, h3, h4.1, h4.2, h.2.2.2.1 h2 _ h3,
    h.2.2.2.2.1 themedSession.tempFilePath (by decide!) (by decide!)⟩

/-! ## The commit -/

/-- The staging validation succeeds exactly when the re-read of the staging file parses to a
value that is not `null` and has type `object`. -/
theorem stagingValid_iff (S : Session) (fs : Node) :
    stagingValid S fs = true ↔
      ∃ v, readJson S.runtime fs S.tempFilePath = .ok v ∧ truthy v = true ∧
        typeofObject v = true := by
  unfold stagingValid
  cases h : readJson S.runtime fs S.tempFilePath with
  | error e => simp
  | ok v => simp

/-- The failure-free path of the commit: the staging file holds the indented text of the
document, and after the rename the live slot holds that text and the staging file is gone. -/
theorem commitIconConfig_commit (S : Session) (host : HostCalls) (fs fs4 fs5 : Node)
    (d : Json)
    (hcheck : structureComplete d = true)
    (hstage : stageIconConfig S fs d = .ok fs4)
    (hvalid : stagingValid S fs4 = true)
    (hrename : renameSync fs4 S.tempFilePath S.iconFilePath = .ok fs5)
    (hhost : host.themeUpdateThrows = false) :
    readFileSync fs4 S.tempFilePath = .ok (S.runtime.stringifyIndented d) ∧
    commitIconConfig S host fs d = (!host.promptThrows, fs5) ∧
    readFileSync fs5 S.iconFilePath = .ok (S.runtime.stringifyIndented d) ∧
    existsSync fs5 S.tempFilePath = false := by
  obtain ⟨fs3, hw⟩ := stageIconConfig_written S fs fs4 d hstage
  have hread := readFileSync_writeFileSync fs3 fs4 _ _ hw
  obtain ⟨hlive, hgone⟩ := renameSync_staged S fs4 fs5 _ hread hrename
  have hupd : commitIconConfig S host fs d = (!host.promptThrows, fs5) := by
    unfold commitIconConfig
    simp [hcheck, hstage, tryPromote, hvalid, hrename, hhost]
  exact ⟨hread, hupd, hlive, hgone⟩

/-- C19, as amended.  `updateIconsForFramework` hands the document it awaited to the commit
steps.  For every document `d` that passes the pre-check and every file system: when the
staging file is written, the staging validation succeeds, the rename succeeds and the theme
update does not throw, then the staging file held exactly the indented text of `d`, the
validation parsed it to a value `v` that is not `null` and has type `object`, the commit ends
with the live slot holding exactly that text and no staging file, and parsing the live slot
gives the same `v`.  Parsing the live slot gives `d` itself exactly when the text of `d`
parses back to `d`. -/
theorem updateIconsForFramework_staged_text (S : Session) (host : HostCalls)
    (fs fs4 fs5 : Node) (d : Json)
    (hcheck : structureComplete d = true)
    (hstage : stageIconConfig S fs d = .ok fs4)
    (hvalid : stagingValid S fs4 = true)
    (hrename : renameSync fs4 S.tempFilePath S.iconFilePath = .ok fs5)
    (hhost : host.themeUpdateThrows = false) :
    (∀ fs0 framework, updateIconsForFramework S host fs0 framework =
      commitIconConfig S host
        (generateIconConfig S.runtime fs0 S.extensionPath (some framework)).2
        (generateIconConfig S.runtime fs0 S.extensionPath (some framework)).1) ∧
    ∃ v, S.runtime.parse (S.runtime.stringifyIndented d) = some v ∧
      truthy v = true ∧ typeofObject v = true ∧
      readFileSync fs4 S.tempFilePath = .ok (S.runtime.stringifyIndented d) ∧
      commitIconConfig S host fs d = (!host.promptThrows, fs5) ∧
      readFileSync fs5 S.iconFilePath = .ok (S.runtime.stringifyIndented d) ∧
      readJson S.runtime fs5 S.iconFilePath = .ok v ∧
      existsSync fs5 S.tempFilePath = false ∧
      (readJson S.runtime fs5 S.iconFilePath = .ok d ↔
        S.runtime.parse (S.runtime.stringifyIndented d) = some d) := by
  refine ⟨fun _ _ => rfl, ?_⟩
  obtain ⟨hread, hupd, hlive, hgone⟩ :=
    commitIconConfig_commit S host fs fs4 fs5 d hcheck hstage hvalid hrename hhost
  obtain ⟨v, hv, ht, ho⟩ := (stagingValid_iff S fs4).mp hvalid
  have hparse : S.runtime.parse (S.runtime.stringifyIndented d) = some v := by
    simp only [readJson, hread] at hv
    cases hp : S.runtime.parse (S.runtime.stringifyIndented d) with
    | none => simp [hp] at hv
    | some w =>
      simp only [hp, Except.ok.injEq] at hv
      rw [hv]
  have hjson : readJson S.runtime fs5 S.iconFilePath = .ok v := by
    simp [readJson, hlive, hparse]
  refine ⟨v, hparse, ht, ho, hread, hupd, hlive, hjson, hgone, ?_⟩
  rw [hjson, hparse]
  constructor
  · intro h
    cases h
    rfl
  · intro h
    cases h
    rfl

/-- C19, counterexample.  The base document has a definition that is an array.  The generated
document passes the pre-check and carries `fontColor` on that array; its indented text does
not show the property, so the text parses to the base document, not to the generated one.
The commit succeeds, the live slot holds that text, and parsing the live slot does not give
the generated document. -/
theorem updateIconsForFramework_loses_property :
    (generateIconConfig arraySession.runtime arrayFs arraySession.extensionPath
      (some "Vue")).1 = arrayNormalized ∧
    structureComplete arrayNormalized = true ∧
    (updateIconsForFramework arraySession ⟨false, false⟩ arrayFs "Vue").1 = true ∧
    readFileSync (updateIconsForFramework arraySession ⟨false, false⟩ arrayFs "Vue").2
      arraySession.iconFilePath =
      .ok (arraySession.runtime.stringifyIndented arrayNormalized) ∧
    arraySession.runtime.parse (arraySession.runtime.stringifyIndented arrayNormalized) =
      some arrayBase ∧
    readJson arraySession.runtime
      (updateIconsForFramework arraySession ⟨false, false⟩ arrayFs "Vue").2
      arraySession.iconFilePath = .ok arrayBase ∧
    arrayBase ≠ arrayNormalized ∧
    lookupIn arrayNormalized "iconDefinitions" "list" =
      some (.arr [] [("fontColor", .str "#519aba")]) ∧
    lookupIn arrayBase "iconDefinitions" "list" = some (.arr [] []) := by
  decide!

/-- C19, witness.  The sample extension, live slot absent, profile `Vue` (no overlay): the
generated document is the sample base document, the staging file holds its indented text, the
commit leaves exactly that text in the live slot, and here the text parses back to the
document. -/
theorem updateIconsForFramework_staged_text_witness :
    generateIconConfig sampleSession.runtime sampleFs sampleSession.extensionPath
      (some "Vue") = (sampleBase, sampleFs) ∧
    structureComplete sampleBase = true ∧
    stageIconConfig sampleSession sampleFs sampleBase = .ok sampleStagedFs ∧
    stagingValid sampleSession sampleStagedFs = true ∧
    renameSync sampleStagedFs sampleSession.tempFilePath sampleSession.iconFilePath =
      .ok sampleCommittedFs ∧
    updateIconsForFramework sampleSession ⟨false, false⟩ sampleFs "Vue" =
      (true, sampleCommittedFs) ∧
    readFileSync sampleCommittedFs sampleSession.iconFilePath =
      .ok (renderIndented sampleBase) ∧
    readJson sampleSession.runtime sampleCommittedFs sampleSession.iconFilePath =
      .ok sampleBase := by
  have h0 : generateIconConfig sampleSession.runtime sampleFs sampleSession.extensionPath
      (some "Vue") = (sampleBase, sampleFs) := by decide!
  have h1 : structureComplete sampleBase = true := by decide!
  have h2 : stageIconConfig sampleSession sampleFs sampleBase = .ok sampleStagedFs := by
    decide!
  have h3 : stagingValid sampleSession sampleStagedFs = true := by decide!
  have h4 : renameSync sampleStagedFs sampleSession.tempFilePath sampleSession.iconFilePath =
      .ok sampleCommittedFs := by decide!
  obtain ⟨hlink, v, _, _, _, _, hupd, hlive, _, _, hround⟩ :=
    updateIconsForFramework_staged_text sampleSession ⟨false, false⟩ sampleFs sampleStagedFs
      sampleCommittedFs sampleBase h1 h2 h3 h4 rfl
  refine ⟨h0, h1, h2, h3, h4, ?_, hlive, hround.mpr (by decide!)⟩
  rw [hlink, h0]
  exact hupd

/-- C3, as amended.  Commit gate.  `updateIconsForFramework` hands the document it awaited to
the commit steps.  For every document and file system, the commit reports success exactly
when the document is a non-null object with truthy `iconDefinitions`, `file` and `folder`,
the staging file is written, its re-read parses to a non-null object, the rename succeeds and
the editor calls do not throw; the live slot then holds the indented text of the document.
No other property of the document is among the conditions: whether its roles and bindings
name defined icon keys plays no part, so a document with dangling references that meets them
is committed.  A document that fails the structural check is rejected before anything is
written. -/
theorem updateIconsForFramework_gate (S : Session) (host : HostCalls) (fs : Node)
    (d : Json) :
    (∀ fs0 framework, updateIconsForFramework S host fs0 framework =
      commitIconConfig S host
        (generateIconConfig S.runtime fs0 S.extensionPath (some framework)).2
        (generateIconConfig S.runtime fs0 S.extensionPath (some framework)).1) ∧
    ((commitIconConfig S host fs d).1 = true ↔
      structureComplete d = true ∧
      ∃ fs4 fs5,
        stageIconConfig S fs d = .ok fs4 ∧
        stagingValid S fs4 = true ∧
        renameSync fs4 S.tempFilePath S.iconFilePath = .ok fs5 ∧
        host.themeUpdateThrows = false ∧ host.promptThrows = false ∧
        (commitIconConfig S host fs d).2 = fs5 ∧
        readFileSync fs5 S.iconFilePath = .ok (S.runtime.stringifyIndented d)) ∧
    (structureComplete d = false → commitIconConfig S host fs d = (false, fs)) := by
  refine ⟨fun _ _ => rfl, ⟨?_, ?_⟩, ?_⟩
  · intro hres
    by_cases hcheck : structureComplete d = true
    · refine ⟨hcheck, ?_⟩
      cases hstage : stageIconConfig S fs d with
      | error fs3 =>
        exfalso
        unfold commitIconConfig at hres
        simp [hcheck, hstage] at hres
      | ok fs4 =>
        by_cases hvalid : stagingValid S fs4 = true
        · cases hrename : renameSync fs4 S.tempFilePath S.iconFilePath with
          | error e =>
            exfalso
            unfold commitIconConfig at hres
            simp [hcheck, hstage, tryPromote, hvalid, hrename] at hres
          | ok fs5 =>
            by_cases hhost : host.themeUpdateThrows = false
            · obtain ⟨_, hupd, hlive, _⟩ := commitIconConfig_commit S host fs fs4 fs5
                d hcheck hstage hvalid hrename hhost
              rw [hupd] at hres
              refine ⟨fs4, fs5, rfl, hvalid, hrename, hhost, by simpa using hres, ?_, hlive⟩
              rw [hupd]
            · exfalso
              unfold commitIconConfig at hres
              simp [hcheck, hstage, tryPromote, hvalid, hrename, hhost] at hres
        · exfalso
          unfold commitIconConfig at hres
          simp [hcheck, hstage, tryPromote, hvalid] at hres
    · exfalso
      unfold commitIconConfig at hres
      simp [hcheck] at hres
  · rintro ⟨hcheck, fs4, fs5, hstage, hvalid, hrename, hhost, hprompt, _, _⟩
    obtain ⟨_, hupd, _, _⟩ := commitIconConfig_commit S host fs fs4 fs5
      d hcheck hstage hvalid hrename hhost
    rw [hupd]
    simp [hprompt]
  · intro h
    unfold commitIconConfig
    simp [h]

/-- C3, witness.  A document without roles is rejected and nothing is written; the document
with dangling roles meets every condition of the commit and is committed. -/
theorem updateIconsForFramework_gate_witness :
    generateIconConfig incompleteSession.runtime incompleteFs
      incompleteSession.extensionPath (some "Vue") = (incompleteBase, incompleteFs) ∧
    structureComplete incompleteBase = false ∧
    updateIconsForFramework incompleteSession ⟨false, false⟩ incompleteFs "Vue" =
      (false, incompleteFs) ∧
    generateIconConfig danglingSession.runtime danglingFs
      danglingSession.extensionPath (some "Vue") = (danglingBase, danglingFs) ∧
    invariantI1 danglingBase = false ∧
    structureComplete danglingBase = true ∧
    (updateIconsForFramework danglingSession ⟨false, false⟩ danglingFs "Vue").1 = true ∧
    readFileSync (updateIconsForFramework danglingSession ⟨false, false⟩ danglingFs "Vue").2
      danglingSession.iconFilePath =
        .ok (danglingSession.runtime.stringifyIndented danglingBase) := by
  have g1 : generateIconConfig incompleteSession.runtime incompleteFs
      incompleteSession.extensionPath (some "Vue") = (incompleteBase, incompleteFs) := by
    decide!
  have g2 : generateIconConfig danglingSession.runtime danglingFs
      danglingSession.extensionPath (some "Vue") = (danglingBase, danglingFs) := by decide!
  have h1 : structureComplete incompleteBase = false := by decide!
  have h3 : (commitIconConfig danglingSession ⟨false, false⟩ danglingFs danglingBase).1 =
      true := by decide!
  have hA := updateIconsForFramework_gate incompleteSession ⟨false, false⟩ incompleteFs
    incompleteBase
  have hB := updateIconsForFramework_gate danglingSession ⟨false, false⟩ danglingFs
    danglingBase
  obtain ⟨hc, fs4, fs5, _, _, _, _, _, h5, h6⟩ := hB.2.1.mp h3
  refine ⟨g1, h1, ?_, g2, by decide!, hc, ?_, ?_⟩
  · rw [hA.1, g1]
    exact hA.2.2 h1
  · rw [hB.1, g2]
    exact h3
  · rw [hB.1, g2, h5]
    exact h6

end SetiIcons
